import Mathlib

/-!
# Load balancer: strategies, rate limiter, health checker, configuration

A shallow embedding of `internal/balancer` (round-robin and random strategies,
factory, atomic cell), `internal/ratelimiter` (token bucket, limiter registry,
cleanup tick), `internal/health` (one round of probes, start and stop of the
loop), `internal/config` (defaults) and the subscribers of `cmd/balancer`,
followed by theorems about the embedded code.

Conventions of the embedding
* Go `int` values are `Int`. The sum `Tokens + newTokens` of `Bucket.allow` wraps
  around as 64-bit arithmetic does (`wrapInt`); cursors and list lengths stay far
  from the 64-bit range.
* A Go slice of strings is a `List String`; a defensive copy is the list itself.
* A call that may end in a runtime panic returns `Option`, `none` being the panic.
* Mutexes are not modelled: every method is one atomic step of a sequential trace.
-/

namespace LoadBalancer

set_option maxRecDepth 100000

/-! ## internal/balancer -/

/-- The error values of package `balancer` (`factory.go`). -/
inductive BalancerError where
  | ErrNoHealthyBackends
  deriving DecidableEq, Repr

/-- Go result pair `(string, error)`; `none` in the second component is `nil`. -/
abbrev NextResult := String × Option BalancerError

/-- The struct `RoundRobin` of `round-robin.go` (without its mutex). -/
structure RoundRobin where
  backends : List String
  index : Int
  deriving DecidableEq, Repr

/-- `NewRoundRobin`: the cursor starts at the zero value. -/
def NewRoundRobin (backends : List String) : RoundRobin :=
  { backends := backends, index := 0 }

/-- The element-wise loop of `slicesEqual`, run once the lengths agree. -/
def slicesEqualLoop : List String → List String → Bool
  | x :: xs, y :: ys => if x ≠ y then false else slicesEqualLoop xs ys
  | _, _ => true

/-- `slicesEqual`: length test first, then the element-wise loop. -/
def slicesEqual (a b : List String) : Bool :=
  if a.length ≠ b.length then false else slicesEqualLoop a b

/-- `RoundRobin.Update`. -/
def RoundRobin.Update (r : RoundRobin) (backends : List String) : RoundRobin :=
  let index1 : Int := if !slicesEqual r.backends backends then 0 else r.index
  let backends1 : List String := [] ++ backends
  let index2 : Int :=
    if backends1.length > 0 ∧ index1 ≥ (backends1.length : Int) then 0 else index1
  { backends := backends1, index := index2 }

/-- `RoundRobin.Next`. The slice access `r.backends[r.index]` panics when the
cursor is out of range, which is the result `none`. Go's `%` is `Int.tmod`. -/
def RoundRobin.Next (r : RoundRobin) : Option (NextResult × RoundRobin) :=
  if r.backends.length = 0 then
    some (("", some BalancerError.ErrNoHealthyBackends), r)
  else if 0 ≤ r.index then
    match r.backends[r.index.toNat]? with
    | some backend =>
        some ((backend, none),
          { r with index := Int.tmod (r.index + 1) (r.backends.length : Int) })
    | none => none
  else none

/-- The state after `k` successive `Next` calls (`none` if one of them panics). -/
def RoundRobin.afterNexts : Nat → RoundRobin → Option RoundRobin
  | 0, r => some r
  | k + 1, r =>
      match r.Next with
      | some (_, r1) => RoundRobin.afterNexts k r1
      | none => none

/-- The results of `k` successive `Next` calls, in call order. -/
def RoundRobin.nextResults : Nat → RoundRobin → Option (List NextResult)
  | 0, _ => some []
  | k + 1, r =>
      match r.Next with
      | some (res, r1) =>
          match RoundRobin.nextResults k r1 with
          | some rest => some (res :: rest)
          | none => none
      | none => none

/-- The struct `Random` of `random.go` (without its lock). -/
structure Random where
  backends : List String
  deriving DecidableEq, Repr

/-- `NewRandom`: stores a copy of the list. -/
def NewRandom (backends : List String) : Random :=
  { backends := [] ++ backends }

/-- `Random.Next`. The argument `draw` is the value that `rand.IntN(len)` returns
in this call; it is consulted only when the list is non-empty. -/
def Random.Next (r : Random) (draw : Nat) : Option (NextResult × Random) :=
  if r.backends.length = 0 then
    some (("", some BalancerError.ErrNoHealthyBackends), r)
  else
    match r.backends[draw]? with
    | some backend => some ((backend, none), r)
    | none => none

/-- `Random.Update`. -/
def Random.Update (_r : Random) (backends : List String) : Random :=
  { backends := [] ++ backends }

/-! ## internal/ratelimiter

Clock readings (`time.Now()`) are arguments of the functions that make them.
An instant is its monotonic reading in nanoseconds, a `time.Duration` a number of
nanoseconds, and `Time.Sub` saturates as in package `time`.

A finite `float64` is modelled exactly, as `m · 2^e`, and every operation rounds
its exact result to the nearest `float64`, ties to even, as IEEE 754 arithmetic
does. Infinities, NaN and subnormal numbers are left out: the operations of
`Bucket.allow` on 64-bit operands reach none of them. -/

/-- An instant: the monotonic clock reading in nanoseconds. -/
abbrev Time := Int

/-- A `time.Duration`: nanoseconds. -/
abbrev Duration := Int

/-- The constant `minDuration` of package `time`. -/
def minDuration : Duration := -9223372036854775808

/-- The constant `maxDuration` of package `time`. -/
def maxDuration : Duration := 9223372036854775807

/-- `Time.Sub`: the difference of two instants, `minDuration` or `maxDuration`
when it does not fit a `Duration`. -/
def Time.Sub (t u : Time) : Duration :=
  if t - u < minDuration then minDuration
  else if maxDuration < t - u then maxDuration
  else t - u

/-- The result of a Go `int` operation whose exact result is `i`: the 64-bit
two-complement value. -/
def wrapInt (i : Int) : Int :=
  (i + 9223372036854775808) % 18446744073709551616 - 9223372036854775808

/-- The loop of `ilog2`. -/
def log2Fuel : Nat → Nat → Nat
  | 0, _ => 0
  | fuel + 1, n => if n < 2 then 0 else log2Fuel fuel (n / 2) + 1

/-- The position of the highest set bit of `n`, that is, `floor(log2 n)` for
`n ≥ 1`. -/
def ilog2 (n : Nat) : Nat := log2Fuel n n

/-- A finite `float64` value, `m · 2^e`. -/
structure F64 where
  m : Int
  e : Int
  deriving DecidableEq, Repr

/-- The number that a `float64` value stands for. -/
def F64.val (x : F64) : ℚ := (x.m : ℚ) * (2 : ℚ) ^ x.e

/-- The fraction `a / (d · 2^e)` as a numerator and a denominator. -/
def F64.scaled (a d : Nat) (e : Int) : Nat × Nat :=
  if 0 ≤ e then (a, d * 2 ^ e.toNat) else (a * 2 ^ (-e).toNat, d)

/-- The integer nearest to `N / D`, the even one of the two when `N / D` lies
half-way. -/
def F64.nearest (N D : Nat) : Nat :=
  if 2 * (N % D) < D then N / D
  else if D < 2 * (N % D) then N / D + 1
  else if (N / D) % 2 = 0 then N / D else N / D + 1

/-- The exponent `e` of the unit in the last place of `a / d`: the one with
`2^52 ≤ a / (d · 2^e) < 2^53`. -/
def F64.exponent (a d : Nat) : Int :=
  let e1 : Int := (ilog2 a : Int) - (ilog2 d : Int) - 52
  if 2 ^ 52 ≤ (F64.scaled a d e1).1 / (F64.scaled a d e1).2 then e1 else e1 - 1

/-- The positive fraction `a / d` rounded to 53 significant bits: the
significand and the exponent. -/
def F64.roundNat (a d : Nat) : Nat × Int :=
  let e : Int := F64.exponent a d
  (F64.nearest (F64.scaled a d e).1 (F64.scaled a d e).2, e)

/-- The `float64` nearest to the fraction `n / d`, ties to even. -/
def F64.round (n : Int) (d : Nat) : F64 :=
  if n = 0 then ⟨0, 0⟩
  else if 0 < n then ⟨(F64.roundNat n.natAbs d).1, (F64.roundNat n.natAbs d).2⟩
  else ⟨-((F64.roundNat n.natAbs d).1 : Int), (F64.roundNat n.natAbs d).2⟩

/-- The numerator of a `float64` value written as a fraction. -/
def F64.num (x : F64) : Int := if 0 ≤ x.e then x.m * 2 ^ x.e.toNat else x.m

/-- The denominator of a `float64` value written as a fraction. -/
def F64.den (x : F64) : Nat := if 0 ≤ x.e then 1 else 2 ^ (-x.e).toNat

/-- The conversion `float64(n)` of an integer. -/
def F64.ofInt (n : Int) : F64 := F64.round n 1

/-- The `float64` sum `x + y`. -/
def F64.add (x y : F64) : F64 := F64.round (x.num * y.den + y.num * x.den) (x.den * y.den)

/-- The `float64` product `x * y`. -/
def F64.mul (x y : F64) : F64 := F64.round (x.num * y.num) (x.den * y.den)

/-- The `float64` quotient `x / y`, for a divisor other than zero. -/
def F64.div (x y : F64) : F64 :=
  if 0 ≤ y.num then F64.round (x.num * y.den) (x.den * y.num.natAbs)
  else F64.round (-(x.num * y.den)) (x.den * y.num.natAbs)

/-- The conversion `int(x)` of a `float64`: the fraction is discarded. For a value
outside the range of `int` the result depends on the platform; it is taken as on
amd64, where it is the least `int`. -/
def F64.toInt (x : F64) : Int :=
  let t := Int.tdiv x.num x.den
  if -9223372036854775808 ≤ t ∧ t < 9223372036854775808 then t else -9223372036854775808

/-- `Duration.Seconds` of package `time`:
`sec := d / Second; nsec := d % Second; return float64(sec) + float64(nsec)/1e9`. -/
def Duration.Seconds (d : Duration) : F64 :=
  let sec : Int := Int.tdiv d 1000000000
  let nsec : Int := Int.tmod d 1000000000
  F64.add (F64.ofInt sec) (F64.div (F64.ofInt nsec) (F64.ofInt 1000000000))

/-- The value of `newTokens` in `Bucket.allow` for the elapsed time `elapsed` and
the rate `rate`: `int(elapsed.Seconds() * float64(rate))`. -/
def refillAmount (elapsed : Duration) (rate : Int) : Int :=
  F64.toInt (F64.mul (Duration.Seconds elapsed) (F64.ofInt rate))

/-- The value `v` is `x` up to the relative error `η`. -/
def Rel (η v x : ℚ) : Prop := |v - x| ≤ η * |x|

/-- The number of seconds in a duration as an exact number, the `elapsed` of the
specification (`Duration.Seconds` is its `float64` rounding). -/
def exactSeconds (d : Duration) : ℚ := (d : ℚ) / 1000000000

/-- The struct `Bucket` of `bucket.go` (without its mutex). -/
structure Bucket where
  Capacity : Int
  Tokens : Int
  RefillRate : Int
  LastRefilled : Time
  deriving DecidableEq, Repr

/-- The value of `newTokens` in a call of `allow` at `now`. -/
def Bucket.newTokens (b : Bucket) (now : Time) : Int :=
  refillAmount (Time.Sub now b.LastRefilled) b.RefillRate

/-- `Bucket.allow`, with `now` the reading of `time.Now()`. The result is the
returned flag and the bucket as the call leaves it. (`b.Tokens--` is done on a
positive value and cannot wrap.) -/
def Bucket.allow (b : Bucket) (now : Time) : Bool × Bucket :=
  let elapsed : F64 := Duration.Seconds (Time.Sub now b.LastRefilled)
  let newTokens : Int := F64.toInt (F64.mul elapsed (F64.ofInt b.RefillRate))
  let b1 : Bucket :=
    if newTokens > 0 then
      { b with Tokens := min b.Capacity (wrapInt (b.Tokens + newTokens)), LastRefilled := now }
    else b
  if b1.Tokens > 0 then (true, { b1 with Tokens := b1.Tokens - 1 })
  else (false, b1)

/-- The admission step in the words of the specification, for comparison with
`Bucket.allow`: `added = floor(elapsed · rate)` with `elapsed` in seconds; if
`added > 0` then `tokens ← min(capacity, tokens + added)` and
`last_refilled ← now`; then, if `tokens > 0`, one token is taken and the answer
is true, otherwise the answer is false. -/
def Bucket.allowSpec (b : Bucket) (now : Time) : Bool × Bucket :=
  let added : Int := ⌊exactSeconds (now - b.LastRefilled) * (b.RefillRate : ℚ)⌋
  let tokens : Int := if added > 0 then min b.Capacity (b.Tokens + added) else b.Tokens
  let lastRefilled : Time := if added > 0 then now else b.LastRefilled
  if tokens > 0 then
    (true, { Capacity := b.Capacity, Tokens := tokens - 1, RefillRate := b.RefillRate,
             LastRefilled := lastRefilled })
  else
    (false, { Capacity := b.Capacity, Tokens := tokens, RefillRate := b.RefillRate,
              LastRefilled := lastRefilled })

/-- The admission step in the words of the specification for a given amount
`added`: if `added > 0` then `tokens ← min(capacity, tokens + added)` and
`last_refilled ← now`; then, if `tokens > 0`, one token is taken and the answer
is true, otherwise the answer is false. `Bucket.allowSpec` is this step for
`added = floor(elapsed · rate)`. -/
def Bucket.stepWith (b : Bucket) (added : Int) (now : Time) : Bool × Bucket :=
  let tokens : Int := if added > 0 then min b.Capacity (b.Tokens + added) else b.Tokens
  let lastRefilled : Time := if added > 0 then now else b.LastRefilled
  if tokens > 0 then
    (true, { Capacity := b.Capacity, Tokens := tokens - 1, RefillRate := b.RefillRate,
             LastRefilled := lastRefilled })
  else
    (false, { Capacity := b.Capacity, Tokens := tokens, RefillRate := b.RefillRate,
              LastRefilled := lastRefilled })

/-- Successive `allow` calls at the listed instants: the flag and the bucket
after each call, in call order. -/
def Bucket.allowTrace : Bucket → List Time → List (Bool × Bucket)
  | _, [] => []
  | b, t :: ts => b.allow t :: Bucket.allowTrace (b.allow t).2 ts

/-- The flags returned by successive `allow` calls at the listed instants. -/
def Bucket.allowFlags (b : Bucket) (ts : List Time) : List Bool :=
  (b.allowTrace ts).map Prod.fst

/-- A Go `map[string]V` as an association list; a key occurs at most once in a
map built from `GoMap.empty` by `set` and `delete`, and `get` reads the first
entry of a key. -/
structure GoMap (V : Type) where
  entries : List (String × V)
  deriving DecidableEq, Repr

/-- The map made by `make(map[string]V)`; a nil map reads the same. -/
def GoMap.empty {V : Type} : GoMap V := { entries := [] }

/-- The lookup loop of `GoMap.get`. -/
def GoMap.lookup {V : Type} (k : String) : List (String × V) → Option V
  | [] => none
  | (k1, v) :: rest => if k1 = k then some v else GoMap.lookup k rest

/-- The read `v, ok := m[k]`: `none` when the key is absent. -/
def GoMap.get {V : Type} (m : GoMap V) (k : String) : Option V :=
  GoMap.lookup k m.entries

/-- The statement `delete(m, k)`. -/
def GoMap.delete {V : Type} (m : GoMap V) (k : String) : GoMap V :=
  { entries := m.entries.filter (fun e => !decide (e.1 = k)) }

/-- The assignment `m[k] = v`. -/
def GoMap.set {V : Type} (m : GoMap V) (k : String) (v : V) : GoMap V :=
  { entries := (k, v) :: (m.delete k).entries }

/-- The keys a `range` over the map visits. -/
def GoMap.keys {V : Type} (m : GoMap V) : List String :=
  m.entries.map Prod.fst

/-- The struct `ClientConfig` of `ratelimiter.go`. -/
structure ClientConfig where
  Capacity : Int
  Rate : Int
  deriving DecidableEq, Repr

/-- The struct `Limiter` of `ratelimiter.go`: the three maps and the defaults
(the lock and the handles of the cleanup goroutine are left out). The bucket
map holds the buckets themselves in place of pointers to them. -/
structure Limiter where
  buckets : GoMap Bucket
  lastSeen : GoMap Time
  overrideClients : GoMap ClientConfig
  defaultCapacity : Int
  defaultRate : Int
  deriving DecidableEq, Repr

/-- `NewLimiter`. -/
def NewLimiter (defaultCap defaultRate : Int) (overClientsList : GoMap ClientConfig) :
    Limiter :=
  { buckets := GoMap.empty
    lastSeen := GoMap.empty
    overrideClients := overClientsList
    defaultCapacity := defaultCap
    defaultRate := defaultRate }

/-- `Limiter.UpdateConfig`. -/
def Limiter.UpdateConfig (l : Limiter) (newDefaultCapacity newDefaultRate : Int)
    (newOverrides : GoMap ClientConfig) : Limiter :=
  { l with
    defaultCapacity := newDefaultCapacity
    defaultRate := newDefaultRate
    overrideClients := newOverrides }

/-- The readings of `time.Now()` made during one `Limiter.Allow` call: `create`
for `LastRefilled` of a bucket that is created, `seen` for the `lastSeen` entry,
`allow` inside `Bucket.allow`. -/
structure AllowClock where
  create : Time
  seen : Time
  allow : Time
  deriving DecidableEq, Repr

/-- `Limiter.getBucket`: the bucket returned and the limiter afterwards. -/
def Limiter.getBucket (l : Limiter) (clientID : String) (tCreate tSeen : Time) :
    Bucket × Limiter :=
  let currentDefaultCapacity := l.defaultCapacity
  let currentDefaultRate := l.defaultRate
  let clientSpecificConfig := l.overrideClients.get clientID
  match l.buckets.get clientID with
  | some b => (b, { l with lastSeen := l.lastSeen.set clientID tSeen })
  | none =>
      -- the second look-up, under the write lock
      match l.buckets.get clientID with
      | some b => (b, { l with lastSeen := l.lastSeen.set clientID tSeen })
      | none =>
          let capacity : Int :=
            match clientSpecificConfig with
            | some cfg => cfg.Capacity
            | none => currentDefaultCapacity
          let rate : Int :=
            match clientSpecificConfig with
            | some cfg => cfg.Rate
            | none => currentDefaultRate
          let newBucket : Bucket :=
            { Capacity := capacity, Tokens := capacity, RefillRate := rate,
              LastRefilled := tCreate }
          (newBucket,
            { l with
              buckets := l.buckets.set clientID newBucket
              lastSeen := l.lastSeen.set clientID tSeen })

/-- The bucket literal that `getBucket` builds when it creates a bucket for
`clientID`: the override of the client if the override map has one, the
defaults otherwise, full, with `LastRefilled` the reading `tCreate`. -/
def Limiter.freshBucket (l : Limiter) (clientID : String) (tCreate : Time) : Bucket :=
  match l.overrideClients.get clientID with
  | some cfg =>
      { Capacity := cfg.Capacity, Tokens := cfg.Capacity, RefillRate := cfg.Rate,
        LastRefilled := tCreate }
  | none =>
      { Capacity := l.defaultCapacity, Tokens := l.defaultCapacity,
        RefillRate := l.defaultRate, LastRefilled := tCreate }

/-- `Limiter.Allow`: `getBucket`, then `allow` on the bucket it returned; the
bucket as `allow` leaves it is what the map then holds for the client. -/
def Limiter.Allow (l : Limiter) (clientID : String) (c : AllowClock) : Bool × Limiter :=
  let got := l.getBucket clientID c.create c.seen
  let res := got.1.allow c.allow
  (res.1, { got.2 with buckets := got.2.buckets.set clientID res.2 })

/-- Successive `Allow` calls of one client, one per clock record: the flags in
call order and the limiter at the end. -/
def Limiter.runAllows (l : Limiter) (clientID : String) : List AllowClock → List Bool × Limiter
  | [] => ([], l)
  | c :: cs =>
      let r := l.Allow clientID c
      let rest := Limiter.runAllows r.2 clientID cs
      (r.1 :: rest.1, rest.2)

/-- The body of the cleanup loop in `StartCleanup` for one key `cid` that the
`range` over the bucket map produces (a key deleted meanwhile is not produced). -/
def Limiter.cleanupVisit (now : Time) (ttl : Duration) (l : Limiter) (cid : String) :
    Limiter :=
  match l.buckets.get cid with
  | none => l
  | some b =>
      match l.lastSeen.get cid with
      | some lastSeen =>
          if Time.Sub now lastSeen > ttl ∧ b.Tokens = b.Capacity then
            { l with buckets := l.buckets.delete cid, lastSeen := l.lastSeen.delete cid }
          else l
      | none => l

/-- The condition under which the cleanup loop deletes the entries of `cid`:
`ok && now.Sub(lastSeen) > ttl && b.Tokens == b.Capacity`, for a key that has a
bucket `b`. -/
def Limiter.evictable (now : Time) (ttl : Duration) (l : Limiter) (cid : String) : Bool :=
  match l.buckets.get cid, l.lastSeen.get cid with
  | some b, some lastSeen => decide (Time.Sub now lastSeen > ttl ∧ b.Tokens = b.Capacity)
  | _, _ => false

/-- One tick of the cleanup goroutine of `StartCleanup`, at the instant `now`. -/
def Limiter.cleanupTick (l : Limiter) (now : Time) (ttl : Duration) : Limiter :=
  l.buckets.keys.foldl (Limiter.cleanupVisit now ttl) l

/-- An example state: the limiter that `NewLimiter 0 1` with no overrides is after
one `Allow` of the client `id1` whose clock readings are all 0. -/
def exampleIdleLimiter : Limiter :=
  { buckets :=
      { entries := [("id1", { Capacity := 0, Tokens := 0, RefillRate := 1, LastRefilled := 0 })] }
    lastSeen := { entries := [("id1", 0)] }
    overrideClients := GoMap.empty
    defaultCapacity := 0
    defaultRate := 1 }

/-! ## internal/health

One round of probes and the start/stop state of the checker. The HTTP exchange
of a probe is an input: every probe goroutine ends with a `ProbeOutcome`. The
parent context given to `Start` is taken not to be cancelled. -/

/-- How the goroutine that probes one backend ends in `performChecks`. -/
inductive ProbeOutcome where
  /-- The request could not be built (`http.NewRequestWithContext` failed). -/
  | requestError
  /-- The call `client.Do` returned an error: unreachable, timed out or cancelled. -/
  | doError
  /-- A response arrived, with this status code. -/
  | status (code : Int)
  deriving DecidableEq, Repr

/-- The constant `http.StatusOK`. -/
def StatusOK : Int := 200

/-- What the goroutine of one probe does to `liveBackends` when it ends: the
address is appended exactly when a response with `http.StatusOK` arrived. -/
def probeAppend (liveBackends : List String) (p : String × ProbeOutcome) : List String :=
  match p.2 with
  | ProbeOutcome.requestError => liveBackends
  | ProbeOutcome.doError => liveBackends
  | ProbeOutcome.status code =>
      if code = StatusOK then liveBackends ++ [p.1] else liveBackends

/-- The call `sort.Strings`: the strings in increasing order. -/
def sortStrings (l : List String) : List String :=
  l.insertionSort (fun a b => a ≤ b)

/-- `Checker.performChecks`. The probes run in parallel; `finished` lists them,
address and outcome, in the order in which they end. `onUpdate` says whether the
callback is non-nil. The result is the list handed to the callback, `none` when
the callback is not called. -/
def performChecks (backendsToCheck : List String) (finished : List (String × ProbeOutcome))
    (onUpdate : Bool) : Option (List String) :=
  if backendsToCheck.length = 0 then
    if onUpdate then some [] else none
  else
    let liveBackends : List String := finished.foldl probeAppend []
    let sorted : List String := sortStrings liveBackends
    if onUpdate then some sorted else none

/-- A probing goroutine launched by `Start` that has not returned: the context it
watches, whether that context has been cancelled, and the parameters it copied
when it was launched. -/
structure ProbeLoop where
  ctx : Nat
  cancelled : Bool
  backends : List String
  interval : Duration
  timeout : Duration
  path : String
  deriving DecidableEq, Repr

/-- The struct `Checker` of `checker.go`. Contexts are numbered; `activeCancel`
is `none` for a nil func and `some n` for the cancel func of context `n`;
`loops` are the goroutines counted by `wg`; `nextCtx` numbers the next context.
The callback and the lock are left out. -/
structure Checker where
  backends : List String
  interval : Duration
  timeout : Duration
  path : String
  activeCtx : Option Nat
  activeCancel : Option Nat
  loops : List ProbeLoop
  nextCtx : Nat
  deriving DecidableEq, Repr

/-- `NewChecker`. -/
def NewChecker (initBackends : List String) (initInterval initTimeout : Duration)
    (initPath : String) : Checker :=
  { backends := [] ++ initBackends
    interval := initInterval
    timeout := initTimeout
    path := initPath
    activeCtx := none
    activeCancel := none
    loops := []
    nextCtx := 0 }

/-- The effect of calling the cancel func of context `n`: the goroutines that
watch this context see it done. -/
def cancelCtx (n : Nat) (loops : List ProbeLoop) : List ProbeLoop :=
  loops.map (fun l => if l.ctx = n then { l with cancelled := true } else l)

/-- `Checker.UpdateConfig`. The call `c.activeCancel()` stands outside the
`if c.activeCancel != nil` block; on a nil func it is a run-time panic, which is
the result `none`. -/
def Checker.UpdateConfig (c : Checker) (newBackends : List String)
    (newInterval newTimeout : Duration) (newPath : String) : Option Checker :=
  match c.activeCancel with
  | none => none
  | some n =>
      some { c with
        loops := cancelCtx n c.loops
        backends := [] ++ newBackends
        interval := newInterval
        timeout := newTimeout
        path := newPath }

/-- `Checker.Start`: nothing when `activeCancel` is non-nil; otherwise a new
context, and a goroutine with a copy of the current parameters. -/
def Checker.Start (c : Checker) : Checker :=
  match c.activeCancel with
  | some _ => c
  | none =>
      { c with
        activeCtx := some c.nextCtx
        activeCancel := some c.nextCtx
        nextCtx := c.nextCtx + 1
        loops := c.loops ++
          [{ ctx := c.nextCtx, cancelled := false, backends := [] ++ c.backends,
             interval := c.interval, timeout := c.timeout, path := c.path }] }

/-- `Checker.Stop`: nothing when `activeCancel` is nil; otherwise the cancel func
is called and cleared, and `wg.Wait()` returns when every goroutine has
returned, which a goroutine does once its context is cancelled. The result
`none` is a `wg.Wait()` that never returns. -/
def Checker.Stop (c : Checker) : Option Checker :=
  match c.activeCancel with
  | none => some c
  | some n =>
      if (cancelCtx n c.loops).all (fun l => l.cancelled) then
        some { c with activeCancel := none, loops := [] }
      else none

/-- A call made on the checker by its owner. -/
inductive CheckerCall where
  | start
  | stop
  deriving DecidableEq, Repr

/-- A sequence of `Start` and `Stop` calls, each made when the one before has
returned. -/
def Checker.run : Checker → List CheckerCall → Option Checker
  | c, [] => some c
  | c, CheckerCall.start :: rest => Checker.run c.Start rest
  | c, CheckerCall.stop :: rest =>
      match c.Stop with
      | some c1 => Checker.run c1 rest
      | none => none

/-- The subscriber that `setupAndRunHealthChecker` (`cmd/balancer/main.go`)
registers: `Stop`, then `UpdateConfig` with the parameters of the new
configuration, then `Start`. -/
def healthCheckerSubscriber (hc : Checker) (newBackends : List String)
    (newInterval newTimeout : Duration) (newPath : String) : Option Checker :=
  match hc.Stop with
  | none => none
  | some hc1 =>
      match hc1.UpdateConfig newBackends newInterval newTimeout newPath with
      | none => none
      | some hc2 => some hc2.Start

/-! ## internal/balancer: the interface, the factory and the atomic cell -/

/-- A non-nil value of the interface `Balancer`: a pointer to a `RoundRobin` or a
pointer to a `Random`, given by the state of the object it points to. -/
inductive Strategy where
  | roundRobin (r : RoundRobin)
  | random (r : Random)
  deriving DecidableEq, Repr

/-- A value of the interface `Balancer`; `none` is the nil interface. -/
abbrev Balancer := Option Strategy

/-- The method `Next` called through the interface; `draw` is what `rand.IntN`
returns if the strategy is a `Random`. -/
def Strategy.Next (s : Strategy) (draw : Nat) : Option (NextResult × Strategy) :=
  match s with
  | Strategy.roundRobin r =>
      match r.Next with
      | some (res, r1) => some (res, Strategy.roundRobin r1)
      | none => none
  | Strategy.random r =>
      match r.Next draw with
      | some (res, r1) => some (res, Strategy.random r1)
      | none => none

/-- The method `Update` called through the interface. -/
def Strategy.Update (s : Strategy) (backends : List String) : Strategy :=
  match s with
  | Strategy.roundRobin r => Strategy.roundRobin (r.Update backends)
  | Strategy.random r => Strategy.random (r.Update backends)

/-- Whether two interface values have the same concrete type. -/
def Strategy.sameType : Strategy → Strategy → Bool
  | Strategy.roundRobin _, Strategy.roundRobin _ => true
  | Strategy.random _, Strategy.random _ => true
  | _, _ => false

/-- `defaultStrategyFactory.Create` of `factory.go`. -/
def defaultStrategyFactory.Create (strategy : String) (backends : List String) : Strategy :=
  if strategy = "round-robin" then Strategy.roundRobin (NewRoundRobin backends)
  else if strategy = "random" then Strategy.random (NewRandom backends)
  else Strategy.roundRobin (NewRoundRobin backends)

/-- How a call ends that may panic: it returned or it panicked, and in either
case the state it leaves. -/
inductive Run (σ : Type) where
  | returned (s : σ)
  | panicked (s : σ)
  deriving DecidableEq, Repr

/-- The state a call leaves, whichever way it ended. -/
def Run.state {σ : Type} : Run σ → σ
  | Run.returned s => s
  | Run.panicked s => s

/-- The struct `AtomicBalancer`: the content of its `atomic.Value`, `none` before
the first store. -/
structure AtomicBalancer where
  value : Option Strategy
  deriving DecidableEq, Repr

/-- `AtomicBalancer.Store`: the nil test of the method, then `atomic.Value.Store`,
of which package `sync/atomic` says: all calls to Store for a given Value must
use values of the same concrete type; Store of an inconsistent type panics. -/
def AtomicBalancer.Store (ab : AtomicBalancer) (b : Balancer) : Run AtomicBalancer :=
  match b with
  | none => Run.panicked ab
  | some s =>
      match ab.value with
      | none => Run.returned { value := some s }
      | some old =>
          if old.sameType s then Run.returned { value := some s } else Run.panicked ab

/-- `NewAtomicBalancer`; `none` is the panic, which leaves no object. -/
def NewAtomicBalancer (initial : Balancer) : Option AtomicBalancer :=
  match initial with
  | none => none
  | some s =>
      match ({ value := none } : AtomicBalancer).Store (some s) with
      | Run.returned ab => some ab
      | Run.panicked _ => none

/-- `AtomicBalancer.Load`; the type assertion panics on an empty cell (`none`). -/
def AtomicBalancer.Load (ab : AtomicBalancer) : Option Strategy :=
  ab.value

/-- `AtomicBalancer.Next`: the call goes to the strategy that `Load` returns,
whose state after the call is what the cell then points to. -/
def AtomicBalancer.Next (ab : AtomicBalancer) (draw : Nat) :
    Option (NextResult × AtomicBalancer) :=
  match ab.Load with
  | none => none
  | some s =>
      match s.Next draw with
      | some (res, s1) => some (res, { value := some s1 })
      | none => none

/-- `AtomicBalancer.Update`. -/
def AtomicBalancer.Update (ab : AtomicBalancer) (backends : List String) :
    Option AtomicBalancer :=
  match ab.Load with
  | none => none
  | some s => some { value := some (s.Update backends) }

/-- `AtomicBalancer.SetStrategy`. -/
def AtomicBalancer.SetStrategy (ab : AtomicBalancer) (newBalancer : Balancer) :
    Run AtomicBalancer :=
  ab.Store newBalancer

/-- A call made on an `AtomicBalancer`. -/
inductive BalancerCall where
  | next (draw : Nat)
  | update (backends : List String)
  | setStrategy (newBalancer : Balancer)
  deriving DecidableEq, Repr

/-- The cell after one call, whether the call returned or panicked (a panic
happens before anything is written). -/
def AtomicBalancer.step (ab : AtomicBalancer) : BalancerCall → AtomicBalancer
  | BalancerCall.next draw =>
      match ab.Next draw with
      | some (_, ab1) => ab1
      | none => ab
  | BalancerCall.update backends =>
      match ab.Update backends with
      | some ab1 => ab1
      | none => ab
  | BalancerCall.setStrategy newBalancer => (ab.SetStrategy newBalancer).state

/-- A call of `Next` or of `Update`. -/
inductive DelegatedCall where
  | next (draw : Nat)
  | update (backends : List String)
  deriving DecidableEq, Repr

/-- Calls made one after another on a strategy itself: the results of the `Next`
calls in call order and the strategy at the end; `none` if a call panics. -/
def Strategy.runCalls : Strategy → List DelegatedCall → Option (List NextResult × Strategy)
  | s, [] => some ([], s)
  | s, DelegatedCall.next draw :: rest =>
      match s.Next draw with
      | none => none
      | some (res, s1) =>
          match Strategy.runCalls s1 rest with
          | none => none
          | some (out, s2) => some (res :: out, s2)
  | s, DelegatedCall.update backends :: rest => Strategy.runCalls (s.Update backends) rest

/-- Calls of `Next` and `Update` made one after another on the cell: the results
of the `Next` calls in call order and the cell at the end; `none` if a call
panics. -/
def AtomicBalancer.runCalls :
    AtomicBalancer → List DelegatedCall → Option (List NextResult × AtomicBalancer)
  | ab, [] => some ([], ab)
  | ab, DelegatedCall.next draw :: rest =>
      match ab.Next draw with
      | none => none
      | some (res, ab1) =>
          match AtomicBalancer.runCalls ab1 rest with
          | none => none
          | some (out, ab2) => some (res :: out, ab2)
  | ab, DelegatedCall.update backends :: rest =>
      match ab.Update backends with
      | none => none
      | some ab1 => AtomicBalancer.runCalls ab1 rest

/-! ## internal/config and the wiring of cmd/balancer -/

/-- The constant `time.Second`. -/
def Second : Duration := 1000000000

/-- The struct `ServerSettings`. -/
structure ServerSettings where
  Port : String
  ReadTimeout : Duration
  WriteTimeout : Duration
  deriving DecidableEq, Repr

/-- The struct `HealthCheckConfig`. -/
structure HealthCheckConfig where
  IntervalSeconds : Duration
  TimeoutSeconds : Duration
  Path : String
  deriving DecidableEq, Repr

/-- The struct `ClientRateLimitConfig`. -/
structure ClientRateLimitConfig where
  ClientID : String
  Capacity : Int
  Rate : Int
  deriving DecidableEq, Repr

/-- The struct `RateLimiterConfig`. -/
structure RateLimiterConfig where
  Enabled : Bool
  DefaultCapacity : Int
  DefaultRate : Int
  ClientOverrides : List ClientRateLimitConfig
  deriving DecidableEq, Repr

/-- The struct `Config`. -/
structure Config where
  Server : ServerSettings
  Strategy : String
  Backends : List String
  HealthCheck : HealthCheckConfig
  RateLimiter : RateLimiterConfig
  LogFile : String
  LogLevel : String
  deriving DecidableEq, Repr

/-- The option that `withDefaultStrategy` returns. -/
def withDefaultStrategy (cfg : Config) : Config :=
  if cfg.Strategy = "" then { cfg with Strategy := "round-robin" } else cfg

/-- The option that `withDefaultServer` returns. -/
def withDefaultServer (cfg : Config) : Config :=
  let cfg1 : Config :=
    if cfg.Server.Port = "" then { cfg with Server := { cfg.Server with Port := "8080" } }
    else cfg
  let cfg2 : Config :=
    if cfg1.Server.ReadTimeout = 0 then
      { cfg1 with Server := { cfg1.Server with ReadTimeout := 5 * Second } }
    else cfg1
  if cfg2.Server.WriteTimeout = 0 then
    { cfg2 with Server := { cfg2.Server with WriteTimeout := 10 * Second } }
  else cfg2

/-- The option that `withDefaultHealthCheck` returns. -/
def withDefaultHealthCheck (cfg : Config) : Config :=
  let cfg1 : Config :=
    if cfg.HealthCheck.IntervalSeconds = 0 then
      { cfg with HealthCheck := { cfg.HealthCheck with IntervalSeconds := 10 * Second } }
    else cfg
  let cfg2 : Config :=
    if cfg1.HealthCheck.TimeoutSeconds = 0 then
      { cfg1 with HealthCheck := { cfg1.HealthCheck with TimeoutSeconds := 5 * Second } }
    else cfg1
  if cfg2.HealthCheck.Path = "" then
    { cfg2 with HealthCheck := { cfg2.HealthCheck with Path := "/health" } }
  else cfg2

/-- The option that `withDefaultRateLimiter` returns. -/
def withDefaultRateLimiter (cfg : Config) : Config :=
  let cfg1 : Config :=
    if cfg.RateLimiter.DefaultRate = 0 then
      { cfg with RateLimiter := { cfg.RateLimiter with DefaultRate := 10 } }
    else cfg
  if cfg1.RateLimiter.DefaultCapacity = 0 then
    { cfg1 with RateLimiter := { cfg1.RateLimiter with DefaultCapacity := 100 } }
  else cfg1

/-- `useDefault`: the options applied in order. -/
def useDefault (cfg : Config) (options : List (Config → Config)) : Config :=
  options.foldl (fun c op => op c) cfg

/-- `loadDefaultValues`. -/
def loadDefaultValues (cfg : Config) : Config :=
  useDefault cfg
    [withDefaultServer, withDefaultHealthCheck, withDefaultStrategy, withDefaultRateLimiter]

/-- `setupBalancer` of `cmd/balancer/main.go`, up to the subscription: the cell
it creates (`none` if `NewAtomicBalancer` panics). -/
def setupBalancer (cfg : Config) : Option AtomicBalancer :=
  NewAtomicBalancer (some (defaultStrategyFactory.Create cfg.Strategy cfg.Backends))

/-- The subscriber that `setupBalancer` registers, called with a reloaded
configuration `newCfg`; `cfg` is the configuration `setupBalancer` was called
with and `ab` the cell. -/
def balancerSubscriber (cfg : Config) (ab : AtomicBalancer) (newCfg : Config) :
    Run AtomicBalancer :=
  if newCfg.Strategy ≠ cfg.Strategy then
    ab.SetStrategy (some (defaultStrategyFactory.Create newCfg.Strategy newCfg.Backends))
  else Run.returned ab

/-! ## Sequences of calls on a limiter, a round-robin strategy and a bucket -/

/-- A step made on a limiter: an `Allow` call, an `UpdateConfig` call or a tick
of the cleanup goroutine. -/
inductive LimiterCall where
  | allow (clientID : String) (c : AllowClock)
  | updateConfig (newDefaultCapacity newDefaultRate : Int) (newOverrides : GoMap ClientConfig)
  | cleanupTick (now : Time) (ttl : Duration)
  deriving DecidableEq, Repr

/-- The limiter after one step. -/
def Limiter.step (l : Limiter) : LimiterCall → Limiter
  | LimiterCall.allow clientID c => (l.Allow clientID c).2
  | LimiterCall.updateConfig cap rate overrides => l.UpdateConfig cap rate overrides
  | LimiterCall.cleanupTick now ttl => l.cleanupTick now ttl

/-- The limiter after a sequence of steps. -/
def Limiter.runCalls (l : Limiter) (calls : List LimiterCall) : Limiter :=
  calls.foldl Limiter.step l

/-- A call made on a round-robin strategy. -/
inductive RoundRobinCall where
  | next
  | update (backends : List String)
  deriving DecidableEq, Repr

/-- The strategy after a sequence of `Next` and `Update` calls; `none` if a `Next`
panics. -/
def RoundRobin.runCalls : RoundRobin → List RoundRobinCall → Option RoundRobin
  | r, [] => some r
  | r, RoundRobinCall.next :: rest =>
      match r.Next with
      | some (_, r1) => RoundRobin.runCalls r1 rest
      | none => none
  | r, RoundRobinCall.update backends :: rest => RoundRobin.runCalls (r.Update backends) rest

/-- The refill part of `Bucket.allow` (the statements before the test
`b.Tokens > 0`): the bucket when the tokens of the elapsed time are added. -/
def Bucket.refill (b : Bucket) (now : Time) : Bucket :=
  let elapsed : F64 := Duration.Seconds (Time.Sub now b.LastRefilled)
  let newTokens : Int := F64.toInt (F64.mul elapsed (F64.ofInt b.RefillRate))
  if newTokens > 0 then
    { b with Tokens := min b.Capacity (wrapInt (b.Tokens + newTokens)), LastRefilled := now }
  else b

/-- The number of tokens that the refill part of one `allow` call adds. -/
def Bucket.addedTokens (b : Bucket) (now : Time) : Int :=
  (b.refill now).Tokens - b.Tokens

/-- No refill of the successive `allow` calls at the listed instants has a sum
`Tokens + newTokens` above the largest `int`. -/
def Bucket.neverOverflows : Bucket → List Time → Prop
  | _, [] => True
  | b, t :: ts =>
      (0 < b.newTokens t → b.Tokens + b.newTokens t < 9223372036854775808) ∧
      Bucket.neverOverflows (b.allow t).2 ts

/-- `strings.HasPrefix`. -/
def HasPrefix (s pre : String) : Bool :=
  pre.toList.isPrefixOf s.toList

/-- `strings.TrimSuffix`: `s` without the trailing `suf`, or `s` itself if it does
not end in `suf`. -/
def TrimSuffix (s suf : String) : String :=
  if suf.toList.isSuffixOf s.toList then
    String.mk (s.toList.take (s.toList.length - suf.toList.length))
  else s

/-- `strings.TrimPrefix`: `s` without the leading `pre`, or `s` itself if it does
not start with `pre`. -/
def TrimPrefix (s pre : String) : String :=
  if HasPrefix s pre then String.mk (s.toList.drop pre.toList.length) else s

/-- The URL that the goroutine of `performChecks` builds for the backend `addr`
and the path `checkPath` (the value of `urlToCheck` at the request). -/
def probeURL (addr checkPath : String) : String :=
  let urlToCheck : String := TrimSuffix addr "/"
  let urlToCheck : String :=
    if !HasPrefix urlToCheck "http://" && !HasPrefix urlToCheck "https://" then
      "http://" ++ urlToCheck
    else urlToCheck
  let pathPart : String := TrimPrefix checkPath "/"
  if pathPart ≠ "" then urlToCheck ++ "/" ++ pathPart else urlToCheck

/-- Whether the characters hold a `/` directly followed by a `/`. -/
def hasDoubleSlash : List Char → Bool
  | [] => false
  | a :: rest => (a == '/' && rest.head? == some '/') || hasDoubleSlash rest

/-! ## The rate-limiting middleware -/

/-- The struct `AppError` of package `apperror`. -/
structure AppError where
  Code : Int
  Message : String
  deriving DecidableEq, Repr

/-- `apperror.ErrTooManyRequests`, with `http.StatusTooManyRequests`. -/
def ErrTooManyRequests : AppError := { Code := 429, Message := "Too many requests" }

/-- `apperror.ErrUnauthorized`, with `http.StatusUnauthorized`. -/
def ErrUnauthorized : AppError := { Code := 401, Message := "Unable to identify user" }

/-- What `ReqToIP` reads of an `http.Request`: the value of the header
`X-Forwarded-For` (empty if the header is absent), `RemoteAddr`, and the host
that `net.SplitHostPort(r.RemoteAddr)` returns, `none` if it returns an error. -/
structure Request where
  forwardedFor : String
  RemoteAddr : String
  splitHostPort : Option String
  deriving DecidableEq, Repr

/-- The struct `IP` of package `userkey`. -/
structure IP where
  v : String
  t : String
  deriving DecidableEq, Repr

/-- The first element of `strings.Split(s, ", ")`: the characters before the
first `, `. -/
def firstField : List Char → List Char
  | [] => []
  | c :: rest => if c = ',' ∧ rest.head? = some ' ' then [] else c :: firstField rest

/-- `userkey.ReqToIP`: the identifier and whether the returned error is non-nil.
(`strings.Split` with a non-empty separator returns at least one element.) -/
def ReqToIP (r : Request) : IP × Bool :=
  if r.forwardedFor ≠ "" then
    ({ v := String.mk (firstField r.forwardedFor.toList), t := "IP" }, false)
  else
    match r.splitHostPort with
    | none =>
        if r.RemoteAddr ≠ "" then ({ v := r.RemoteAddr, t := "IP" }, true)
        else ({ v := "", t := "" }, true)
    | some ip =>
        if ip ≠ "" then ({ v := ip, t := "IP" }, false)
        else ({ v := "", t := "" }, true)

/-- What a request is answered with: the status written, and whether the wrapped
handler was invoked. -/
structure Response where
  status : Int
  handlerInvoked : Bool
  deriving DecidableEq, Repr

/-- The handler that `Middleware` returns, applied to the request `r`. The
wrapped handler is given by the status `next r` that it writes; `clk` holds the
clock readings of the `Allow` call, if one is made. The result is the answer and
the limiter afterwards. -/
def Middleware (rl : Limiter) (next : Request → Int) (r : Request) (clk : AllowClock) :
    Response × Limiter :=
  let got := ReqToIP r
  if got.2 then
    ({ status := ErrUnauthorized.Code, handlerInvoked := false }, rl)
  else
    let res := rl.Allow got.1.v clk
    if !res.1 then
      ({ status := ErrTooManyRequests.Code, handlerInvoked := false }, res.2)
    else ({ status := next r, handlerInvoked := true }, res.2)

/-! ## The configuration supervisor -/

/-- The package variables `current` and `subscribers` of `config.go`; of the
subscribers only their number matters here. -/
structure ConfigStore where
  current : Option Config
  subscribers : Nat
  deriving DecidableEq, Repr

/-- The end of `Init` (lines 78 to 86), given the configuration `cfg` that `Load`
parsed: the defaults are applied and the result is stored. -/
def Init (store : ConfigStore) (cfg : Config) : ConfigStore :=
  { store with current := some (loadDefaultValues cfg) }

/-- The reload that `watch` runs when the debounce timer fires, given the
configuration `cfg` that `Load` parsed: the new store, and the configurations
handed to the subscribers, one each. -/
def watchReload (store : ConfigStore) (cfg : Config) : ConfigStore × List Config :=
  ({ store with current := some cfg }, List.replicate store.subscribers cfg)

/-! ## Lemmas on the round-robin strategy -/

theorem slicesEqualLoop_iff (a b : List String) (h : a.length = b.length) :
    slicesEqualLoop a b = true ↔ a = b := by
  induction a generalizing b with
  | nil =>
      cases b with
      | nil => simp [slicesEqualLoop]
      | cons y ys => simp at h
  | cons x xs ih =>
      cases b with
      | nil => simp at h
      | cons y ys =>
          have hl : xs.length = ys.length := by simpa using h
          by_cases hxy : x = y
          · simp [slicesEqualLoop, hxy, ih ys hl]
          · simp [slicesEqualLoop, hxy]

theorem slicesEqual_iff (a b : List String) : slicesEqual a b = true ↔ a = b := by
  unfold slicesEqual
  by_cases h : a.length = b.length
  · simp [h, slicesEqualLoop_iff a b h]
  · have hne : a ≠ b := fun e => h (by rw [e])
    simp [h, hne]

theorem RoundRobin.Next_of_valid (r : RoundRobin) (h0 : 0 ≤ r.index)
    (h1 : r.index < (r.backends.length : Int)) :
    ∃ x, r.backends[r.index.toNat]? = some x ∧
      r.Next = some ((x, none),
        { backends := r.backends, index := (r.index + 1) % (r.backends.length : Int) }) := by
  have hlt : r.index.toNat < r.backends.length := by omega
  have hne : r.backends.length ≠ 0 := by omega
  refine ⟨r.backends[r.index.toNat], List.getElem?_eq_getElem hlt, ?_⟩
  have hmod : Int.tmod (r.index + 1) (r.backends.length : Int)
      = (r.index + 1) % (r.backends.length : Int) :=
    Int.tmod_eq_emod (by omega) (by omega)
  simp [RoundRobin.Next, hne, h0, List.getElem?_eq_getElem hlt, hmod]

theorem RoundRobin.afterNexts_of_valid (k : Nat) (r : RoundRobin) (h0 : 0 ≤ r.index)
    (h1 : r.index < (r.backends.length : Int)) :
    RoundRobin.afterNexts k r
      = some { backends := r.backends,
               index := (r.index + (k : Int)) % (r.backends.length : Int) } := by
  induction k generalizing r with
  | zero =>
      have h : (r.index + ((0 : Nat) : Int)) % (r.backends.length : Int) = r.index := by
        simpa using Int.emod_eq_of_lt h0 h1
      rw [h]
      rfl
  | succ k ih =>
      obtain ⟨x, _, hn⟩ := RoundRobin.Next_of_valid r h0 h1
      have hpos : (0 : Int) < (r.backends.length : Int) := by omega
      have hv0 : 0 ≤ (r.index + 1) % (r.backends.length : Int) :=
        Int.emod_nonneg _ (by omega)
      have hv1 : (r.index + 1) % (r.backends.length : Int) < (r.backends.length : Int) :=
        Int.emod_lt_of_pos _ hpos
      have := ih { backends := r.backends,
                   index := (r.index + 1) % (r.backends.length : Int) } hv0 hv1
      simp only [RoundRobin.afterNexts, hn, this]
      have e : ((r.index + 1) % (r.backends.length : Int) + (k : Int)) % (r.backends.length : Int)
          = (r.index + ((k + 1 : Nat) : Int)) % (r.backends.length : Int) := by
        rw [Int.emod_add_emod]
        congr 1
        push_cast
        ring
      rw [e]

theorem RoundRobin.nth_Next_of_valid (r : RoundRobin) (h0 : 0 ≤ r.index)
    (h1 : r.index < (r.backends.length : Int)) (i : Nat) :
    ∃ (s : RoundRobin) (x : String),
      RoundRobin.afterNexts i r = some s ∧
      s.backends = r.backends ∧
      s.index = (r.index + (i : Int)) % (r.backends.length : Int) ∧
      r.backends[((r.index + (i : Int)) % (r.backends.length : Int)).toNat]? = some x ∧
      s.Next = some ((x, none),
        { backends := r.backends,
          index := (r.index + (i : Int) + 1) % (r.backends.length : Int) }) := by
  have hpos : (0 : Int) < (r.backends.length : Int) := by omega
  have hv0 : 0 ≤ (r.index + (i : Int)) % (r.backends.length : Int) :=
    Int.emod_nonneg _ (by omega)
  have hv1 : (r.index + (i : Int)) % (r.backends.length : Int) < (r.backends.length : Int) :=
    Int.emod_lt_of_pos _ hpos
  obtain ⟨x, hx, hn⟩ := RoundRobin.Next_of_valid
    { backends := r.backends,
      index := (r.index + (i : Int)) % (r.backends.length : Int) } hv0 hv1
  refine ⟨_, x, RoundRobin.afterNexts_of_valid i r h0 h1, rfl, rfl, hx, ?_⟩
  rw [hn]
  simp only [Int.emod_add_emod]

theorem RoundRobin.Update_of_ne (r : RoundRobin) (L2 : List String)
    (hne : L2 ≠ []) (hdiff : L2 ≠ r.backends) :
    r.Update L2 = { backends := L2, index := 0 } := by
  have hs : slicesEqual r.backends L2 = false := by
    cases h : slicesEqual r.backends L2 with
    | false => rfl
    | true => exact absurd ((slicesEqual_iff _ _).1 h).symm hdiff
  have hl : ¬ ((L2.length : Int) ≤ 0) := by
    have : 0 < L2.length := List.length_pos.2 hne
    omega
  simp [RoundRobin.Update, hs, hl]

/-! ## Lemmas on the token bucket -/

/-! ### float64 rounding -/

theorem log2Fuel_spec : ∀ (fuel n : Nat), n ≤ fuel → 1 ≤ n →
    2 ^ log2Fuel fuel n ≤ n ∧ n < 2 ^ (log2Fuel fuel n + 1)
  | 0, n, h, h1 => by omega
  | fuel + 1, n, h, h1 => by
      by_cases h2 : n < 2
      · have hn : n = 1 := by omega
        simp [log2Fuel, hn]
      · have ih := log2Fuel_spec fuel (n / 2) (by omega) (by omega)
        simp only [log2Fuel, h2, if_false]
        constructor
        · rw [pow_succ]
          have := Nat.div_mul_le_self n 2
          nlinarith [ih.1]
        · rw [pow_succ]
          have : n < (n / 2 + 1) * 2 := by omega
          nlinarith [ih.2]

theorem ilog2_spec (n : Nat) (h : 1 ≤ n) : 2 ^ ilog2 n ≤ n ∧ n < 2 ^ (ilog2 n + 1) :=
  log2Fuel_spec n n (le_refl _) h

theorem F64.scaled_pos (a d : Nat) (e : Int) (hd : 0 < d) : 0 < (F64.scaled a d e).2 := by
  unfold F64.scaled
  split_ifs
  · exact Nat.mul_pos hd (by positivity)
  · exact hd

theorem F64.scaled_quot (a d : Nat) (e : Int) (hd : 0 < d) :
    (((F64.scaled a d e).1 : ℚ)) / ((F64.scaled a d e).2 : ℚ)
      = (a : ℚ) / (d : ℚ) * (2 : ℚ) ^ (-e) := by
  have hd0 : (d : ℚ) ≠ 0 := by exact_mod_cast hd.ne'
  unfold F64.scaled
  split_ifs with h
  · have he : e = (e.toNat : Int) := (Int.toNat_of_nonneg h).symm
    simp only [Nat.cast_mul, Nat.cast_pow, Nat.cast_ofNat]
    rw [zpow_neg]
    nth_rewrite 2 [he]
    rw [zpow_natCast]
    field_simp
  · have hn : 0 ≤ -e := by omega
    have he : -e = ((-e).toNat : Int) := (Int.toNat_of_nonneg hn).symm
    simp only [Nat.cast_mul, Nat.cast_pow, Nat.cast_ofNat]
    nth_rewrite 2 [he]
    rw [zpow_natCast]
    field_simp

theorem F64.nearest_err (N D : Nat) (hD : 0 < D) :
    |((F64.nearest N D : Nat) : ℚ) - (N : ℚ) / (D : ℚ)| ≤ 1 / 2 := by
  have hDq : (0 : ℚ) < (D : ℚ) := by exact_mod_cast hD
  have hdm := Nat.div_add_mod N D
  have hlt := Nat.mod_lt N hD
  have hN : (N : ℚ) = (D : ℚ) * ((N / D : Nat) : ℚ) + ((N % D : Nat) : ℚ) := by
    exact_mod_cast hdm.symm
  have hr0 : (0 : ℚ) ≤ ((N % D : Nat) : ℚ) := by positivity
  have hrD : ((N % D : Nat) : ℚ) < (D : ℚ) := by exact_mod_cast hlt
  have hq : (N : ℚ) / (D : ℚ) = ((N / D : Nat) : ℚ) + ((N % D : Nat) : ℚ) / (D : ℚ) := by
    rw [hN]
    field_simp
    ring
  have key1 : 2 * (N % D) ≤ D →
      |((N / D : Nat) : ℚ) - (N : ℚ) / (D : ℚ)| ≤ 1 / 2 := by
    intro h
    have h2 : (2 : ℚ) * ((N % D : Nat) : ℚ) ≤ (D : ℚ) := by exact_mod_cast h
    rw [hq, abs_le]
    have h3 : ((N % D : Nat) : ℚ) / (D : ℚ) ≤ 1 / 2 := by
      rw [div_le_iff₀ hDq]
      linarith
    have h4 : 0 ≤ ((N % D : Nat) : ℚ) / (D : ℚ) := div_nonneg hr0 hDq.le
    constructor <;> linarith
  have key2 : D ≤ 2 * (N % D) →
      |(((N / D + 1 : Nat)) : ℚ) - (N : ℚ) / (D : ℚ)| ≤ 1 / 2 := by
    intro h
    have h2 : (D : ℚ) ≤ (2 : ℚ) * ((N % D : Nat) : ℚ) := by exact_mod_cast h
    rw [hq, abs_le]
    have h3 : 1 / 2 ≤ ((N % D : Nat) : ℚ) / (D : ℚ) := by
      rw [le_div_iff₀ hDq]
      linarith
    have h4 : ((N % D : Nat) : ℚ) / (D : ℚ) < 1 := by
      rw [div_lt_one hDq]
      exact hrD
    push_cast
    constructor <;> linarith
  unfold F64.nearest
  split_ifs with h1 h2 h3
  · exact key1 (by omega)
  · exact key2 (by omega)
  · exact key1 (by omega)
  · exact key2 (by omega)

theorem F64.le_nearest (N D : Nat) : N / D ≤ F64.nearest N D := by
  unfold F64.nearest
  split_ifs <;> omega

theorem F64.exponent_quot (a d : Nat) (ha : 0 < a) (hd : 0 < d) :
    2 ^ 52 ≤ (F64.scaled a d (F64.exponent a d)).1 / (F64.scaled a d (F64.exponent a d)).2 := by
  unfold F64.exponent
  simp only
  split_ifs with h
  · exact h
  · have hA := (ilog2_spec a ha).1
    have hDD := (ilog2_spec d hd).2
    rw [Nat.le_div_iff_mul_le (F64.scaled_pos a d _ hd)]
    have hpos := F64.scaled_pos a d ((ilog2 a : Int) - (ilog2 d : Int) - 52 - 1) hd
    have hq := F64.scaled_quot a d ((ilog2 a : Int) - (ilog2 d : Int) - 52 - 1) hd
    have hposq : (0 : ℚ) <
        (((F64.scaled a d ((ilog2 a : Int) - (ilog2 d : Int) - 52 - 1)).2 : Nat) : ℚ) := by
      exact_mod_cast hpos
    have hdq : (0 : ℚ) < (d : ℚ) := by exact_mod_cast hd
    have hAq : ((2 : ℚ)) ^ (ilog2 a : Int) ≤ (a : ℚ) := by
      rw [zpow_natCast]
      exact_mod_cast hA
    have hDq : (d : ℚ) ≤ (2 : ℚ) ^ ((ilog2 d : Int) + 1) := by
      have : ((ilog2 d : Int) + 1) = ((ilog2 d + 1 : Nat) : Int) := by push_cast; rfl
      rw [this, zpow_natCast]
      exact_mod_cast hDD.le
    have h2 : (2 : ℚ) ^ (52 : Int) ≤ (a : ℚ) / (d : ℚ)
        * (2 : ℚ) ^ (-((ilog2 a : Int) - (ilog2 d : Int) - 52 - 1)) := by
      have e1 : (2 : ℚ) ^ (52 : Int)
          = (2 : ℚ) ^ (ilog2 a : Int) / (2 : ℚ) ^ ((ilog2 d : Int) + 1)
            * (2 : ℚ) ^ (-((ilog2 a : Int) - (ilog2 d : Int) - 52 - 1)) := by
        rw [← zpow_sub₀ (by norm_num : (2 : ℚ) ≠ 0), ← zpow_add₀ (by norm_num : (2 : ℚ) ≠ 0)]
        congr 1
        ring
      rw [e1]
      apply mul_le_mul_of_nonneg_right _ (by positivity)
      exact div_le_div₀ (by positivity) hAq (by positivity) hDq
    rw [← hq, le_div_iff₀ hposq] at h2
    have h3 : ((2 ^ 52 * (F64.scaled a d ((ilog2 a : Int) - (ilog2 d : Int) - 52 - 1)).2 : Nat) : ℚ)
        ≤ (((F64.scaled a d ((ilog2 a : Int) - (ilog2 d : Int) - 52 - 1)).1 : Nat) : ℚ) := by
      push_cast
      have e2 : (2 : ℚ) ^ (52 : Int) = (2 : ℚ) ^ (52 : Nat) := by norm_cast
      rw [e2] at h2
      exact h2
    exact_mod_cast h3

/-- Rounding to the nearest float64 moves a value by at most 2^-53 of its size. -/
theorem F64.round_err (n : Int) (d : Nat) (hd : 0 < d) :
    |(F64.round n d).val - (n : ℚ) / (d : ℚ)| ≤ |(n : ℚ) / (d : ℚ)| / 2 ^ 53 := by
  by_cases h0 : n = 0
  · simp [F64.round, h0, F64.val]
  have ha : 0 < n.natAbs := Int.natAbs_pos.2 h0
  have hpos := F64.scaled_pos n.natAbs d (F64.exponent n.natAbs d) hd
  have hposq : (0 : ℚ) < (((F64.scaled n.natAbs d (F64.exponent n.natAbs d)).2 : Nat) : ℚ) := by
    exact_mod_cast hpos
  have herr := F64.nearest_err (F64.scaled n.natAbs d (F64.exponent n.natAbs d)).1
    (F64.scaled n.natAbs d (F64.exponent n.natAbs d)).2 hpos
  have hq := F64.scaled_quot n.natAbs d (F64.exponent n.natAbs d) hd
  have hlow := F64.exponent_quot n.natAbs d ha hd
  rw [Nat.le_div_iff_mul_le hpos] at hlow
  have hlowq : (2 : ℚ) ^ 52 ≤ ((F64.scaled n.natAbs d (F64.exponent n.natAbs d)).1 : ℚ)
      / ((F64.scaled n.natAbs d (F64.exponent n.natAbs d)).2 : ℚ) := by
    rw [le_div_iff₀ hposq]
    exact_mod_cast hlow
  rw [hq] at herr hlowq
  have h2e : (0 : ℚ) < (2 : ℚ) ^ (F64.exponent n.natAbs d) := by positivity
  have hinv : (2 : ℚ) ^ (-(F64.exponent n.natAbs d)) * (2 : ℚ) ^ (F64.exponent n.natAbs d) = 1 := by
    rw [← zpow_add₀ (by norm_num : (2 : ℚ) ≠ 0)]
    simp
  -- the bound for the absolute value
  have habs : |((F64.roundNat n.natAbs d).1 : ℚ) * (2 : ℚ) ^ (F64.roundNat n.natAbs d).2
      - (n.natAbs : ℚ) / (d : ℚ)| ≤ (n.natAbs : ℚ) / (d : ℚ) / 2 ^ 53 := by
    simp only [F64.roundNat]
    set E := F64.exponent n.natAbs d with hE
    set M : ℚ := ((F64.nearest (F64.scaled n.natAbs d E).1 (F64.scaled n.natAbs d E).2 : Nat) : ℚ)
    set X : ℚ := (n.natAbs : ℚ) / (d : ℚ)
    set P : ℚ := (2 : ℚ) ^ E
    set Pi : ℚ := (2 : ℚ) ^ (-E)
    have e1 : M * P - X = (M - X * Pi) * P := by
      have : X * Pi * P = X := by rw [mul_assoc, hinv, mul_one]
      linarith [this]
    rw [e1, abs_mul, abs_of_pos h2e]
    have e2 : X = (X * Pi) * P := by rw [mul_assoc, hinv, mul_one]
    have h3 : |M - X * Pi| * P ≤ 1 / 2 * P := mul_le_mul_of_nonneg_right herr h2e.le
    have h4 : (2 : ℚ) ^ 52 * P ≤ X := by
      rw [e2]
      exact mul_le_mul_of_nonneg_right hlowq h2e.le
    rw [div_eq_mul_inv]
    have h5 : (1 : ℚ) / 2 * P ≤ X * (2 ^ 53)⁻¹ := by
      have : (1 : ℚ) / 2 * P = (2 ^ 52 * P) * (2 ^ 53)⁻¹ := by norm_num; ring
      rw [this]
      exact mul_le_mul_of_nonneg_right h4 (by positivity)
    linarith
  have hA0 : (0 : ℚ) ≤ (n.natAbs : ℚ) / (d : ℚ) := by positivity
  rcases lt_or_gt_of_ne h0 with hneg | hp
  · have hn : (n : ℚ) = -((n.natAbs : Nat) : ℚ) := by
      have h1 : ((n.natAbs : Nat) : Int) = -n := Int.ofNat_natAbs_of_nonpos hneg.le
      have h2 : (((n.natAbs : Nat) : Int) : ℚ) = ((-n : Int) : ℚ) := by rw [h1]
      rw [Int.cast_natCast, Int.cast_neg] at h2
      linarith
    have hnp : ¬ (0 < n) := by omega
    have hx : (n : ℚ) / (d : ℚ) = -((n.natAbs : ℚ) / (d : ℚ)) := by rw [hn, neg_div]
    rw [hx, abs_neg, abs_of_nonneg hA0]
    simp only [F64.round, h0, hnp, if_false, F64.val]
    have e3 : ((-((F64.roundNat n.natAbs d).1 : Int) : Int) : ℚ)
            * (2 : ℚ) ^ (F64.roundNat n.natAbs d).2
          - -((n.natAbs : ℚ) / (d : ℚ))
        = -(((F64.roundNat n.natAbs d).1 : ℚ) * (2 : ℚ) ^ (F64.roundNat n.natAbs d).2
          - (n.natAbs : ℚ) / (d : ℚ)) := by
      push_cast
      ring
    rw [e3, abs_neg]
    exact habs
  · have hn : (n : ℚ) = ((n.natAbs : Nat) : ℚ) := by
      have h1 : ((n.natAbs : Nat) : Int) = n := Int.natAbs_of_nonneg hp.le
      have h2 : (((n.natAbs : Nat) : Int) : ℚ) = (n : ℚ) := by rw [h1]
      rw [Int.cast_natCast] at h2
      exact h2.symm
    have hx : (n : ℚ) / (d : ℚ) = (n.natAbs : ℚ) / (d : ℚ) := by rw [hn]
    rw [hx, abs_of_nonneg hA0]
    simp only [F64.round, h0, hp, if_true, if_false, F64.val]
    rw [Int.cast_natCast]
    exact habs

theorem F64.den_pos (x : F64) : 0 < x.den := by
  unfold F64.den
  split_ifs <;> positivity

theorem F64.val_eq (x : F64) : x.val = (x.num : ℚ) / (x.den : ℚ) := by
  unfold F64.val F64.num F64.den
  split_ifs with h
  · have he : x.e = (x.e.toNat : Int) := (Int.toNat_of_nonneg h).symm
    nth_rewrite 1 [he]
    rw [zpow_natCast]
    push_cast
    simp
  · have hn : 0 ≤ -x.e := by omega
    have he : x.e = -((-x.e).toNat : Int) := by rw [Int.toNat_of_nonneg hn]; ring
    nth_rewrite 1 [he]
    rw [zpow_neg, zpow_natCast]
    push_cast
    rw [div_eq_mul_inv]

theorem Rel.mono {η η2 v x : ℚ} (h : Rel η v x) (hle : η ≤ η2) : Rel η2 v x :=
  le_trans h (mul_le_mul_of_nonneg_right hle (abs_nonneg x))

theorem Rel.abs_le {η v x : ℚ} (h : Rel η v x) : |v| ≤ (1 + η) * |x| := by
  have h1 : |v| ≤ |v - x| + |x| := by
    have := abs_add (v - x) x
    simpa using this
  unfold Rel at h
  linarith

theorem rel_round (n : Int) (d : Nat) (hd : 0 < d) :
    Rel (1 / 2 ^ 53) (F64.round n d).val ((n : ℚ) / (d : ℚ)) := by
  unfold Rel
  have h := F64.round_err n d hd
  have e : (1 : ℚ) / 2 ^ 53 * |(n : ℚ) / (d : ℚ)| = |(n : ℚ) / (d : ℚ)| / 2 ^ 53 := by ring
  rw [e]
  exact h

theorem Rel.trans {η1 η2 w v x : ℚ} (h1 : Rel η1 v x) (h2 : Rel η2 w v) (hη2 : 0 ≤ η2) :
    Rel (η1 + η2 + η1 * η2) w x := by
  have hv := h1.abs_le
  unfold Rel at *
  have h3 : |w - x| ≤ |w - v| + |v - x| := by
    have := abs_add (w - v) (v - x)
    simpa using this
  have h4 : η2 * |v| ≤ η2 * ((1 + η1) * |x|) := mul_le_mul_of_nonneg_left hv hη2
  nlinarith

theorem Rel.mul {η1 η2 v x w y : ℚ} (h1 : Rel η1 v x) (h2 : Rel η2 w y) :
    Rel (η1 + η2 + η1 * η2) (v * w) (x * y) := by
  have hv := h1.abs_le
  unfold Rel at *
  have e : v * w - x * y = v * (w - y) + (v - x) * y := by ring
  rw [e, abs_mul x y]
  have h3 : |v * (w - y) + (v - x) * y| ≤ |v| * |w - y| + |v - x| * |y| := by
    have := abs_add (v * (w - y)) ((v - x) * y)
    rwa [abs_mul, abs_mul] at this
  have h4 : |v| * |w - y| ≤ ((1 + η1) * |x|) * (η2 * |y|) :=
    mul_le_mul hv h2 (abs_nonneg _) (le_trans (abs_nonneg _) hv)
  have h5 : |v - x| * |y| ≤ (η1 * |x|) * |y| := mul_le_mul_of_nonneg_right h1 (abs_nonneg _)
  nlinarith

theorem Rel.div_const {η v x : ℚ} (h : Rel η v x) (c : ℚ) : Rel η (v / c) (x / c) := by
  unfold Rel at *
  have e : v / c - x / c = (v - x) / c := by ring
  rw [e, abs_div, abs_div, ← mul_div_assoc]
  exact div_le_div_of_nonneg_right h (abs_nonneg c)

theorem Rel.add {η v x w y : ℚ} (h1 : Rel η v x) (h2 : Rel η w y) (hs : 0 ≤ x * y) :
    Rel η (v + w) (x + y) := by
  unfold Rel at *
  have e : v + w - (x + y) = (v - x) + (w - y) := by ring
  have h3 := abs_add (v - x) (w - y)
  have h4 : |x + y| = |x| + |y| := by
    rcases le_total 0 x with hx | hx
    · rcases le_total 0 y with hy | hy
      · rw [abs_of_nonneg hx, abs_of_nonneg hy, abs_of_nonneg (add_nonneg hx hy)]
      · have : x * y ≤ 0 := mul_nonpos_of_nonneg_of_nonpos hx hy
        have h0 : x * y = 0 := le_antisymm this hs
        rcases mul_eq_zero.1 h0 with h | h <;> simp [h]
    · rcases le_total 0 y with hy | hy
      · have : x * y ≤ 0 := mul_nonpos_of_nonpos_of_nonneg hx hy
        have h0 : x * y = 0 := le_antisymm this hs
        rcases mul_eq_zero.1 h0 with h | h <;> simp [h]
      · rw [abs_of_nonpos hx, abs_of_nonpos hy, abs_of_nonpos (add_nonpos hx hy)]
        ring
  rw [e, h4]
  linarith

theorem F64.ofInt_rel (n : Int) : Rel (1 / 2 ^ 53) (F64.ofInt n).val (n : ℚ) := by
  have h := rel_round n 1 (by norm_num)
  simpa [F64.ofInt] using h

theorem F64.add_rel (x y : F64) : Rel (1 / 2 ^ 53) (x.add y).val (x.val + y.val) := by
  have hx := x.den_pos
  have hy := y.den_pos
  have h := rel_round (x.num * y.den + y.num * x.den) (x.den * y.den) (Nat.mul_pos hx hy)
  have hxq : (x.den : ℚ) ≠ 0 := by exact_mod_cast hx.ne'
  have hyq : (y.den : ℚ) ≠ 0 := by exact_mod_cast hy.ne'
  have e : (((x.num * y.den + y.num * x.den : Int)) : ℚ) / ((x.den * y.den : Nat) : ℚ)
      = x.val + y.val := by
    rw [x.val_eq, y.val_eq]
    push_cast
    field_simp
  rw [e] at h
  exact h

theorem F64.mul_rel (x y : F64) : Rel (1 / 2 ^ 53) (x.mul y).val (x.val * y.val) := by
  have hx := x.den_pos
  have hy := y.den_pos
  have h := rel_round (x.num * y.num) (x.den * y.den) (Nat.mul_pos hx hy)
  have hxq : (x.den : ℚ) ≠ 0 := by exact_mod_cast hx.ne'
  have hyq : (y.den : ℚ) ≠ 0 := by exact_mod_cast hy.ne'
  have e : (((x.num * y.num : Int)) : ℚ) / ((x.den * y.den : Nat) : ℚ) = x.val * y.val := by
    rw [x.val_eq, y.val_eq]
    push_cast
    field_simp
  rw [e] at h
  exact h

theorem F64.div_rel (x y : F64) (hy0 : y.num ≠ 0) :
    Rel (1 / 2 ^ 53) (x.div y).val (x.val / y.val) := by
  have hx := x.den_pos
  have hy := y.den_pos
  have hxq : (x.den : ℚ) ≠ 0 := by exact_mod_cast hx.ne'
  have hyq : (y.den : ℚ) ≠ 0 := by exact_mod_cast hy.ne'
  have hnq : (y.num : ℚ) ≠ 0 := by exact_mod_cast hy0
  have hna : 0 < y.num.natAbs := Int.natAbs_pos.2 hy0
  unfold F64.div
  split_ifs with hs
  · have h := rel_round (x.num * y.den) (x.den * y.num.natAbs) (Nat.mul_pos hx hna)
    have hc : ((y.num.natAbs : Nat) : ℚ) = (y.num : ℚ) := by
      have h1 : ((y.num.natAbs : Nat) : Int) = y.num := Int.natAbs_of_nonneg hs
      have h2 : (((y.num.natAbs : Nat) : Int) : ℚ) = (y.num : ℚ) := by rw [h1]
      rwa [Int.cast_natCast] at h2
    have e : (((x.num * y.den : Int)) : ℚ) / ((x.den * y.num.natAbs : Nat) : ℚ)
        = x.val / y.val := by
      rw [x.val_eq, y.val_eq]
      push_cast
      rw [hc]
      field_simp
    rw [e] at h
    exact h
  · have h := rel_round (-(x.num * y.den)) (x.den * y.num.natAbs) (Nat.mul_pos hx hna)
    have hc : ((y.num.natAbs : Nat) : ℚ) = -(y.num : ℚ) := by
      have h1 : ((y.num.natAbs : Nat) : Int) = -y.num :=
        Int.ofNat_natAbs_of_nonpos (by omega)
      have h2 : (((y.num.natAbs : Nat) : Int) : ℚ) = ((-y.num : Int) : ℚ) := by rw [h1]
      rwa [Int.cast_natCast, Int.cast_neg] at h2
    have e : (((-(x.num * y.den) : Int)) : ℚ) / ((x.den * y.num.natAbs : Nat) : ℚ)
        = x.val / y.val := by
      rw [x.val_eq, y.val_eq]
      push_cast
      rw [hc]
      field_simp
    rw [e] at h
    exact h

theorem F64.ofInt_billion : F64.ofInt 1000000000 = ⟨8388608000000000, -23⟩ := by decide

theorem F64.val_billion : (F64.ofInt 1000000000).val = 1000000000 := by
  rw [F64.ofInt_billion]
  norm_num [F64.val]

theorem F64.num_billion : (F64.ofInt 1000000000).num ≠ 0 := by
  rw [F64.ofInt_billion]
  decide

theorem tdiv_tmod_rat (d : Int) :
    ((Int.tdiv d 1000000000 : Int) : ℚ) + ((Int.tmod d 1000000000 : Int) : ℚ) / 1000000000
      = (d : ℚ) / 1000000000 := by
  have h := Int.tdiv_add_tmod d 1000000000
  have h2 : ((1000000000 * Int.tdiv d 1000000000 + Int.tmod d 1000000000 : Int) : ℚ) = (d : ℚ) := by
    rw [h]
  push_cast at h2
  field_simp
  linarith

theorem tdiv_tmod_sign (d : Int) :
    (0 : ℚ) ≤ ((Int.tdiv d 1000000000 : Int) : ℚ)
      * (((Int.tmod d 1000000000 : Int) : ℚ) / 1000000000) := by
  rcases le_total 0 d with h | h
  · have h1 : 0 ≤ Int.tdiv d 1000000000 := Int.tdiv_nonneg h (by norm_num)
    have h2 : 0 ≤ Int.tmod d 1000000000 := Int.tmod_nonneg _ h
    have h1q : (0 : ℚ) ≤ ((Int.tdiv d 1000000000 : Int) : ℚ) := by exact_mod_cast h1
    have h2q : (0 : ℚ) ≤ ((Int.tmod d 1000000000 : Int) : ℚ) := by exact_mod_cast h2
    positivity
  · have hn : 0 ≤ -d := by omega
    have h1 : 0 ≤ Int.tdiv (-d) 1000000000 := Int.tdiv_nonneg hn (by norm_num)
    have h2 : 0 ≤ Int.tmod (-d) 1000000000 := Int.tmod_nonneg _ hn
    have e1 : Int.tdiv d 1000000000 = -Int.tdiv (-d) 1000000000 := by
      rw [Int.neg_tdiv]; ring
    have e2 : Int.tmod d 1000000000 = -Int.tmod (-d) 1000000000 := by
      have a1 := Int.tdiv_add_tmod d 1000000000
      have a2 := Int.tdiv_add_tmod (-d) 1000000000
      rw [Int.neg_tdiv] at a2
      omega
    have h1q : ((Int.tdiv d 1000000000 : Int) : ℚ) ≤ 0 := by
      have : Int.tdiv d 1000000000 ≤ 0 := by omega
      exact_mod_cast this
    have h2q : ((Int.tmod d 1000000000 : Int) : ℚ) ≤ 0 := by
      have : Int.tmod d 1000000000 ≤ 0 := by omega
      exact_mod_cast this
    have h3 : ((Int.tmod d 1000000000 : Int) : ℚ) / 1000000000 ≤ 0 :=
      div_nonpos_of_nonpos_of_nonneg h2q (by norm_num)
    exact mul_nonneg_of_nonpos_of_nonpos h1q h3

/-- The float64 value of `d.Seconds()` is the exact number of seconds up to the
relative error 4 · 2^-53. -/
theorem Duration.Seconds_rel (d : Duration) :
    Rel (4 / 2 ^ 53) (Duration.Seconds d).val ((d : ℚ) / 1000000000) := by
  have hA := F64.ofInt_rel (Int.tdiv d 1000000000)
  have hB := F64.ofInt_rel (Int.tmod d 1000000000)
  have hq := F64.div_rel (F64.ofInt (Int.tmod d 1000000000)) (F64.ofInt 1000000000)
    F64.num_billion
  rw [F64.val_billion] at hq
  have hB2 := hB.div_const 1000000000
  have hq2 := (hB2.trans hq (by norm_num)).mono
    (by norm_num : (1 : ℚ) / 2 ^ 53 + 1 / 2 ^ 53 + 1 / 2 ^ 53 * (1 / 2 ^ 53) ≤ 5 / 2 ^ 54)
  have hA2 := hA.mono (by norm_num : (1 : ℚ) / 2 ^ 53 ≤ 5 / 2 ^ 54)
  have hsum := hA2.add hq2 (tdiv_tmod_sign d)
  rw [tdiv_tmod_rat] at hsum
  have hadd := F64.add_rel (F64.ofInt (Int.tdiv d 1000000000))
    (F64.div (F64.ofInt (Int.tmod d 1000000000)) (F64.ofInt 1000000000))
  exact (hsum.trans hadd (by norm_num)).mono (by norm_num)

/-- The product that `allow` computes in float64 is the exact product up to the
relative error 2^-50. -/
theorem refillAmount_rel (d r : Int) :
    Rel (1 / 2 ^ 50) ((Duration.Seconds d).mul (F64.ofInt r)).val
      ((d : ℚ) * (r : ℚ) / 1000000000) := by
  have h1 := (Duration.Seconds_rel d).mul (F64.ofInt_rel r)
  have h2 := F64.mul_rel (Duration.Seconds d) (F64.ofInt r)
  have h3 := (h1.trans h2 (by norm_num)).mono
    (by norm_num : (4 : ℚ) / 2 ^ 53 + 1 / 2 ^ 53 + 4 / 2 ^ 53 * (1 / 2 ^ 53) + 1 / 2 ^ 53
      + (4 / 2 ^ 53 + 1 / 2 ^ 53 + 4 / 2 ^ 53 * (1 / 2 ^ 53)) * (1 / 2 ^ 53) ≤ 1 / 2 ^ 50)
  have e : (d : ℚ) / 1000000000 * (r : ℚ) = (d : ℚ) * (r : ℚ) / 1000000000 := by ring
  rw [e] at h3
  exact h3

theorem F64.toInt_range (x : F64) :
    -9223372036854775808 ≤ x.toInt ∧ x.toInt < 9223372036854775808 := by
  unfold F64.toInt
  simp only
  split_ifs with h
  · exact h
  · constructor <;> norm_num

theorem F64.toInt_nonpos (x : F64) (h : x.val ≤ 0) : x.toInt ≤ 0 := by
  have hd := x.den_pos
  have hdq : (0 : ℚ) < (x.den : ℚ) := by exact_mod_cast hd
  rw [x.val_eq, div_le_iff₀ hdq, zero_mul] at h
  have hn : x.num ≤ 0 := by exact_mod_cast h
  have ht : Int.tdiv x.num x.den ≤ 0 := by
    have h1 : 0 ≤ Int.tdiv (-x.num) x.den := Int.tdiv_nonneg (by omega) (by omega)
    rw [Int.neg_tdiv] at h1
    omega
  unfold F64.toInt
  simp only
  split_ifs
  · exact ht
  · norm_num

theorem F64.tdiv_eq_floor (x : F64) (h : 0 ≤ x.val) : Int.tdiv x.num x.den = ⌊x.val⌋ := by
  have hd := x.den_pos
  have hdq : (0 : ℚ) < (x.den : ℚ) := by exact_mod_cast hd
  have hn : 0 ≤ x.num := by
    rw [x.val_eq, le_div_iff₀ hdq, zero_mul] at h
    exact_mod_cast h
  rw [Int.tdiv_eq_ediv hn (by omega), x.val_eq]
  exact (Rat.floor_intCast_div_natCast x.num x.den).symm

theorem F64.toInt_le_floor (x : F64) (h : 0 ≤ x.val) : x.toInt ≤ ⌊x.val⌋ := by
  have h0 : 0 ≤ ⌊x.val⌋ := Int.floor_nonneg.2 h
  unfold F64.toInt
  simp only
  split_ifs
  · exact le_of_eq (x.tdiv_eq_floor h)
  · omega

theorem F64.toInt_eq_floor (x : F64) (h : 0 ≤ x.val) (hlt : x.val < 9223372036854775808) :
    x.toInt = ⌊x.val⌋ := by
  have h0 : 0 ≤ ⌊x.val⌋ := Int.floor_nonneg.2 h
  have h1 : ⌊x.val⌋ < 9223372036854775808 := by
    rw [Int.floor_lt]
    exact_mod_cast hlt
  unfold F64.toInt
  simp only
  rw [x.tdiv_eq_floor h]
  split_ifs with hc
  · rfl
  · exfalso
    apply hc
    constructor <;> omega

/-- No whole token is computed when the exact product is below one token. -/
theorem refillAmount_nonpos (d r : Int) (h : d * r < 1000000000) : refillAmount d r ≤ 0 := by
  have hrel := refillAmount_rel d r
  unfold Rel at hrel
  rw [abs_le] at hrel
  have hXq : ((d : ℚ) * (r : ℚ)) < 1000000000 := by exact_mod_cast h
  unfold refillAmount
  rcases le_or_lt (d * r) 0 with hneg | hpos
  · apply F64.toInt_nonpos
    have hq : (d : ℚ) * (r : ℚ) / 1000000000 ≤ 0 := by
      have : ((d : ℚ) * (r : ℚ)) ≤ 0 := by exact_mod_cast hneg
      exact div_nonpos_of_nonpos_of_nonneg this (by norm_num)
    rw [abs_of_nonpos hq] at hrel
    linarith [hrel.2]
  · have hX1 : d * r ≤ 999999999 := by omega
    have hq0 : (0 : ℚ) ≤ (d : ℚ) * (r : ℚ) / 1000000000 := by
      have : (0 : ℚ) ≤ ((d : ℚ) * (r : ℚ)) := by exact_mod_cast hpos.le
      positivity
    have hq1 : (d : ℚ) * (r : ℚ) / 1000000000 ≤ 999999999 / 1000000000 := by
      have : ((d : ℚ) * (r : ℚ)) ≤ 999999999 := by exact_mod_cast hX1
      linarith
    rw [abs_of_nonneg hq0] at hrel
    have hp0 : 0 ≤ ((Duration.Seconds d).mul (F64.ofInt r)).val := by
      have : (1 : ℚ) / 2 ^ 50 * ((d : ℚ) * (r : ℚ) / 1000000000)
          ≤ (d : ℚ) * (r : ℚ) / 1000000000 := by
        have : (1 : ℚ) / 2 ^ 50 ≤ 1 := by norm_num
        nlinarith
      linarith [hrel.1]
    have hp1 : ((Duration.Seconds d).mul (F64.ofInt r)).val < 1 := by
      have : (1 : ℚ) / 2 ^ 50 * ((d : ℚ) * (r : ℚ) / 1000000000) ≤ 1 / 2 ^ 50 := by
        have : (0 : ℚ) ≤ 1 / 2 ^ 50 := by norm_num
        nlinarith
      have h5 : ((Duration.Seconds d).mul (F64.ofInt r)).val
          ≤ 999999999 / 1000000000 + 1 / 2 ^ 50 := by linarith [hrel.2]
      have h6 : (999999999 : ℚ) / 1000000000 + 1 / 2 ^ 50 < 1 := by norm_num
      linarith
    have hf := F64.toInt_le_floor _ hp0
    have hfl : ⌊((Duration.Seconds d).mul (F64.ofInt r)).val⌋ < 1 := by
      rw [Int.floor_lt]
      exact_mod_cast hp1
    omega

/-- Below a million tokens the float64 computation gives the whole tokens of the
exact product, except that an exact product that is a whole number may give
one less. -/
theorem refillAmount_near_floor (d r : Int) (h0 : 0 ≤ d * r) (h1 : d * r < 1000000000000000) :
    refillAmount d r ≤ d * r / 1000000000 ∧
    d * r / 1000000000 - 1 ≤ refillAmount d r ∧
    0 ≤ refillAmount d r ∧
    (d * r % 1000000000 ≠ 0 → refillAmount d r = d * r / 1000000000) := by
  have hrel := refillAmount_rel d r
  unfold Rel at hrel
  rw [abs_le] at hrel
  have hX0 : (0 : ℚ) ≤ ((d * r : Int) : ℚ) := by exact_mod_cast h0
  have hX1 : ((d * r : Int) : ℚ) < 1000000000000000 := by exact_mod_cast h1
  have hdm := Int.ediv_add_emod (d * r) 1000000000
  have hm0 := Int.emod_nonneg (d * r) (by norm_num : (1000000000 : Int) ≠ 0)
  have hm1 := Int.emod_lt_of_pos (d * r) (by norm_num : (0 : Int) < 1000000000)
  have hk0 : 0 ≤ d * r / 1000000000 := Int.ediv_nonneg h0 (by norm_num)
  set k : Int := d * r / 1000000000 with hk
  set ρ : Int := d * r % 1000000000 with hρ
  have hXq : ((d * r : Int) : ℚ) = 1000000000 * (k : ℚ) + (ρ : ℚ) := by
    exact_mod_cast hdm.symm
  have hx : (d : ℚ) * (r : ℚ) / 1000000000 = (k : ℚ) + (ρ : ℚ) / 1000000000 := by
    have : (d : ℚ) * (r : ℚ) = ((d * r : Int) : ℚ) := by push_cast; ring
    rw [this, hXq]
    field_simp
    ring
  have hxlt : (d : ℚ) * (r : ℚ) / 1000000000 < 1000000 := by
    have : (d : ℚ) * (r : ℚ) = ((d * r : Int) : ℚ) := by push_cast; ring
    rw [this]
    linarith
  have hx0 : (0 : ℚ) ≤ (d : ℚ) * (r : ℚ) / 1000000000 := by
    have : (d : ℚ) * (r : ℚ) = ((d * r : Int) : ℚ) := by push_cast; ring
    rw [this]
    positivity
  rw [abs_of_nonneg hx0] at hrel
  have herr : (1 : ℚ) / 2 ^ 50 * ((d : ℚ) * (r : ℚ) / 1000000000) < 1 / 1000000000 := by
    have h2 : (1 : ℚ) / 2 ^ 50 * ((d : ℚ) * (r : ℚ) / 1000000000)
        ≤ 1 / 2 ^ 50 * 1000000 := by
      apply mul_le_mul_of_nonneg_left hxlt.le (by norm_num)
    have h3 : (1 : ℚ) / 2 ^ 50 * 1000000 < 1 / 1000000000 := by norm_num
    linarith
  have herr0 : (0 : ℚ) ≤ 1 / 2 ^ 50 * ((d : ℚ) * (r : ℚ) / 1000000000) := by positivity
  have hρ0 : (0 : ℚ) ≤ (ρ : ℚ) := by exact_mod_cast hm0
  have hρ1 : (ρ : ℚ) ≤ 999999999 := by
    have : ρ ≤ 999999999 := by omega
    exact_mod_cast this
  have hkq : (0 : ℚ) ≤ (k : ℚ) := by exact_mod_cast hk0
  set p : ℚ := ((Duration.Seconds d).mul (F64.ofInt r)).val with hp
  have hp0 : 0 ≤ p := by
    have : (1 : ℚ) / 2 ^ 50 * ((d : ℚ) * (r : ℚ) / 1000000000)
        ≤ (d : ℚ) * (r : ℚ) / 1000000000 := by
      have : (1 : ℚ) / 2 ^ 50 ≤ 1 := by norm_num
      nlinarith
    linarith [hrel.1]
  have hpu : p < (k : ℚ) + 1 := by
    have : (ρ : ℚ) / 1000000000 ≤ 999999999 / 1000000000 := by linarith
    have h5 : p ≤ (k : ℚ) + (ρ : ℚ) / 1000000000
        + 1 / 2 ^ 50 * ((d : ℚ) * (r : ℚ) / 1000000000) := by linarith [hrel.2]
    have h6 : (999999999 : ℚ) / 1000000000 + 1 / 1000000000 = 1 := by norm_num
    linarith
  have hpl : (k : ℚ) - 1 < p := by
    have : (0 : ℚ) ≤ (ρ : ℚ) / 1000000000 := by positivity
    have h5 : (k : ℚ) + (ρ : ℚ) / 1000000000
        - 1 / 2 ^ 50 * ((d : ℚ) * (r : ℚ) / 1000000000) ≤ p := by linarith [hrel.1]
    have h6 : (1 : ℚ) / 1000000000 < 1 := by norm_num
    linarith
  have hplt : p < 9223372036854775808 := by
    have : (k : ℚ) ≤ 1000000 := by
      have : (0 : ℚ) ≤ (ρ : ℚ) / 1000000000 := by positivity
      linarith
    linarith
  have hto : refillAmount d r = ⌊p⌋ := F64.toInt_eq_floor _ hp0 hplt
  have hfu : ⌊p⌋ ≤ k := by
    have : ⌊p⌋ < k + 1 := by
      rw [Int.floor_lt]
      exact_mod_cast hpu
    omega
  have hfl : k - 1 ≤ ⌊p⌋ := by
    rw [Int.le_floor]
    push_cast
    exact hpl.le
  refine ⟨by rw [hto]; exact hfu, by rw [hto]; exact hfl, by rw [hto]; exact Int.floor_nonneg.2 hp0, ?_⟩
  intro hne
  have hρ1' : (1 : ℚ) ≤ (ρ : ℚ) := by
    have : 1 ≤ ρ := by omega
    exact_mod_cast this
  have hpk : (k : ℚ) ≤ p := by
    have : (1 : ℚ) / 1000000000 ≤ (ρ : ℚ) / 1000000000 := by
      apply div_le_div_of_nonneg_right hρ1' (by norm_num)
    have h5 : (k : ℚ) + (ρ : ℚ) / 1000000000
        - 1 / 2 ^ 50 * ((d : ℚ) * (r : ℚ) / 1000000000) ≤ p := by linarith [hrel.1]
    linarith
  have : k ≤ ⌊p⌋ := by
    rw [Int.le_floor]
    exact hpk
  rw [hto]
  omega

/-- A crude bound: the float64 computation gives at most twice the exact
product. -/
theorem refillAmount_le_twice (d r : Int) (h0 : 0 ≤ d * r) :
    refillAmount d r * 1000000000 ≤ 2 * (d * r) := by
  have hrel := refillAmount_rel d r
  unfold Rel at hrel
  rw [abs_le] at hrel
  have hX0 : (0 : ℚ) ≤ (d : ℚ) * (r : ℚ) := by exact_mod_cast h0
  have hx0 : (0 : ℚ) ≤ (d : ℚ) * (r : ℚ) / 1000000000 := by positivity
  rw [abs_of_nonneg hx0] at hrel
  set p : ℚ := ((Duration.Seconds d).mul (F64.ofInt r)).val with hp
  have hp0 : 0 ≤ p := by
    have : (1 : ℚ) / 2 ^ 50 * ((d : ℚ) * (r : ℚ) / 1000000000)
        ≤ (d : ℚ) * (r : ℚ) / 1000000000 := by
      have : (1 : ℚ) / 2 ^ 50 ≤ 1 := by norm_num
      nlinarith
    linarith [hrel.1]
  have hp2 : p ≤ 2 * ((d : ℚ) * (r : ℚ) / 1000000000) := by
    have : (1 : ℚ) / 2 ^ 50 * ((d : ℚ) * (r : ℚ) / 1000000000)
        ≤ (d : ℚ) * (r : ℚ) / 1000000000 := by
      have : (1 : ℚ) / 2 ^ 50 ≤ 1 := by norm_num
      nlinarith
    linarith [hrel.2]
  have hf : refillAmount d r ≤ ⌊p⌋ := F64.toInt_le_floor _ hp0
  have hfp : ((⌊p⌋ : Int) : ℚ) ≤ p := Int.floor_le p
  have hq : ((refillAmount d r : Int) : ℚ) ≤ p := le_trans (by exact_mod_cast hf) hfp
  have hfin : ((refillAmount d r * 1000000000 : Int) : ℚ) ≤ ((2 * (d * r) : Int) : ℚ) := by
    push_cast
    have : p * 1000000000 ≤ 2 * ((d : ℚ) * (r : ℚ)) := by
      have e : 2 * ((d : ℚ) * (r : ℚ) / 1000000000) * 1000000000 = 2 * ((d : ℚ) * (r : ℚ)) := by
        field_simp
      nlinarith
    nlinarith
  exact_mod_cast hfin


theorem F64.nearest_of_dvd (M D : Nat) (hD : 0 < D) : F64.nearest (M * D) D = M := by
  unfold F64.nearest
  have h1 : M * D % D = 0 := Nat.mul_mod_left M D
  have h2 : M * D / D = M := Nat.mul_div_cancel M hD
  rw [h1, h2]
  simp [hD]

theorem F64.roundNat_exact (K d : Nat) (hK : 0 < K) (hd : 0 < d) (hlt : K < 2 ^ 53) :
    ((F64.roundNat (K * d) d).1 : ℚ) * (2 : ℚ) ^ (F64.roundNat (K * d) d).2 = (K : ℚ) := by
  have ha : 0 < K * d := Nat.mul_pos hK hd
  have hlow := F64.exponent_quot (K * d) d ha hd
  have hpos := F64.scaled_pos (K * d) d (F64.exponent (K * d) d) hd
  have hq := F64.scaled_quot (K * d) d (F64.exponent (K * d) d) hd
  have hdq : (d : ℚ) ≠ 0 := by exact_mod_cast hd.ne'
  have hKq : (0 : ℚ) < (K : ℚ) := by exact_mod_cast hK
  have hKd : ((K * d : Nat) : ℚ) / (d : ℚ) = (K : ℚ) := by
    push_cast
    field_simp
  rw [hKd] at hq
  -- the exponent is not positive
  have hE : F64.exponent (K * d) d ≤ 0 := by
    by_contra hcon
    have hE1 : 1 ≤ F64.exponent (K * d) d := by omega
    have hposq : (0 : ℚ) < (((F64.scaled (K * d) d (F64.exponent (K * d) d)).2 : Nat) : ℚ) := by
      exact_mod_cast hpos
    have hlowq : (2 : ℚ) ^ 52 ≤ ((F64.scaled (K * d) d (F64.exponent (K * d) d)).1 : ℚ)
        / ((F64.scaled (K * d) d (F64.exponent (K * d) d)).2 : ℚ) := by
      rw [le_div_iff₀ hposq]
      have := (Nat.le_div_iff_mul_le hpos).1 hlow
      exact_mod_cast this
    rw [hq] at hlowq
    have h2 : (2 : ℚ) ^ (-(F64.exponent (K * d) d)) ≤ (2 : ℚ) ^ (-1 : Int) :=
      zpow_le_zpow_right₀ (by norm_num) (by omega)
    have h3 : (K : ℚ) < 2 ^ 53 := by exact_mod_cast hlt
    have h4 : (K : ℚ) * (2 : ℚ) ^ (-(F64.exponent (K * d) d)) ≤ (K : ℚ) * (2 : ℚ) ^ (-1 : Int) :=
      mul_le_mul_of_nonneg_left h2 hKq.le
    have h5 : (K : ℚ) * (2 : ℚ) ^ (-1 : Int) < 2 ^ 52 := by
      norm_num
      linarith
    linarith
  simp only [F64.roundNat]
  set E := F64.exponent (K * d) d with hEdef
  have hsc : F64.scaled (K * d) d E = (K * 2 ^ (-E).toNat * d, d) := by
    unfold F64.scaled
    by_cases h0 : 0 ≤ E
    · have hE0 : E = 0 := le_antisymm hE h0
      rw [if_pos h0, hE0]
      simp
    · rw [if_neg h0]
      congr 1
      ring
  rw [hsc]
  simp only
  rw [F64.nearest_of_dvd _ _ hd]
  push_cast
  have hn : 0 ≤ -E := by omega
  have he : E = -((-E).toNat : Int) := by rw [Int.toNat_of_nonneg hn]; ring
  have hz : (2 : ℚ) ^ E = ((2 : ℚ) ^ (-E).toNat)⁻¹ := by
    nth_rewrite 1 [he]
    rw [zpow_neg, zpow_natCast]
  rw [hz]
  field_simp

/-- A fraction whose value is a whole number below `2^53` in size is not changed
by rounding. -/
theorem F64.round_exact (n : Int) (d : Nat) (hd : 0 < d) (k : Int)
    (hk : n = k * (d : Int)) (hlt : k.natAbs < 2 ^ 53) : (F64.round n d).val = (k : ℚ) := by
  by_cases hk0 : k = 0
  · subst hk0
    simp [F64.round, hk, F64.val]
  have hKpos : 0 < k.natAbs := Int.natAbs_pos.2 hk0
  have hna : n.natAbs = k.natAbs * d := by
    rw [hk, Int.natAbs_mul, Int.natAbs_ofNat]
  have hex := F64.roundNat_exact k.natAbs d hKpos hd hlt
  have hdpos : (0 : Int) < (d : Int) := by exact_mod_cast hd
  rcases lt_or_gt_of_ne hk0 with hneg | hp
  · have hn : n < 0 := by
      rw [hk]
      exact mul_neg_of_neg_of_pos hneg hdpos
    have hn0 : n ≠ 0 := by omega
    have hnp : ¬ 0 < n := by omega
    simp only [F64.round, hn0, hnp, if_false, F64.val]
    rw [hna]
    have hkq : (k : ℚ) = -((k.natAbs : Nat) : ℚ) := by
      have h1 : ((k.natAbs : Nat) : Int) = -k := Int.ofNat_natAbs_of_nonpos hneg.le
      have h2 : (((k.natAbs : Nat) : Int) : ℚ) = ((-k : Int) : ℚ) := by rw [h1]
      rw [Int.cast_natCast, Int.cast_neg] at h2
      linarith
    rw [hkq, ← hex]
    push_cast
    ring
  · have hn : 0 < n := by
      rw [hk]
      exact mul_pos hp hdpos
    have hn0 : n ≠ 0 := by omega
    simp only [F64.round, hn0, hn, if_true, if_false, F64.val]
    rw [hna]
    have hkq : (k : ℚ) = ((k.natAbs : Nat) : ℚ) := by
      have h1 : ((k.natAbs : Nat) : Int) = k := Int.natAbs_of_nonneg hp.le
      have h2 : (((k.natAbs : Nat) : Int) : ℚ) = (k : ℚ) := by rw [h1]
      rw [Int.cast_natCast] at h2
      exact h2.symm
    rw [hkq, ← hex]
    push_cast
    ring

theorem F64.round_exact_of_val (n : Int) (d : Nat) (hd : 0 < d) (k : Int)
    (hk : (n : ℚ) / (d : ℚ) = (k : ℚ)) (hlt : k.natAbs < 2 ^ 53) :
    (F64.round n d).val = (k : ℚ) := by
  apply F64.round_exact n d hd k _ hlt
  have hdq : (d : ℚ) ≠ 0 := by exact_mod_cast hd.ne'
  rw [div_eq_iff hdq] at hk
  exact_mod_cast hk

theorem F64.toInt_of_val (x : F64) (k : Int) (h : x.val = (k : ℚ))
    (h0 : -9223372036854775808 ≤ k) (h1 : k < 9223372036854775808) : x.toInt = k := by
  have hd := x.den_pos
  have hdq : (x.den : ℚ) ≠ 0 := by exact_mod_cast hd.ne'
  rw [x.val_eq, div_eq_iff hdq] at h
  have hn : x.num = k * (x.den : Int) := by exact_mod_cast h
  have ht : Int.tdiv x.num x.den = k := by
    rw [hn]
    exact Int.mul_tdiv_cancel k (by exact_mod_cast hd.ne')
  unfold F64.toInt
  simp only
  rw [ht, if_pos ⟨h0, h1⟩]

theorem F64.ofInt_exact (n : Int) (h : n.natAbs < 2 ^ 53) : (F64.ofInt n).val = (n : ℚ) :=
  F64.round_exact n 1 (by norm_num) n (by simp) h

theorem F64.add_exact (x y : F64) (k : Int) (h : x.val + y.val = (k : ℚ))
    (hlt : k.natAbs < 2 ^ 53) : (x.add y).val = (k : ℚ) := by
  have hx := x.den_pos
  have hy := y.den_pos
  have hxq : (x.den : ℚ) ≠ 0 := by exact_mod_cast hx.ne'
  have hyq : (y.den : ℚ) ≠ 0 := by exact_mod_cast hy.ne'
  apply F64.round_exact_of_val _ _ (Nat.mul_pos hx hy) k _ hlt
  rw [← h, x.val_eq, y.val_eq]
  push_cast
  field_simp

theorem F64.mul_exact (x y : F64) (k : Int) (h : x.val * y.val = (k : ℚ))
    (hlt : k.natAbs < 2 ^ 53) : (x.mul y).val = (k : ℚ) := by
  have hx := x.den_pos
  have hy := y.den_pos
  have hxq : (x.den : ℚ) ≠ 0 := by exact_mod_cast hx.ne'
  have hyq : (y.den : ℚ) ≠ 0 := by exact_mod_cast hy.ne'
  apply F64.round_exact_of_val _ _ (Nat.mul_pos hx hy) k _ hlt
  rw [← h, x.val_eq, y.val_eq]
  push_cast
  field_simp

theorem F64.zero_div (y : F64) : (F64.div ⟨0, 0⟩ y) = ⟨0, 0⟩ := by
  unfold F64.div
  have h0 : (⟨0, 0⟩ : F64).num = 0 := by simp [F64.num]
  rw [h0]
  split_ifs <;> simp [F64.round]

/-- A whole number of seconds is converted by `Seconds` without error. -/
theorem Duration.Seconds_whole (sec : Int) (h : sec.natAbs < 2 ^ 53) :
    (Duration.Seconds (sec * 1000000000)).val = (sec : ℚ) := by
  have e1 : Int.tdiv (sec * 1000000000) 1000000000 = sec :=
    Int.mul_tdiv_cancel sec (by norm_num)
  have e2 : Int.tmod (sec * 1000000000) 1000000000 = 0 := by
    have h3 := Int.tdiv_add_tmod (sec * 1000000000) 1000000000
    rw [e1] at h3
    omega
  have e3 : F64.ofInt 0 = ⟨0, 0⟩ := by simp [F64.ofInt, F64.round]
  unfold Duration.Seconds
  simp only
  rw [e1, e2, e3, F64.zero_div]
  apply F64.add_exact _ _ sec _ h
  rw [F64.ofInt_exact sec h]
  simp [F64.val]

/-- For a whole number of seconds the amount computed in float64 is the exact
product, as long as the numbers are below `2^53` in size. -/
theorem refillAmount_whole_seconds (sec r : Int) (h1 : sec.natAbs < 2 ^ 53)
    (h2 : r.natAbs < 2 ^ 53) (h3 : (sec * r).natAbs < 2 ^ 53) :
    refillAmount (sec * 1000000000) r = sec * r := by
  unfold refillAmount
  apply F64.toInt_of_val
  · apply F64.mul_exact _ _ (sec * r) _ h3
    rw [Duration.Seconds_whole sec h1, F64.ofInt_exact r h2]
    push_cast
    rfl
  · omega
  · omega

/-- The significand that `F64.exponent` leads to has 53 bits: with
`F64.exponent_quot`, `2^52 ≤ a / (d · 2^e) < 2^53`. -/
theorem F64.exponent_quot_lt (a d : Nat) (ha : 0 < a) (hd : 0 < d) :
    (F64.scaled a d (F64.exponent a d)).1 / (F64.scaled a d (F64.exponent a d)).2 < 2 ^ 53 := by
  have hA := (ilog2_spec a ha).2
  have hDD := (ilog2_spec d hd).1
  have hdq : (0 : ℚ) < (d : ℚ) := by exact_mod_cast hd
  have hAq : (a : ℚ) < (2 : ℚ) ^ ((ilog2 a : Int) + 1) := by
    have : ((ilog2 a : Int) + 1) = ((ilog2 a + 1 : Nat) : Int) := by push_cast; rfl
    rw [this, zpow_natCast]
    exact_mod_cast hA
  have hDq : (2 : ℚ) ^ (ilog2 d : Int) ≤ (d : ℚ) := by
    rw [zpow_natCast]
    exact_mod_cast hDD
  -- the quotient at the first candidate exponent is below 2^53
  have hfirst : (a : ℚ) / (d : ℚ) * (2 : ℚ) ^ (-((ilog2 a : Int) - (ilog2 d : Int) - 52))
      < (2 : ℚ) ^ (53 : Int) := by
    have e1 : (2 : ℚ) ^ (53 : Int)
        = (2 : ℚ) ^ ((ilog2 a : Int) + 1) / (2 : ℚ) ^ (ilog2 d : Int)
          * (2 : ℚ) ^ (-((ilog2 a : Int) - (ilog2 d : Int) - 52)) := by
      rw [← zpow_sub₀ (by norm_num : (2 : ℚ) ≠ 0), ← zpow_add₀ (by norm_num : (2 : ℚ) ≠ 0)]
      congr 1
      ring
    rw [e1]
    apply mul_lt_mul_of_pos_right _ (by positivity)
    calc (a : ℚ) / (d : ℚ) < (2 : ℚ) ^ ((ilog2 a : Int) + 1) / (d : ℚ) :=
          div_lt_div_of_pos_right hAq hdq
      _ ≤ (2 : ℚ) ^ ((ilog2 a : Int) + 1) / (2 : ℚ) ^ (ilog2 d : Int) :=
          div_le_div_of_nonneg_left (by positivity) (by positivity) hDq
  have conv : ∀ e : Int, (a : ℚ) / (d : ℚ) * (2 : ℚ) ^ (-e) < (2 : ℚ) ^ (53 : Int) →
      (F64.scaled a d e).1 / (F64.scaled a d e).2 < 2 ^ 53 := by
    intro e h
    have hpos := F64.scaled_pos a d e hd
    have hposq : (0 : ℚ) < (((F64.scaled a d e).2 : Nat) : ℚ) := by exact_mod_cast hpos
    rw [← F64.scaled_quot a d e hd, div_lt_iff₀ hposq] at h
    rw [Nat.div_lt_iff_lt_mul hpos]
    have e2 : (2 : ℚ) ^ (53 : Int) = (2 : ℚ) ^ (53 : Nat) := by norm_cast
    rw [e2] at h
    exact_mod_cast h
  unfold F64.exponent
  simp only
  split_ifs with h
  · exact conv _ hfirst
  · apply conv
    have hlt : (F64.scaled a d ((ilog2 a : Int) - (ilog2 d : Int) - 52)).1
        / (F64.scaled a d ((ilog2 a : Int) - (ilog2 d : Int) - 52)).2 < 2 ^ 52 := not_le.1 h
    have hpos := F64.scaled_pos a d ((ilog2 a : Int) - (ilog2 d : Int) - 52) hd
    have hposq : (0 : ℚ) <
        (((F64.scaled a d ((ilog2 a : Int) - (ilog2 d : Int) - 52)).2 : Nat) : ℚ) := by
      exact_mod_cast hpos
    rw [Nat.div_lt_iff_lt_mul hpos] at hlt
    have hq : (((F64.scaled a d ((ilog2 a : Int) - (ilog2 d : Int) - 52)).1 : Nat) : ℚ)
        / (((F64.scaled a d ((ilog2 a : Int) - (ilog2 d : Int) - 52)).2 : Nat) : ℚ)
        < (2 : ℚ) ^ (52 : Nat) := by
      rw [div_lt_iff₀ hposq]
      exact_mod_cast hlt
    rw [F64.scaled_quot a d _ hd] at hq
    have e3 : (2 : ℚ) ^ (-((ilog2 a : Int) - (ilog2 d : Int) - 52 - 1))
        = (2 : ℚ) ^ (-((ilog2 a : Int) - (ilog2 d : Int) - 52)) * 2 := by
      have : -((ilog2 a : Int) - (ilog2 d : Int) - 52 - 1)
          = -((ilog2 a : Int) - (ilog2 d : Int) - 52) + 1 := by ring
      rw [this, zpow_add₀ (by norm_num : (2 : ℚ) ≠ 0)]
      norm_num
    rw [e3]
    have e4 : (2 : ℚ) ^ (53 : Int) = (2 : ℚ) ^ (52 : Nat) * 2 := by norm_num
    rw [e4, ← mul_assoc]
    linarith

/-- The model on values known from IEEE 754 arithmetic: `0.1` is
`0x3FB999999999999A`, `0.1 + 0.2` is `0x3FD3333333333334`
(0.30000000000000004), and `0.57 · 100` is 56.99999999999999. -/
theorem F64.known_values :
    F64.round 1 10 = ⟨7205759403792794, -56⟩ ∧
    F64.add (F64.round 1 10) (F64.round 2 10) = ⟨5404319552844596, -54⟩ ∧
    F64.mul (F64.round 57 100) (F64.ofInt 100) = ⟨8022036836253695, -47⟩ ∧
    F64.toInt (F64.mul (F64.round 57 100) (F64.ofInt 100)) = 56 := by
  decide

/-! ### The bucket -/

theorem floor_exactSeconds_mul (d r : Int) :
    ⌊exactSeconds d * (r : ℚ)⌋ = (d * r) / 1000000000 := by
  have h : exactSeconds d * (r : ℚ) = (((d * r : Int)) : ℚ) / ((1000000000 : Nat) : ℚ) := by
    unfold exactSeconds
    push_cast
    ring
  rw [h, Rat.floor_intCast_div_natCast]
  rfl

theorem floor_exactSeconds (d : Int) : ⌊exactSeconds d⌋ = d / 1000000000 := by
  have h := floor_exactSeconds_mul d 1
  simpa using h

theorem wrapInt_of_range (i : Int) (h0 : -9223372036854775808 ≤ i)
    (h1 : i < 9223372036854775808) : wrapInt i = i := by
  unfold wrapInt
  omega

theorem wrapInt_le (i : Int) (h0 : -9223372036854775808 ≤ i) : wrapInt i ≤ i := by
  unfold wrapInt
  omega

theorem Time.Sub_of_range (t u : Time) (h0 : -9223372036854775808 ≤ t - u)
    (h1 : t - u ≤ 9223372036854775807) : Time.Sub t u = t - u := by
  unfold Time.Sub minDuration maxDuration
  rw [if_neg (not_lt.2 h0), if_neg (not_lt.2 h1)]

theorem Time.Sub_range (t u : Time) :
    -9223372036854775808 ≤ Time.Sub t u ∧ Time.Sub t u ≤ 9223372036854775807 := by
  unfold Time.Sub minDuration maxDuration
  split_ifs with h0 h1
  · norm_num
  · norm_num
  · exact ⟨not_lt.1 h0, not_lt.1 h1⟩

theorem Time.Sub_self (t : Time) : Time.Sub t t = 0 := by
  rw [Time.Sub_of_range t t (by simp) (by simp)]
  simp

theorem Time.Sub_cases (t u : Time) :
    (Time.Sub t u = t - u) ∨
    (Time.Sub t u = -9223372036854775808 ∧ t - u < -9223372036854775808) ∨
    (Time.Sub t u = 9223372036854775807 ∧ 9223372036854775807 < t - u) := by
  unfold Time.Sub minDuration maxDuration
  by_cases h0 : t - u < -9223372036854775808
  · right; left
    exact ⟨if_pos h0, h0⟩
  · by_cases h1 : 9223372036854775807 < t - u
    · right; right
      rw [if_neg h0, if_pos h1]
      exact ⟨rfl, h1⟩
    · left
      rw [if_neg h0, if_neg h1]

/-- The saturation of `Time.Sub` keeps a product with the rate below one token. -/
theorem Time.Sub_mul_lt (t u : Time) (r : Int) (h : (t - u) * r < 1000000000) :
    Time.Sub t u * r < 1000000000 := by
  rcases Time.Sub_cases t u with e | ⟨e, hlt⟩ | ⟨e, hlt⟩
  · rw [e]
    exact h
  · rw [e]
    rcases le_or_lt 0 r with hr | hr
    · nlinarith
    · exfalso
      have h1 : r ≤ -1 := by omega
      nlinarith
  · rw [e]
    rcases le_or_lt r 0 with hr | hr
    · nlinarith
    · exfalso
      have h1 : 1 ≤ r := by omega
      nlinarith

/-- A product with the rate between 0 and a million tokens is not touched by the
saturation of `Time.Sub`. -/
theorem Time.Sub_mul_eq (t u : Time) (r : Int) (h0 : 0 ≤ (t - u) * r)
    (h1 : (t - u) * r < 1000000000000000) : Time.Sub t u * r = (t - u) * r := by
  rcases Time.Sub_cases t u with e | ⟨e, hlt⟩ | ⟨e, hlt⟩
  · rw [e]
  · rcases lt_trichotomy r 0 with hr | hr | hr
    · exfalso
      have h2 : r ≤ -1 := by omega
      nlinarith
    · rw [hr]
      simp
    · exfalso
      nlinarith
  · rcases lt_trichotomy r 0 with hr | hr | hr
    · exfalso
      nlinarith
    · rw [hr]
      simp
    · exfalso
      have h2 : 1 ≤ r := by omega
      nlinarith

theorem Bucket.newTokens_range (b : Bucket) (now : Time) :
    -9223372036854775808 ≤ b.newTokens now ∧ b.newTokens now < 9223372036854775808 :=
  F64.toInt_range _

/-- No whole token is computed while the exact product of the elapsed seconds
and the rate is below one. -/
theorem Bucket.newTokens_nonpos (b : Bucket) (now : Time)
    (h : ⌊exactSeconds (now - b.LastRefilled) * (b.RefillRate : ℚ)⌋ ≤ 0) :
    b.newTokens now ≤ 0 := by
  rw [floor_exactSeconds_mul] at h
  have key : ∀ X : Int, X / 1000000000 ≤ 0 → X < 1000000000 := fun X hX => by omega
  exact refillAmount_nonpos _ _ (Time.Sub_mul_lt _ _ _ (key _ h))

/-- Below a million tokens the amount that `allow` computes is the floor of the
exact product, except that an exact product that is a whole number may give one
less. -/
theorem Bucket.newTokens_near_floor (b : Bucket) (now : Time)
    (h0 : 0 ≤ (now - b.LastRefilled) * b.RefillRate)
    (h1 : (now - b.LastRefilled) * b.RefillRate < 1000000000000000) :
    b.newTokens now ≤ ⌊exactSeconds (now - b.LastRefilled) * (b.RefillRate : ℚ)⌋ ∧
    ⌊exactSeconds (now - b.LastRefilled) * (b.RefillRate : ℚ)⌋ - 1 ≤ b.newTokens now ∧
    0 ≤ b.newTokens now ∧
    ((now - b.LastRefilled) * b.RefillRate % 1000000000 ≠ 0 →
      b.newTokens now = ⌊exactSeconds (now - b.LastRefilled) * (b.RefillRate : ℚ)⌋) := by
  have e := Time.Sub_mul_eq now b.LastRefilled b.RefillRate h0 h1
  have h := refillAmount_near_floor (Time.Sub now b.LastRefilled) b.RefillRate
    (by rw [e]; exact h0) (by rw [e]; exact h1)
  rw [e] at h
  rw [floor_exactSeconds_mul]
  exact h

/-- The amount that `allow` computes is at most the floor of the exact product,
when that product is below a million tokens. -/
theorem Bucket.newTokens_le_floor (b : Bucket) (now : Time)
    (h1 : (now - b.LastRefilled) * b.RefillRate < 1000000000000000) :
    max 0 (b.newTokens now)
      ≤ max 0 ⌊exactSeconds (now - b.LastRefilled) * (b.RefillRate : ℚ)⌋ := by
  rcases lt_or_le ((now - b.LastRefilled) * b.RefillRate) 0 with hneg | h0
  · have key : ∀ X : Int, X < 0 → X / 1000000000 ≤ 0 := fun X hX => by omega
    have h : ⌊exactSeconds (now - b.LastRefilled) * (b.RefillRate : ℚ)⌋ ≤ 0 := by
      rw [floor_exactSeconds_mul]
      exact key _ hneg
    have := Bucket.newTokens_nonpos b now h
    rw [max_eq_left this]
    exact le_max_left _ _
  · have h := (Bucket.newTokens_near_floor b now h0 h1).1
    exact max_le_max (le_refl _) h

/-- For an elapsed time of a whole number of seconds the amount that `allow`
computes is the exact product. -/
theorem Bucket.newTokens_whole_seconds (b : Bucket) (now : Time) (sec : Int)
    (hd : now - b.LastRefilled = sec * 1000000000) (h1 : sec.natAbs ≤ 9000000000)
    (h2 : b.RefillRate.natAbs < 2 ^ 53) (h3 : (sec * b.RefillRate).natAbs < 2 ^ 53) :
    b.newTokens now = sec * b.RefillRate ∧
    ⌊exactSeconds (now - b.LastRefilled) * (b.RefillRate : ℚ)⌋ = sec * b.RefillRate := by
  have hb : -9000000000 ≤ sec ∧ sec ≤ 9000000000 := by omega
  have hs : Time.Sub now b.LastRefilled = sec * 1000000000 := by
    rw [Time.Sub_of_range now b.LastRefilled (by rw [hd]; linarith [hb.1])
      (by rw [hd]; linarith [hb.2]), hd]
  refine ⟨?_, ?_⟩
  · unfold Bucket.newTokens
    rw [hs]
    exact refillAmount_whole_seconds sec b.RefillRate (by omega) h2 h3
  · rw [floor_exactSeconds_mul, hd]
    have e : sec * 1000000000 * b.RefillRate = sec * b.RefillRate * 1000000000 := by ring
    rw [e]
    exact Int.mul_ediv_cancel _ (by norm_num)

/-- The step of `Bucket.allow` written with the amount `newTokens`, the form in
which the theorems below use it. -/
theorem Bucket.allow_eq (b : Bucket) (now : Time) :
    b.allow now =
      (if 0 < b.newTokens now then
        (if 0 < min b.Capacity (wrapInt (b.Tokens + b.newTokens now)) then
          (true, { Capacity := b.Capacity,
                   Tokens := min b.Capacity (wrapInt (b.Tokens + b.newTokens now)) - 1,
                   RefillRate := b.RefillRate, LastRefilled := now })
        else
          (false, { Capacity := b.Capacity,
                    Tokens := min b.Capacity (wrapInt (b.Tokens + b.newTokens now)),
                    RefillRate := b.RefillRate, LastRefilled := now }))
      else
        (if 0 < b.Tokens then
          (true, { Capacity := b.Capacity, Tokens := b.Tokens - 1,
                   RefillRate := b.RefillRate, LastRefilled := b.LastRefilled })
        else (false, b))) := by
  have e : F64.toInt (F64.mul (Duration.Seconds (Time.Sub now b.LastRefilled))
      (F64.ofInt b.RefillRate)) = b.newTokens now := rfl
  by_cases h : 0 < b.newTokens now
  · simp only [Bucket.allow, e, h, gt_iff_lt, if_true]
  · simp only [Bucket.allow, e, h, gt_iff_lt, if_false]

/-- A call of `allow` while no whole token accrues. -/
theorem Bucket.allow_of_no_refill (b : Bucket) (now : Time)
    (h : ⌊exactSeconds (now - b.LastRefilled) * (b.RefillRate : ℚ)⌋ ≤ 0) :
    b.allow now =
      (if 0 < b.Tokens then
        (true, { Capacity := b.Capacity, Tokens := b.Tokens - 1,
                 RefillRate := b.RefillRate, LastRefilled := b.LastRefilled })
      else (false, b)) := by
  have hn : ¬ 0 < b.newTokens now := not_lt.2 (Bucket.newTokens_nonpos b now h)
  rw [Bucket.allow_eq, if_neg hn]

theorem Bucket.allowFlags_cons (b : Bucket) (t : Time) (ts : List Time) :
    b.allowFlags (t :: ts) = (b.allow t).1 :: (b.allow t).2.allowFlags ts := by
  simp [Bucket.allowFlags, Bucket.allowTrace]

/-- While no whole token accrues, the calls are admitted until the tokens at
hand are used up. -/
theorem Bucket.allowFlags_of_no_refill (ts : List Time) (b : Bucket) (h0 : 0 ≤ b.Tokens)
    (h : ∀ t ∈ ts, ⌊exactSeconds (t - b.LastRefilled) * (b.RefillRate : ℚ)⌋ ≤ 0) :
    b.allowFlags ts = (List.range ts.length).map (fun (i : Nat) => decide ((i : Int) < b.Tokens)) := by
  induction ts generalizing b with
  | nil => simp [Bucket.allowFlags, Bucket.allowTrace]
  | cons t ts ih =>
      rw [Bucket.allowFlags_cons, Bucket.allow_of_no_refill b t (h t (List.mem_cons_self _ _)),
        List.length_cons, List.range_succ_eq_map, List.map_cons, List.map_map]
      by_cases hp : 0 < b.Tokens
      · rw [if_pos hp]
        have hrest := ih { Capacity := b.Capacity, Tokens := b.Tokens - 1,
                           RefillRate := b.RefillRate, LastRefilled := b.LastRefilled }
          (by simp only; omega) (fun u hu => h u (List.mem_cons_of_mem _ hu))
        simp only at hrest ⊢
        rw [hrest]
        congr 1
        · simp [hp]
        · apply List.map_congr_left
          intro i _
          simp only [Function.comp, Nat.succ_eq_add_one, Nat.cast_add, Nat.cast_one]
          congr 1
          apply propext
          constructor <;> intro hh <;> omega
      · rw [if_neg hp]
        have hrest := ih b h0 (fun u hu => h u (List.mem_cons_of_mem _ hu))
        simp only
        rw [hrest]
        congr 1
        · simp [hp]
        · apply List.map_congr_left
          intro i _
          simp only [Function.comp, Nat.succ_eq_add_one, Nat.cast_add, Nat.cast_one]
          congr 1
          apply propext
          constructor <;> intro hh <;> omega

theorem count_true_range_lt (n : Nat) (c : Int) (hc : 0 ≤ c) :
    (((List.range n).map (fun (i : Nat) => decide ((i : Int) < c))).count true : Int)
      = min (n : Int) c := by
  induction n with
  | zero => simp [hc]
  | succ n ih =>
      rw [List.range_succ, List.map_append, List.count_append, Nat.cast_add, ih]
      by_cases h : (n : Int) < c
      · simp [h]
        omega
      · simp [h]
        omega

/-- One call keeps `Tokens ≤ Capacity`, and keeps `0 ≤ Tokens` when the sum
`Tokens + newTokens` of a refill does not exceed the largest `int`. -/
theorem Bucket.allow_tokens_bounds (b : Bucket) (now : Time) (h1 : b.Tokens ≤ b.Capacity) :
    (b.allow now).2.Tokens ≤ (b.allow now).2.Capacity ∧
    (0 ≤ b.Tokens →
      (0 < b.newTokens now → b.Tokens + b.newTokens now < 9223372036854775808) →
      0 ≤ (b.allow now).2.Tokens) := by
  rw [Bucket.allow_eq]
  by_cases h : 0 < b.newTokens now
  · have hm := min_le_left b.Capacity (wrapInt (b.Tokens + b.newTokens now))
    by_cases h2 : 0 < min b.Capacity (wrapInt (b.Tokens + b.newTokens now))
    · simp only [h, h2, if_true]
      refine ⟨by omega, fun _ _ => by omega⟩
    · simp only [h, h2, if_true, if_false]
      refine ⟨hm, fun h0 hov => ?_⟩
      have hw := wrapInt_of_range (b.Tokens + b.newTokens now) (by omega) (hov trivial)
      rw [hw]
      exact le_min (le_trans h0 h1) (by omega)
  · by_cases h2 : 0 < b.Tokens
    · simp only [h, h2, if_true, if_false]
      refine ⟨by omega, fun _ _ => by omega⟩
    · simp only [h, h2, if_false]
      exact ⟨h1, fun h0 _ => h0⟩

/-- One call leaves at most the tokens at hand and the amount of the refill. -/
theorem Bucket.allow_tokens_le (b : Bucket) (now : Time)
    (h0 : -9223372036854775808 ≤ b.Tokens) :
    (b.allow now).2.Tokens ≤ b.Tokens + max 0 (b.newTokens now) := by
  rw [Bucket.allow_eq]
  by_cases h : 0 < b.newTokens now
  · have hm := min_le_right b.Capacity (wrapInt (b.Tokens + b.newTokens now))
    have hw := wrapInt_le (b.Tokens + b.newTokens now) (by omega)
    have hx := le_max_right 0 (b.newTokens now)
    by_cases h2 : 0 < min b.Capacity (wrapInt (b.Tokens + b.newTokens now))
    · simp only [h, h2, if_true]
      omega
    · simp only [h, h2, if_true, if_false]
      omega
  · have hx := le_max_left 0 (b.newTokens now)
    by_cases h2 : 0 < b.Tokens
    · simp only [h, h2, if_true, if_false]
      omega
    · simp only [h, h2, if_false]
      omega

theorem Bucket.allow_frame (b : Bucket) (now : Time) :
    (b.allow now).2.Capacity = b.Capacity ∧ (b.allow now).2.RefillRate = b.RefillRate ∧
    ((b.allow now).2.LastRefilled = b.LastRefilled ∨ (b.allow now).2.LastRefilled = now) := by
  rw [Bucket.allow_eq]
  by_cases h : 0 < b.newTokens now
  · by_cases h2 : 0 < min b.Capacity (wrapInt (b.Tokens + b.newTokens now))
    · simp [h, h2]
    · simp [h, h2]
  · by_cases h2 : 0 < b.Tokens
    · simp [h, h2]
    · simp [h, h2]

/-- Over a sequence of calls `Tokens ≤ Capacity` is kept, and `0 ≤ Tokens` too
when no sum `Tokens + newTokens` exceeds the largest `int`. -/
theorem Bucket.allowTrace_tokens_bounds (ts : List Time) (b : Bucket)
    (h1 : b.Tokens ≤ b.Capacity) :
    (∀ r ∈ b.allowTrace ts, r.2.Tokens ≤ r.2.Capacity) ∧
    (0 ≤ b.Tokens → b.neverOverflows ts → ∀ r ∈ b.allowTrace ts, 0 ≤ r.2.Tokens) := by
  induction ts generalizing b with
  | nil => simp [Bucket.allowTrace]
  | cons t ts ih =>
      have hstep := Bucket.allow_tokens_bounds b t h1
      obtain ⟨i1, i2⟩ := ih (b.allow t).2 hstep.1
      refine ⟨?_, ?_⟩
      · intro r hr
        simp only [Bucket.allowTrace, List.mem_cons] at hr
        rcases hr with hr | hr
        · rw [hr]
          exact hstep.1
        · exact i1 r hr
      · intro h0 hov r hr
        simp only [Bucket.neverOverflows] at hov
        simp only [Bucket.allowTrace, List.mem_cons] at hr
        rcases hr with hr | hr
        · rw [hr]
          exact hstep.2 h0 hov.1
        · exact i2 (hstep.2 h0 hov.1) hov.2 r hr

theorem Bucket.count_of_no_refill (ts : List Time) (b : Bucket) (h0 : 0 ≤ b.Tokens)
    (h : ∀ t ∈ ts, ⌊exactSeconds (t - b.LastRefilled) * (b.RefillRate : ℚ)⌋ ≤ 0) :
    (((b.allowFlags ts).count true : Nat) : Int) = min (ts.length : Int) b.Tokens := by
  rw [Bucket.allowFlags_of_no_refill ts b h0 h, count_true_range_lt _ _ h0]

/-- A burst of `n` calls at one instant `T` on an empty bucket: the refill of the
first call, capped by the capacity, is what the burst can take. -/
theorem Bucket.burst_count_of_empty (b : Bucket) (T : Time) (n : Nat) (hT : b.Tokens = 0)
    (hcap : 0 ≤ b.Capacity) :
    (((b.allowFlags (List.replicate n T)).count true : Nat) : Int)
      = min (n : Int) (min b.Capacity (max 0 (b.newTokens T))) := by
  have hA := le_max_left 0 (b.newTokens T)
  cases n with
  | zero =>
      have := le_min hcap hA
      simp [Bucket.allowFlags, Bucket.allowTrace, this]
  | succ k =>
      have hrep : List.replicate (k + 1) T = T :: List.replicate k T := rfl
      have hzero : ∀ r : Int, ⌊exactSeconds (T - T) * (r : ℚ)⌋ ≤ 0 := by
        intro r
        simp [exactSeconds]
      have hrange := Bucket.newTokens_range b T
      rw [hrep, Bucket.allowFlags_cons, Bucket.allow_eq, hT]
      by_cases h : 0 < b.newTokens T
      · rw [if_pos h, zero_add, wrapInt_of_range _ hrange.1 hrange.2,
          max_eq_right (le_of_lt h)]
        by_cases h2 : 0 < min b.Capacity (b.newTokens T)
        · rw [if_pos h2]
          have hrest := Bucket.count_of_no_refill (List.replicate k T)
            { Capacity := b.Capacity,
              Tokens := min b.Capacity (b.newTokens T) - 1,
              RefillRate := b.RefillRate, LastRefilled := T }
            (by simp only; omega)
            (fun t ht => by rw [(List.mem_replicate.1 ht).2]; exact hzero _)
          simp only [List.length_replicate] at hrest
          simp only [List.count_cons_self, Nat.cast_add, Nat.cast_one, hrest]
          omega
        · rw [if_neg h2]
          have hm : min b.Capacity (b.newTokens T) = 0 := by
            have := le_min hcap (le_of_lt h)
            omega
          have hrest := Bucket.count_of_no_refill (List.replicate k T)
            { Capacity := b.Capacity,
              Tokens := min b.Capacity (b.newTokens T),
              RefillRate := b.RefillRate, LastRefilled := T }
            (by simp only; omega)
            (fun t ht => by rw [(List.mem_replicate.1 ht).2]; exact hzero _)
          simp only [List.length_replicate] at hrest
          rw [List.count_cons_of_ne (by simp), hrest, hm]
          omega
      · rw [if_neg h, if_neg (lt_irrefl 0), max_eq_left (not_lt.1 h)]
        have hflags : b.allowFlags (List.replicate k T) = List.replicate k false := by
          clear hrep
          induction k with
          | zero => simp [Bucket.allowFlags, Bucket.allowTrace]
          | succ j ih =>
              have hrep2 : List.replicate (j + 1) T = T :: List.replicate j T := rfl
              rw [hrep2, Bucket.allowFlags_cons, Bucket.allow_eq, if_neg h, hT,
                if_neg (lt_irrefl 0)]
              simp only
              rw [ih]
              rfl
        rw [hflags, List.count_cons_of_ne (by simp)]
        have hc : (List.replicate k false).count true = 0 := by
          rw [List.count_replicate]
          simp
        rw [hc]
        simp only [Nat.cast_zero]
        have := min_eq_right hcap
        omega

/-! ## Lemmas on the limiter -/

theorem GoMap.lookup_filter_self {V : Type} (k : String) (es : List (String × V)) :
    GoMap.lookup k (es.filter (fun e => !decide (e.1 = k))) = none := by
  induction es with
  | nil => rfl
  | cons e es ih =>
      by_cases h : e.1 = k
      · simp [List.filter, h, ih]
      · simp [List.filter, h, GoMap.lookup, ih]

theorem GoMap.lookup_filter_ne {V : Type} (k k2 : String) (h : k2 ≠ k)
    (es : List (String × V)) :
    GoMap.lookup k2 (es.filter (fun e => !decide (e.1 = k))) = GoMap.lookup k2 es := by
  induction es with
  | nil => rfl
  | cons e es ih =>
      obtain ⟨k1, v⟩ := e
      by_cases h1 : k1 = k
      · have h3 : ¬ k = k2 := fun e => h e.symm
        simp [List.filter, h1, GoMap.lookup, ih, h3]
      · by_cases h2 : k1 = k2
        · subst h2
          simp [List.filter, h, GoMap.lookup]
        · simp [List.filter, h1, GoMap.lookup, h2, ih]

theorem GoMap.get_delete_self {V : Type} (m : GoMap V) (k : String) :
    (m.delete k).get k = none :=
  GoMap.lookup_filter_self k m.entries

theorem GoMap.get_delete_ne {V : Type} (m : GoMap V) (k k2 : String) (h : k2 ≠ k) :
    (m.delete k).get k2 = m.get k2 :=
  GoMap.lookup_filter_ne k k2 h m.entries

theorem GoMap.get_set_self {V : Type} (m : GoMap V) (k : String) (v : V) :
    (m.set k v).get k = some v := by
  simp [GoMap.set, GoMap.get, GoMap.lookup]

theorem GoMap.get_set_ne {V : Type} (m : GoMap V) (k k2 : String) (v : V) (h : k2 ≠ k) :
    (m.set k v).get k2 = m.get k2 := by
  have h1 : ¬ k = k2 := fun e => h e.symm
  simp only [GoMap.set, GoMap.get, GoMap.lookup, h1, if_false]
  exact GoMap.lookup_filter_ne k k2 h m.entries

theorem Limiter.getBucket_of_some (l : Limiter) (k : String) (tCreate tSeen : Time)
    (b : Bucket) (h : l.buckets.get k = some b) :
    l.getBucket k tCreate tSeen = (b, { l with lastSeen := l.lastSeen.set k tSeen }) := by
  simp [Limiter.getBucket, h]

theorem Limiter.getBucket_of_none (l : Limiter) (k : String) (tCreate tSeen : Time)
    (h : l.buckets.get k = none) :
    l.getBucket k tCreate tSeen
      = (l.freshBucket k tCreate,
          { l with
            buckets := l.buckets.set k (l.freshBucket k tCreate)
            lastSeen := l.lastSeen.set k tSeen }) := by
  cases ho : l.overrideClients.get k <;> simp [Limiter.getBucket, Limiter.freshBucket, h, ho]

theorem Limiter.Allow_of_some (l : Limiter) (k : String) (c : AllowClock) (b : Bucket)
    (h : l.buckets.get k = some b) :
    l.Allow k c
      = ((b.allow c.allow).1,
          { l with
            buckets := l.buckets.set k (b.allow c.allow).2
            lastSeen := l.lastSeen.set k c.seen }) := by
  simp [Limiter.Allow, Limiter.getBucket_of_some l k c.create c.seen b h]

theorem Limiter.Allow_of_none (l : Limiter) (k : String) (c : AllowClock)
    (h : l.buckets.get k = none) :
    l.Allow k c
      = (((l.freshBucket k c.create).allow c.allow).1,
          { l with
            buckets := (l.buckets.set k (l.freshBucket k c.create)).set k
              ((l.freshBucket k c.create).allow c.allow).2
            lastSeen := l.lastSeen.set k c.seen }) := by
  simp [Limiter.Allow, Limiter.getBucket_of_none l k c.create c.seen h]

theorem Limiter.runAllows_flags_of_some (cs : List AllowClock) (l : Limiter) (k : String)
    (b : Bucket) (h : l.buckets.get k = some b) :
    (l.runAllows k cs).1 = b.allowFlags (cs.map (fun c => c.allow)) := by
  induction cs generalizing l b with
  | nil => simp [Limiter.runAllows, Bucket.allowFlags, Bucket.allowTrace]
  | cons c cs ih =>
      have hA := Limiter.Allow_of_some l k c b h
      have hget : (l.Allow k c).2.buckets.get k = some (b.allow c.allow).2 := by
        rw [hA]
        exact GoMap.get_set_self _ _ _
      have hrest := ih (l.Allow k c).2 (b.allow c.allow).2 hget
      simp only [Limiter.runAllows, List.map_cons, Bucket.allowFlags_cons, hrest]
      rw [hA]

theorem Limiter.runAllows_flags_of_none (c : AllowClock) (cs : List AllowClock) (l : Limiter)
    (k : String) (h : l.buckets.get k = none) :
    (l.runAllows k (c :: cs)).1
      = (l.freshBucket k c.create).allowFlags ((c :: cs).map (fun c => c.allow)) := by
  have hA := Limiter.Allow_of_none l k c h
  have hget : (l.Allow k c).2.buckets.get k
      = some ((l.freshBucket k c.create).allow c.allow).2 := by
    rw [hA]
    exact GoMap.get_set_self _ _ _
  have hrest := Limiter.runAllows_flags_of_some cs (l.Allow k c).2 k _ hget
  simp only [Limiter.runAllows, List.map_cons, Bucket.allowFlags_cons, hrest]
  rw [hA]

/-- Calls of a client without a bucket, made before a whole token accrues on the
bucket that the first call creates: admitted until its capacity is used up. -/
theorem Limiter.runAllows_immediate (l : Limiter) (k : String) (c : AllowClock)
    (cs : List AllowClock) (h : l.buckets.get k = none)
    (hcap : 0 ≤ (l.freshBucket k c.create).Capacity)
    (him : ∀ call ∈ c :: cs,
      ⌊exactSeconds (call.allow - c.create) * ((l.freshBucket k c.create).RefillRate : ℚ)⌋ ≤ 0) :
    (l.runAllows k (c :: cs)).1
      = (List.range (cs.length + 1)).map
          (fun (i : Nat) => decide ((i : Int) < (l.freshBucket k c.create).Capacity)) := by
  have hT : (l.freshBucket k c.create).Tokens = (l.freshBucket k c.create).Capacity := by
    unfold Limiter.freshBucket
    cases l.overrideClients.get k <;> rfl
  have hL : (l.freshBucket k c.create).LastRefilled = c.create := by
    unfold Limiter.freshBucket
    cases l.overrideClients.get k <;> rfl
  rw [Limiter.runAllows_flags_of_none c cs l k h,
    Bucket.allowFlags_of_no_refill _ _ (by rw [hT]; exact hcap)]
  · rw [hT]
    simp
  · intro t ht
    rw [hL]
    obtain ⟨call, hc, rfl⟩ := List.mem_map.1 ht
    exact him call hc

/-- Calls of a client without a bucket that all read the clock at one instant. -/
theorem Limiter.runAllows_same_instant (l : Limiter) (k : String) (t : Time) (n : Nat)
    (h : l.buckets.get k = none) (hcap : 0 ≤ (l.freshBucket k t).Capacity) :
    (l.runAllows k (List.replicate (n + 1) { create := t, seen := t, allow := t })).1
      = (List.range (n + 1)).map
          (fun (i : Nat) => decide ((i : Int) < (l.freshBucket k t).Capacity)) := by
  have hrep : List.replicate (n + 1) ({ create := t, seen := t, allow := t } : AllowClock)
      = { create := t, seen := t, allow := t }
        :: List.replicate n { create := t, seen := t, allow := t } := rfl
  have hflags := Limiter.runAllows_immediate l k { create := t, seen := t, allow := t }
    (List.replicate n { create := t, seen := t, allow := t }) h hcap
    (by
      intro call hcall
      have hcall2 : call = { create := t, seen := t, allow := t } := by
        rcases List.mem_cons.1 hcall with h1 | h1
        · exact h1
        · exact (List.mem_replicate.1 h1).2
      rw [hcall2]
      simp [exactSeconds])
  rw [hrep, hflags, List.length_replicate]

theorem GoMap.count_set {V : Type} (m : GoMap V) (k : String) (v : V) :
    (m.set k v).entries.countP (fun e => decide (e.1 = k)) = 1 := by
  have h0 : ∀ es : List (String × V),
      (es.filter (fun e => !decide (e.1 = k))).countP (fun e => decide (e.1 = k)) = 0 := by
    intro es
    rw [List.countP_eq_zero]
    intro e he
    have := (List.mem_filter.1 he).2
    simpa using this
  simp [GoMap.set, GoMap.delete, List.countP_cons, h0]

theorem GoMap.mem_keys_of_lookup {V : Type} (k : String) (es : List (String × V)) (v : V)
    (h : GoMap.lookup k es = some v) : k ∈ es.map Prod.fst := by
  induction es with
  | nil => simp [GoMap.lookup] at h
  | cons e es ih =>
      obtain ⟨k1, v1⟩ := e
      by_cases h1 : k1 = k
      · simp [h1]
      · simp only [GoMap.lookup, h1, if_false] at h
        exact List.mem_cons_of_mem _ (ih h)

theorem GoMap.mem_keys_of_get {V : Type} (m : GoMap V) (k : String) (v : V)
    (h : m.get k = some v) : k ∈ m.keys :=
  GoMap.mem_keys_of_lookup k m.entries v h

theorem Limiter.cleanupVisit_eq (now : Time) (ttl : Duration) (l : Limiter) (cid : String) :
    Limiter.cleanupVisit now ttl l cid
      = if l.evictable now ttl cid = true then
          { l with buckets := l.buckets.delete cid, lastSeen := l.lastSeen.delete cid }
        else l := by
  unfold Limiter.cleanupVisit Limiter.evictable
  cases hb : l.buckets.get cid with
  | none => simp
  | some b =>
      cases hs : l.lastSeen.get cid with
      | none => simp
      | some seen =>
          by_cases hc : Time.Sub now seen > ttl ∧ b.Tokens = b.Capacity
          · simp [hc]
          · simp only [hc, if_false, decide_False]
            simp

theorem Limiter.cleanupVisit_config (now : Time) (ttl : Duration) (l : Limiter)
    (cid : String) :
    (Limiter.cleanupVisit now ttl l cid).defaultCapacity = l.defaultCapacity ∧
    (Limiter.cleanupVisit now ttl l cid).defaultRate = l.defaultRate ∧
    (Limiter.cleanupVisit now ttl l cid).overrideClients = l.overrideClients := by
  rw [Limiter.cleanupVisit_eq]
  by_cases h : l.evictable now ttl cid = true <;> simp [h]

theorem Limiter.cleanupVisit_other (now : Time) (ttl : Duration) (l : Limiter)
    (cid k : String) (h : k ≠ cid) :
    (Limiter.cleanupVisit now ttl l cid).buckets.get k = l.buckets.get k ∧
    (Limiter.cleanupVisit now ttl l cid).lastSeen.get k = l.lastSeen.get k := by
  rw [Limiter.cleanupVisit_eq]
  by_cases he : l.evictable now ttl cid = true
  · simp only [he, if_true]
    exact ⟨GoMap.get_delete_ne _ _ _ h, GoMap.get_delete_ne _ _ _ h⟩
  · simp [he]

theorem Limiter.evictable_congr (now : Time) (ttl : Duration) (l l2 : Limiter) (k : String)
    (hb : l2.buckets.get k = l.buckets.get k) (hs : l2.lastSeen.get k = l.lastSeen.get k) :
    l2.evictable now ttl k = l.evictable now ttl k := by
  unfold Limiter.evictable
  rw [hb, hs]

theorem Limiter.foldl_cleanupVisit_config (now : Time) (ttl : Duration) (ks : List String)
    (l : Limiter) :
    (ks.foldl (Limiter.cleanupVisit now ttl) l).defaultCapacity = l.defaultCapacity ∧
    (ks.foldl (Limiter.cleanupVisit now ttl) l).defaultRate = l.defaultRate ∧
    (ks.foldl (Limiter.cleanupVisit now ttl) l).overrideClients = l.overrideClients := by
  induction ks generalizing l with
  | nil => simp
  | cons cid ks ih =>
      obtain ⟨h1, h2, h3⟩ := ih (Limiter.cleanupVisit now ttl l cid)
      obtain ⟨g1, g2, g3⟩ := Limiter.cleanupVisit_config now ttl l cid
      simp only [List.foldl_cons]
      exact ⟨h1.trans g1, h2.trans g2, h3.trans g3⟩

/-- A key whose entries do not meet the eviction condition keeps them over the
whole loop. -/
theorem Limiter.foldl_cleanupVisit_keep (now : Time) (ttl : Duration) (ks : List String)
    (l : Limiter) (k : String) (h : l.evictable now ttl k = false) :
    (ks.foldl (Limiter.cleanupVisit now ttl) l).buckets.get k = l.buckets.get k ∧
    (ks.foldl (Limiter.cleanupVisit now ttl) l).lastSeen.get k = l.lastSeen.get k := by
  induction ks generalizing l with
  | nil => simp
  | cons cid ks ih =>
      simp only [List.foldl_cons]
      by_cases hk : k = cid
      · subst hk
        have hv : Limiter.cleanupVisit now ttl l k = l := by
          rw [Limiter.cleanupVisit_eq]
          simp [h]
        rw [hv]
        exact ih l h
      · obtain ⟨hb, hs⟩ := Limiter.cleanupVisit_other now ttl l cid k hk
        have h2 : (Limiter.cleanupVisit now ttl l cid).evictable now ttl k = false := by
          rw [Limiter.evictable_congr now ttl l _ k hb hs]
          exact h
        obtain ⟨i1, i2⟩ := ih (Limiter.cleanupVisit now ttl l cid) h2
        exact ⟨i1.trans hb, i2.trans hs⟩

/-- A visited key whose entries meet the eviction condition loses both. -/
theorem Limiter.foldl_cleanupVisit_evict (now : Time) (ttl : Duration) (ks : List String)
    (l : Limiter) (k : String) (h : l.evictable now ttl k = true) (hmem : k ∈ ks) :
    (ks.foldl (Limiter.cleanupVisit now ttl) l).buckets.get k = none ∧
    (ks.foldl (Limiter.cleanupVisit now ttl) l).lastSeen.get k = none := by
  induction ks generalizing l with
  | nil => simp at hmem
  | cons cid ks ih =>
      simp only [List.foldl_cons]
      by_cases hk : k = cid
      · subst hk
        have hv : Limiter.cleanupVisit now ttl l k
            = { l with buckets := l.buckets.delete k, lastSeen := l.lastSeen.delete k } := by
          rw [Limiter.cleanupVisit_eq]
          simp [h]
        have hb : (Limiter.cleanupVisit now ttl l k).buckets.get k = none := by
          rw [hv]
          exact GoMap.get_delete_self _ _
        have hs : (Limiter.cleanupVisit now ttl l k).lastSeen.get k = none := by
          rw [hv]
          exact GoMap.get_delete_self _ _
        have h2 : (Limiter.cleanupVisit now ttl l k).evictable now ttl k = false := by
          unfold Limiter.evictable
          rw [hb]
        obtain ⟨i1, i2⟩ := Limiter.foldl_cleanupVisit_keep now ttl ks _ k h2
        exact ⟨i1.trans hb, i2.trans hs⟩
      · obtain ⟨hb, hs⟩ := Limiter.cleanupVisit_other now ttl l cid k hk
        have h2 : (Limiter.cleanupVisit now ttl l cid).evictable now ttl k = true := by
          rw [Limiter.evictable_congr now ttl l _ k hb hs]
          exact h
        have hmem2 : k ∈ ks := by
          rcases List.mem_cons.1 hmem with h3 | h3
          · exact absurd h3 hk
          · exact h3
        exact ih (Limiter.cleanupVisit now ttl l cid) h2 hmem2

theorem Limiter.evictable_iff (now : Time) (ttl : Duration) (l : Limiter) (k : String)
    (b : Bucket) (seen : Time) (hb : l.buckets.get k = some b)
    (hs : l.lastSeen.get k = some seen) :
    l.evictable now ttl k = true ↔ (Time.Sub now seen > ttl ∧ b.Tokens = b.Capacity) := by
  unfold Limiter.evictable
  rw [hb, hs]
  simp

theorem Limiter.freshBucket_congr (l l2 : Limiter) (k : String) (t : Time)
    (h1 : l2.defaultCapacity = l.defaultCapacity) (h2 : l2.defaultRate = l.defaultRate)
    (h3 : l2.overrideClients = l.overrideClients) :
    l2.freshBucket k t = l.freshBucket k t := by
  unfold Limiter.freshBucket
  rw [h1, h2, h3]

/-- What `Allow` does for a client without a bucket, in terms of the override
map and the defaults of the limiter. -/
theorem Limiter.Allow_creates (l : Limiter) (k : String) (c : AllowClock)
    (h : l.buckets.get k = none) :
    (∀ cfg : ClientConfig, l.overrideClients.get k = some cfg →
      (l.getBucket k c.create c.seen).1
        = { Capacity := cfg.Capacity, Tokens := cfg.Capacity, RefillRate := cfg.Rate,
            LastRefilled := c.create } ∧
      (l.Allow k c).1
        = (({ Capacity := cfg.Capacity, Tokens := cfg.Capacity, RefillRate := cfg.Rate,
              LastRefilled := c.create } : Bucket).allow c.allow).1 ∧
      (l.Allow k c).2.buckets.get k
        = some (({ Capacity := cfg.Capacity, Tokens := cfg.Capacity, RefillRate := cfg.Rate,
                   LastRefilled := c.create } : Bucket).allow c.allow).2) ∧
    (l.overrideClients.get k = none →
      (l.getBucket k c.create c.seen).1
        = { Capacity := l.defaultCapacity, Tokens := l.defaultCapacity,
            RefillRate := l.defaultRate, LastRefilled := c.create } ∧
      (l.Allow k c).1
        = (({ Capacity := l.defaultCapacity, Tokens := l.defaultCapacity,
              RefillRate := l.defaultRate, LastRefilled := c.create } : Bucket).allow
            c.allow).1 ∧
      (l.Allow k c).2.buckets.get k
        = some (({ Capacity := l.defaultCapacity, Tokens := l.defaultCapacity,
                   RefillRate := l.defaultRate, LastRefilled := c.create } : Bucket).allow
                 c.allow).2) := by
  have hg := Limiter.getBucket_of_none l k c.create c.seen h
  have hA := Limiter.Allow_of_none l k c h
  have hget : (l.Allow k c).2.buckets.get k
      = some ((l.freshBucket k c.create).allow c.allow).2 := by
    rw [hA]
    exact GoMap.get_set_self _ _ _
  have h1 : (l.Allow k c).1 = ((l.freshBucket k c.create).allow c.allow).1 := by
    rw [hA]
  refine ⟨?_, ?_⟩
  · intro cfg ho
    have hf : l.freshBucket k c.create
        = { Capacity := cfg.Capacity, Tokens := cfg.Capacity, RefillRate := cfg.Rate,
            LastRefilled := c.create } := by
      simp [Limiter.freshBucket, ho]
    rw [hg, h1, hget, hf]
    exact ⟨rfl, rfl, rfl⟩
  · intro ho
    have hf : l.freshBucket k c.create
        = { Capacity := l.defaultCapacity, Tokens := l.defaultCapacity,
            RefillRate := l.defaultRate, LastRefilled := c.create } := by
      simp [Limiter.freshBucket, ho]
    rw [hg, h1, hget, hf]
    exact ⟨rfl, rfl, rfl⟩

theorem exampleIdleLimiter_reached :
    (NewLimiter 0 1 GoMap.empty).Allow "id1" { create := 0, seen := 0, allow := 0 }
      = (false, exampleIdleLimiter) := by
  decide

/-- Calls of a client that has neither bucket nor override, made before a whole
token accrues: the `i`-th is admitted exactly when `i` is below the default
capacity. -/
theorem Limiter.runAllows_no_override (l : Limiter) (k : String) (calls : List AllowClock)
    (hb : l.buckets.get k = none) (ho : l.overrideClients.get k = none)
    (hc : 0 ≤ l.defaultCapacity)
    (him : ∀ first ∈ calls.head?, ∀ call ∈ calls,
      ⌊exactSeconds (call.allow - first.create) * (l.defaultRate : ℚ)⌋ = 0) :
    (l.runAllows k calls).1
        = (List.range calls.length).map
            (fun (i : Nat) => decide ((i : Int) < min (calls.length : Int) l.defaultCapacity)) ∧
    (((l.runAllows k calls).1.count true : Nat) : Int)
        = min (calls.length : Int) l.defaultCapacity := by
  have hfresh : ∀ t : Time, l.freshBucket k t
      = { Capacity := l.defaultCapacity, Tokens := l.defaultCapacity,
          RefillRate := l.defaultRate, LastRefilled := t } := by
    intro t
    simp [Limiter.freshBucket, ho]
  cases calls with
  | nil => simp [Limiter.runAllows, hc]
  | cons first rest =>
      have hflags := Limiter.runAllows_immediate l k first rest hb
        (by rw [hfresh]; exact hc)
        (by
          intro call hcall
          rw [hfresh]
          exact le_of_eq (him first (by simp) call hcall))
      rw [hfresh] at hflags
      have hmap : (List.range (first :: rest).length).map
            (fun (i : Nat) =>
              decide ((i : Int) < min (((first :: rest).length : Nat) : Int) l.defaultCapacity))
          = (List.range (rest.length + 1)).map
              (fun (i : Nat) => decide ((i : Int) < l.defaultCapacity)) := by
        apply List.map_congr_left
        intro i hi
        have hi2 : i < rest.length + 1 := by simpa using hi
        congr 1
        apply propext
        simp only [List.length_cons, Nat.cast_add, Nat.cast_one]
        constructor <;> intro hh <;> omega
      rw [hmap, hflags]
      refine ⟨rfl, ?_⟩
      rw [count_true_range_lt _ _ hc]
      simp

/-! ## Theorems on the balancing strategies -/

/-- C1. A round-robin strategy with a non-empty list `L` of length `n` and a
cursor `c` in range answers its `i`-th following `Next` (counted from 0) with
`L[(c + i) mod n]` and no error, keeps the list and moves the cursor to
`(c + i + 1) mod n`; six calls on `NewRoundRobin [A, B, C]` give
`A, B, C, A, B, C`. -/
theorem roundRobin_next_cycles :
    (∀ (r : RoundRobin), 0 ≤ r.index → r.index < (r.backends.length : Int) →
      ∀ i : Nat, ∃ (s : RoundRobin) (x : String),
        RoundRobin.afterNexts i r = some s ∧
        s.backends = r.backends ∧
        s.index = (r.index + (i : Int)) % (r.backends.length : Int) ∧
        r.backends[((r.index + (i : Int)) % (r.backends.length : Int)).toNat]? = some x ∧
        s.Next = some ((x, none),
          { backends := r.backends,
            index := (r.index + (i : Int) + 1) % (r.backends.length : Int) })) ∧
    (∀ A B C : String,
      RoundRobin.nextResults 6 (NewRoundRobin [A, B, C])
        = some [(A, none), (B, none), (C, none), (A, none), (B, none), (C, none)]) := by
  refine ⟨fun r h0 h1 i => RoundRobin.nth_Next_of_valid r h0 h1 i, ?_⟩
  intro A B C
  simp [RoundRobin.nextResults, RoundRobin.Next, NewRoundRobin, Int.tmod]

/-- Witness for C1: the list `[a, b]` with the cursor at 1, three calls on. -/
theorem roundRobin_next_cycles_witness :
    ∃ (s : RoundRobin) (x : String),
      RoundRobin.afterNexts 3 { backends := ["a", "b"], index := 1 } = some s ∧
      s.backends = ["a", "b"] ∧
      s.index = (1 + ((3 : Nat) : Int)) % ((["a", "b"] : List String).length : Int) ∧
      (["a", "b"] : List String)[((1 + ((3 : Nat) : Int))
          % ((["a", "b"] : List String).length : Int)).toNat]? = some x ∧
      s.Next = some ((x, none),
        { backends := ["a", "b"],
          index := (1 + ((3 : Nat) : Int) + 1) % ((["a", "b"] : List String).length : Int) }) :=
  roundRobin_next_cycles.1 { backends := ["a", "b"], index := 1 } (by decide) (by decide) 3

/-- C2. On an empty backend list `Next` of the round-robin strategy and `Next`
of the random strategy both return the empty string with
`ErrNoHealthyBackends`, and the strategy (list and cursor) is what it was. -/
theorem next_on_empty_list :
    (∀ r : RoundRobin, r.backends = [] →
      r.Next = some (("", some BalancerError.ErrNoHealthyBackends), r)) ∧
    (∀ (r : Random) (draw : Nat), r.backends = [] →
      r.Next draw = some (("", some BalancerError.ErrNoHealthyBackends), r)) := by
  refine ⟨?_, ?_⟩
  · intro r h
    simp [RoundRobin.Next, h]
  · intro r draw h
    simp [Random.Next, h]

/-- Witness for C2: an emptied round-robin strategy whose cursor is 0. -/
theorem next_on_empty_list_witness :
    ({ backends := [], index := 0 } : RoundRobin).Next
      = some (("", some BalancerError.ErrNoHealthyBackends), { backends := [], index := 0 }) ∧
    ({ backends := [] } : Random).Next 7
      = some (("", some BalancerError.ErrNoHealthyBackends), { backends := [] }) :=
  ⟨next_on_empty_list.1 { backends := [], index := 0 } rfl,
   next_on_empty_list.2 { backends := [] } 7 rfl⟩

/-- C3. Whatever list and cursor a round-robin strategy holds, after
`Update L2` with `L2` non-empty and different from the held list the `i`-th
following `Next` (counted from 0) returns `L2[i mod len L2]`, the first one
`L2[0]`; from `[A, B, C]` updated to `[A, C]` the next three are `A, C, A`. -/
theorem roundRobin_update_restarts :
    (∀ (r : RoundRobin) (L2 : List String), L2 ≠ [] → L2 ≠ r.backends →
      ∀ i : Nat, ∃ (s : RoundRobin) (x : String),
        RoundRobin.afterNexts i (r.Update L2) = some s ∧
        L2[i % L2.length]? = some x ∧
        s.Next = some ((x, none),
          { backends := L2, index := (((i + 1) % L2.length : Nat) : Int) })) ∧
    (∀ (A B C : String) (c : Int),
      RoundRobin.nextResults 3
          (({ backends := [A, B, C], index := c } : RoundRobin).Update [A, C])
        = some [(A, none), (C, none), (A, none)]) := by
  refine ⟨?_, ?_⟩
  · intro r L2 hne hdiff i
    have hlen : 0 < L2.length := List.length_pos.2 hne
    rw [RoundRobin.Update_of_ne r L2 hne hdiff]
    obtain ⟨s, x, hs, _, _, hx, hn⟩ := RoundRobin.nth_Next_of_valid
      { backends := L2, index := 0 } (le_refl _) (by simpa using hlen) i
    refine ⟨s, x, hs, ?_, ?_⟩
    · have e : ((0 + (i : Int)) % (L2.length : Int)).toNat = i % L2.length := by
        rw [zero_add, ← Int.natCast_mod, Int.toNat_natCast]
      simpa [e] using hx
    · rw [hn]
      have e : (0 + (i : Int) + 1) % (L2.length : Int) = (((i + 1) % L2.length : Nat) : Int) := by
        rw [zero_add, Int.natCast_mod]
        push_cast
        rfl
      simp only [e]
  · intro A B C c
    have hs : slicesEqual [A, B, C] [A, C] = false := by simp [slicesEqual]
    simp [RoundRobin.nextResults, RoundRobin.Next, RoundRobin.Update, hs, Int.tmod]

/-- Witness for C3: `[a, b, c]` with the cursor at 2, updated to `[a, c]`. -/
theorem roundRobin_update_restarts_witness :
    ∃ (s : RoundRobin) (x : String),
      RoundRobin.afterNexts 1
        (({ backends := ["a", "b", "c"], index := 2 } : RoundRobin).Update ["a", "c"]) = some s ∧
      (["a", "c"] : List String)[1 % (["a", "c"] : List String).length]? = some x ∧
      s.Next = some ((x, none),
        { backends := ["a", "c"],
          index := (((1 + 1) % (["a", "c"] : List String).length : Nat) : Int) }) :=
  roundRobin_update_restarts.1 { backends := ["a", "b", "c"], index := 2 } ["a", "c"]
    (by decide) (by decide) 1

/-! ## Theorems on the token bucket and the limiter -/

/-- When the sum `Tokens + newTokens` of a refill fits an `int`, `allow` is the
step of the specification for the amount `newTokens`. -/
theorem Bucket.allow_eq_stepWith (b : Bucket) (now : Time)
    (hov : 0 < b.newTokens now → b.Tokens + b.newTokens now < 9223372036854775808)
    (h0 : -9223372036854775808 ≤ b.Tokens) :
    b.allow now = b.stepWith (b.newTokens now) now := by
  rw [Bucket.allow_eq]
  unfold Bucket.stepWith
  by_cases h : 0 < b.newTokens now
  · have hw := wrapInt_of_range (b.Tokens + b.newTokens now) (by omega) (hov h)
    rw [hw]
    by_cases h2 : 0 < min b.Capacity (b.Tokens + b.newTokens now)
    · simp [h, h2]
    · simp [h, h2]
  · by_cases h2 : 0 < b.Tokens
    · simp [h, h2]
    · simp [h, h2]

theorem Bucket.allowSpec_eq_stepWith (b : Bucket) (now : Time) :
    b.allowSpec now
      = b.stepWith ⌊exactSeconds (now - b.LastRefilled) * (b.RefillRate : ℚ)⌋ now := rfl

theorem Bucket.stepWith_of_nonpos (b : Bucket) (now : Time) (a1 a2 : Int) (h1 : a1 ≤ 0)
    (h2 : a2 ≤ 0) : b.stepWith a1 now = b.stepWith a2 now := by
  unfold Bucket.stepWith
  simp [not_lt.2 h1, not_lt.2 h2]

/-- C4, as stated, fails. A bucket of rate 100 without tokens, called 570 ms
after its last refill: the float64 product `0.57 · 100` is below 57, so `allow`
adds 56 tokens and leaves 55, while the step of the specification adds
`floor(0.57 · 100) = 57` and leaves 56. -/
theorem bucket_allow_counterexample :
    ({ Capacity := 100, Tokens := 0, RefillRate := 100, LastRefilled := 0 } : Bucket).allow
        570000000
      = (true, { Capacity := 100, Tokens := 55, RefillRate := 100, LastRefilled := 570000000 }) ∧
    ({ Capacity := 100, Tokens := 0, RefillRate := 100, LastRefilled := 0 } : Bucket).allowSpec
        570000000
      = (true, { Capacity := 100, Tokens := 56, RefillRate := 100, LastRefilled := 570000000 }) ∧
    ¬ (({ Capacity := 100, Tokens := 0, RefillRate := 100, LastRefilled := 0 } : Bucket).allow
          570000000
        = ({ Capacity := 100, Tokens := 0, RefillRate := 100, LastRefilled := 0 } : Bucket).allowSpec
          570000000) := by
  have h1 : ({ Capacity := 100, Tokens := 0, RefillRate := 100, LastRefilled := 0 } : Bucket).allow
        570000000
      = (true, { Capacity := 100, Tokens := 55, RefillRate := 100,
                 LastRefilled := 570000000 }) := by
    decide
  have h2 : ({ Capacity := 100, Tokens := 0, RefillRate := 100, LastRefilled := 0 }
        : Bucket).allowSpec 570000000
      = (true, { Capacity := 100, Tokens := 56, RefillRate := 100,
                 LastRefilled := 570000000 }) := by
    have hf : ⌊exactSeconds 570000000 * (100 : ℚ)⌋ = 57 := by
      rw [Int.floor_eq_iff]
      constructor <;> norm_num [exactSeconds]
    simp [Bucket.allowSpec, hf]
  refine ⟨h1, h2, ?_⟩
  rw [h1, h2]
  decide

/-- C4, amended. `Bucket.allow` at the instant `now` computes
`added = int(elapsed.Seconds() · float64(RefillRate))` in float64 arithmetic and,
when the sum `Tokens + added` fits an `int`, is the step of the specification
for that amount: a positive `added` sets `Tokens` to `min(Capacity, Tokens + added)`
and `LastRefilled` to `now`, and otherwise both stay; then a positive `Tokens` is
decremented and the answer is true, and otherwise the answer is false with
`Tokens` as it is. `Capacity` and `RefillRate` are never modified. With `x` the
exact product of the seconds since `LastRefilled` and `RefillRate`: `added ≤ 0`
when `x < 1`; for `0 ≤ x < 10^6`, `added` is `floor(x)`, or possibly
`floor(x) − 1` when `x` is a whole number; `added = floor(x)` when the elapsed
time is a whole number of seconds (at most 9000000000, with `RefillRate` and `x`
below `2^53`). So when `x < 10^6` is below 1 or not a whole number, and when the
elapsed time is such a whole number of seconds, `allow` is the step of the
specification with `added = floor(x)`. -/
theorem bucket_allow_meets_spec_up_to_rounding (b : Bucket) (now : Time) :
    (b.allow now).2.Capacity = b.Capacity ∧
    (b.allow now).2.RefillRate = b.RefillRate ∧
    (-9223372036854775808 ≤ b.Tokens →
      (0 < b.newTokens now → b.Tokens + b.newTokens now < 9223372036854775808) →
      b.allow now = b.stepWith (b.newTokens now) now) ∧
    ((now - b.LastRefilled) * b.RefillRate < 1000000000 → b.newTokens now ≤ 0) ∧
    (0 ≤ (now - b.LastRefilled) * b.RefillRate →
      (now - b.LastRefilled) * b.RefillRate < 1000000000000000 →
      b.newTokens now = ⌊exactSeconds (now - b.LastRefilled) * (b.RefillRate : ℚ)⌋ ∨
      ((now - b.LastRefilled) * b.RefillRate % 1000000000 = 0 ∧
        b.newTokens now = ⌊exactSeconds (now - b.LastRefilled) * (b.RefillRate : ℚ)⌋ - 1)) ∧
    (∀ sec : Int, now - b.LastRefilled = sec * 1000000000 → sec.natAbs ≤ 9000000000 →
      b.RefillRate.natAbs < 2 ^ 53 → (sec * b.RefillRate).natAbs < 2 ^ 53 →
      b.newTokens now = ⌊exactSeconds (now - b.LastRefilled) * (b.RefillRate : ℚ)⌋) ∧
    ((((now - b.LastRefilled) * b.RefillRate < 1000000000000000 ∧
          ((now - b.LastRefilled) * b.RefillRate < 1000000000 ∨
            (now - b.LastRefilled) * b.RefillRate % 1000000000 ≠ 0)) ∨
        (∃ sec : Int, now - b.LastRefilled = sec * 1000000000 ∧ sec.natAbs ≤ 9000000000 ∧
          b.RefillRate.natAbs < 2 ^ 53 ∧ (sec * b.RefillRate).natAbs < 2 ^ 53)) →
      -9223372036854775808 ≤ b.Tokens →
      (0 < ⌊exactSeconds (now - b.LastRefilled) * (b.RefillRate : ℚ)⌋ →
        b.Tokens + ⌊exactSeconds (now - b.LastRefilled) * (b.RefillRate : ℚ)⌋
          < 9223372036854775808) →
      b.allow now = b.allowSpec now) := by
  have key : ∀ X : Int, X < 1000000000 → X / 1000000000 ≤ 0 := fun X hX => by omega
  have hsmall : (now - b.LastRefilled) * b.RefillRate < 1000000000 →
      ⌊exactSeconds (now - b.LastRefilled) * (b.RefillRate : ℚ)⌋ ≤ 0 := by
    intro h
    rw [floor_exactSeconds_mul]
    exact key _ h
  have hagree : b.newTokens now = ⌊exactSeconds (now - b.LastRefilled) * (b.RefillRate : ℚ)⌋ →
      -9223372036854775808 ≤ b.Tokens →
      (0 < ⌊exactSeconds (now - b.LastRefilled) * (b.RefillRate : ℚ)⌋ →
        b.Tokens + ⌊exactSeconds (now - b.LastRefilled) * (b.RefillRate : ℚ)⌋
          < 9223372036854775808) →
      b.allow now = b.allowSpec now := by
    intro he h0 hov
    rw [Bucket.allowSpec_eq_stepWith, ← he]
    exact Bucket.allow_eq_stepWith b now (by rw [he]; exact hov) h0
  refine ⟨(Bucket.allow_frame b now).1, (Bucket.allow_frame b now).2.1, ?_, ?_, ?_, ?_, ?_⟩
  · intro h0 hov
    exact Bucket.allow_eq_stepWith b now hov h0
  · intro h
    exact Bucket.newTokens_nonpos b now (hsmall h)
  · intro h0 h1
    obtain ⟨n1, n2, _, n4⟩ := Bucket.newTokens_near_floor b now h0 h1
    by_cases hm : (now - b.LastRefilled) * b.RefillRate % 1000000000 = 0
    · by_cases he : b.newTokens now
          = ⌊exactSeconds (now - b.LastRefilled) * (b.RefillRate : ℚ)⌋
      · exact Or.inl he
      · exact Or.inr ⟨hm, by omega⟩
    · exact Or.inl (n4 hm)
  · intro sec hsec s1 s2 s3
    obtain ⟨w1, w2⟩ := Bucket.newTokens_whole_seconds b now sec hsec s1 s2 s3
    rw [w1, w2]
  · intro hcase h0 hov
    rcases hcase with ⟨h1, hc⟩ | ⟨sec, hsec, s1, s2, s3⟩
    · rcases lt_or_le ((now - b.LastRefilled) * b.RefillRate) 1000000000 with hlt | hge
      · have hn := Bucket.newTokens_nonpos b now (hsmall hlt)
        rw [Bucket.allowSpec_eq_stepWith,
          Bucket.allow_eq_stepWith b now (fun hpos => absurd hpos (not_lt.2 hn)) h0]
        exact Bucket.stepWith_of_nonpos b now _ _ hn (hsmall hlt)
      · have hm : (now - b.LastRefilled) * b.RefillRate % 1000000000 ≠ 0 := by
          rcases hc with hc | hc
          · exact absurd hc (not_lt.2 hge)
          · exact hc
        exact hagree ((Bucket.newTokens_near_floor b now (by linarith) h1).2.2.2 hm) h0 hov
    · obtain ⟨w1, w2⟩ := Bucket.newTokens_whole_seconds b now sec hsec s1 s2 s3
      exact hagree (by rw [w1, w2]) h0 hov

/-- Witness for C4 amended: a bucket of rate 1 called 1.5 s after its last
refill. -/
theorem bucket_allow_meets_spec_up_to_rounding_witness :
    ({ Capacity := 10, Tokens := 0, RefillRate := 1, LastRefilled := 0 } : Bucket).allow
        1500000000
      = ({ Capacity := 10, Tokens := 0, RefillRate := 1, LastRefilled := 0 } : Bucket).allowSpec
        1500000000 :=
  (bucket_allow_meets_spec_up_to_rounding
    { Capacity := 10, Tokens := 0, RefillRate := 1, LastRefilled := 0 } 1500000000).2.2.2.2.2.2
    (Or.inl ⟨by decide, Or.inr (by decide)⟩) (by decide)
    (by
      intro _
      rw [floor_exactSeconds_mul]
      decide)

/-- C5. On `NewLimiter c r overrides` with `c ≥ 0`, for a client without an
override, `n` calls of `Allow` made while `floor(elapsed · r) = 0` (elapsed since
the creation of the bucket by the first call) are answered true for exactly the
first `min n c` calls and false for the others; the same holds in any limiter
state with defaults `(c, r)` in which the client has neither override nor
bucket; with `c = 6`, `r = 1` and ten calls at one instant, exactly the first
six are admitted. -/
theorem limiter_immediate_burst :
    (∀ (c r : Int) (overrides : GoMap ClientConfig) (k : String) (calls : List AllowClock),
      0 ≤ c → overrides.get k = none →
      (∀ first ∈ calls.head?, ∀ call ∈ calls,
        ⌊exactSeconds (call.allow - first.create) * (r : ℚ)⌋ = 0) →
      ((NewLimiter c r overrides).runAllows k calls).1
          = (List.range calls.length).map
              (fun (i : Nat) => decide ((i : Int) < min (calls.length : Int) c)) ∧
      ((((NewLimiter c r overrides).runAllows k calls).1.count true : Nat) : Int)
          = min (calls.length : Int) c) ∧
    (∀ (l : Limiter) (k : String) (calls : List AllowClock),
      0 ≤ l.defaultCapacity → l.overrideClients.get k = none → l.buckets.get k = none →
      (∀ first ∈ calls.head?, ∀ call ∈ calls,
        ⌊exactSeconds (call.allow - first.create) * (l.defaultRate : ℚ)⌋ = 0) →
      (l.runAllows k calls).1
          = (List.range calls.length).map
              (fun (i : Nat) => decide ((i : Int) < min (calls.length : Int) l.defaultCapacity)) ∧
      ((((l.runAllows k calls).1.count true : Nat) : Int)
          = min (calls.length : Int) l.defaultCapacity)) ∧
    (∀ (k : String) (t : Time),
      ((NewLimiter 6 1 GoMap.empty).runAllows k
          (List.replicate 10 { create := t, seen := t, allow := t })).1
        = [true, true, true, true, true, true, false, false, false, false]) := by
  refine ⟨?_, ?_, ?_⟩
  · intro c r overrides k calls hc ho him
    exact Limiter.runAllows_no_override (NewLimiter c r overrides) k calls rfl ho hc him
  · intro l k calls hc ho hb him
    exact Limiter.runAllows_no_override l k calls hb ho hc him
  · intro k t
    have hf : (NewLimiter 6 1 GoMap.empty).freshBucket k t
        = { Capacity := 6, Tokens := 6, RefillRate := 1, LastRefilled := t } := by
      simp [Limiter.freshBucket, NewLimiter, GoMap.empty, GoMap.get, GoMap.lookup]
    rw [Limiter.runAllows_same_instant (NewLimiter 6 1 GoMap.empty) k t 9 rfl
      (by rw [hf]; norm_num), hf]
    simp [List.range_succ]

/-- Witness for C5: capacity 2 and rate 1, three calls within the first second
after the creation of the bucket at instant 0. -/
theorem limiter_immediate_burst_witness :
    ((NewLimiter 2 1 GoMap.empty).runAllows "id1"
        [{ create := 0, seen := 1, allow := 2 }, { create := 3, seen := 4, allow := 5 },
         { create := 6, seen := 7, allow := 8 }]).1
      = (List.range 3).map (fun (i : Nat) => decide ((i : Int) < min ((3 : Nat) : Int) 2)) ∧
    ((((NewLimiter 2 1 GoMap.empty).runAllows "id1"
        [{ create := 0, seen := 1, allow := 2 }, { create := 3, seen := 4, allow := 5 },
         { create := 6, seen := 7, allow := 8 }]).1.count true : Nat) : Int)
      = min ((3 : Nat) : Int) 2 :=
  limiter_immediate_burst.1 2 1 GoMap.empty "id1"
    [{ create := 0, seen := 1, allow := 2 }, { create := 3, seen := 4, allow := 5 },
     { create := 6, seen := 7, allow := 8 }]
    (by decide) rfl
    (by
      intro first hfirst call hcall
      have hf : first = { create := 0, seen := 1, allow := 2 } := by
        simpa using hfirst.symm
      subst hf
      simp only [List.mem_cons, List.mem_singleton, List.not_mem_nil, or_false] at hcall
      rcases hcall with h | h | h <;> subst h <;>
        simp only [exactSeconds] <;> rw [Int.floor_eq_zero_iff] <;> constructor <;> norm_num)

/-- C6. For a client `k` without a bucket, `getBucket` builds one bucket for `k`
from the override of `k` if the current override map has one and from the
current defaults otherwise, with `Tokens = Capacity`; the bucket map then holds
it under `k`, once, and is unchanged at every other key; `Allow` answers with
the result of `allow` on that bucket and stores the bucket as `allow` leaves it.
With overrides superuser (10, 1) and ddoser (1, 1) and defaults (2, 1), calls at
one instant give superuser five times true, ddoser true then false and any
other client true, true, false. -/
theorem limiter_creates_bucket_from_config :
    (∀ (l : Limiter) (k : String) (c : AllowClock), l.buckets.get k = none →
      (∀ cfg : ClientConfig, l.overrideClients.get k = some cfg →
        (l.getBucket k c.create c.seen).1
          = { Capacity := cfg.Capacity, Tokens := cfg.Capacity, RefillRate := cfg.Rate,
              LastRefilled := c.create }) ∧
      (l.overrideClients.get k = none →
        (l.getBucket k c.create c.seen).1
          = { Capacity := l.defaultCapacity, Tokens := l.defaultCapacity,
              RefillRate := l.defaultRate, LastRefilled := c.create }) ∧
      (l.getBucket k c.create c.seen).2.buckets.get k
          = some (l.getBucket k c.create c.seen).1 ∧
      (l.getBucket k c.create c.seen).2.buckets.entries.countP
          (fun e => decide (e.1 = k)) = 1 ∧
      (∀ k2 : String, k2 ≠ k →
        (l.getBucket k c.create c.seen).2.buckets.get k2 = l.buckets.get k2) ∧
      (l.Allow k c).1 = ((l.getBucket k c.create c.seen).1.allow c.allow).1 ∧
      (l.Allow k c).2.buckets.get k
          = some ((l.getBucket k c.create c.seen).1.allow c.allow).2 ∧
      (l.Allow k c).2.buckets.entries.countP (fun e => decide (e.1 = k)) = 1 ∧
      (∀ k2 : String, k2 ≠ k → (l.Allow k c).2.buckets.get k2 = l.buckets.get k2)) ∧
    (∀ (t : Time) (other : String), other ≠ "superuser" → other ≠ "ddoser" →
      ((NewLimiter 2 1 ((GoMap.empty.set "superuser" { Capacity := 10, Rate := 1 }).set
            "ddoser" { Capacity := 1, Rate := 1 })).runAllows "superuser"
          (List.replicate 5 { create := t, seen := t, allow := t })).1
        = [true, true, true, true, true] ∧
      ((NewLimiter 2 1 ((GoMap.empty.set "superuser" { Capacity := 10, Rate := 1 }).set
            "ddoser" { Capacity := 1, Rate := 1 })).runAllows "ddoser"
          (List.replicate 2 { create := t, seen := t, allow := t })).1
        = [true, false] ∧
      ((NewLimiter 2 1 ((GoMap.empty.set "superuser" { Capacity := 10, Rate := 1 }).set
            "ddoser" { Capacity := 1, Rate := 1 })).runAllows other
          (List.replicate 3 { create := t, seen := t, allow := t })).1
        = [true, true, false]) := by
  refine ⟨?_, ?_⟩
  · intro l k c h
    have hg := Limiter.getBucket_of_none l k c.create c.seen h
    have hA := Limiter.Allow_of_none l k c h
    refine ⟨?_, ?_, ?_, ?_, ?_, ?_, ?_, ?_, ?_⟩
    · intro cfg ho
      rw [hg]
      simp [Limiter.freshBucket, ho]
    · intro ho
      rw [hg]
      simp [Limiter.freshBucket, ho]
    · rw [hg]
      exact GoMap.get_set_self _ _ _
    · rw [hg]
      exact GoMap.count_set _ _ _
    · intro k2 hk2
      rw [hg]
      exact GoMap.get_set_ne _ _ _ _ hk2
    · rw [hA, hg]
    · rw [hA, hg]
      exact GoMap.get_set_self _ _ _
    · rw [hA]
      exact GoMap.count_set _ _ _
    · intro k2 hk2
      rw [hA]
      simp only
      rw [GoMap.get_set_ne _ _ _ _ hk2, GoMap.get_set_ne _ _ _ _ hk2]
  · intro t other h1 h2
    have hnone : ∀ k : String,
        (NewLimiter 2 1 ((GoMap.empty.set "superuser" { Capacity := 10, Rate := 1 }).set
          "ddoser" { Capacity := 1, Rate := 1 })).buckets.get k = none := fun _ => rfl
    have hs : (NewLimiter 2 1 ((GoMap.empty.set "superuser" { Capacity := 10, Rate := 1 }).set
          "ddoser" { Capacity := 1, Rate := 1 })).freshBucket "superuser" t
        = { Capacity := 10, Tokens := 10, RefillRate := 1, LastRefilled := t } := by
      simp [Limiter.freshBucket, NewLimiter, GoMap.set, GoMap.delete, GoMap.empty, GoMap.get,
        GoMap.lookup]
    have hd : (NewLimiter 2 1 ((GoMap.empty.set "superuser" { Capacity := 10, Rate := 1 }).set
          "ddoser" { Capacity := 1, Rate := 1 })).freshBucket "ddoser" t
        = { Capacity := 1, Tokens := 1, RefillRate := 1, LastRefilled := t } := by
      simp [Limiter.freshBucket, NewLimiter, GoMap.set, GoMap.delete, GoMap.empty, GoMap.get,
        GoMap.lookup]
    have ho : (NewLimiter 2 1 ((GoMap.empty.set "superuser" { Capacity := 10, Rate := 1 }).set
          "ddoser" { Capacity := 1, Rate := 1 })).freshBucket other t
        = { Capacity := 2, Tokens := 2, RefillRate := 1, LastRefilled := t } := by
      have h3 : ¬ "superuser" = other := fun e => h1 e.symm
      have h4 : ¬ "ddoser" = other := fun e => h2 e.symm
      simp [Limiter.freshBucket, NewLimiter, GoMap.set, GoMap.delete, GoMap.empty, GoMap.get,
        GoMap.lookup, h3, h4]
    refine ⟨?_, ?_, ?_⟩
    · rw [Limiter.runAllows_same_instant _ _ t 4 (hnone _) (by rw [hs]; norm_num), hs]
      simp [List.range_succ]
    · rw [Limiter.runAllows_same_instant _ _ t 1 (hnone _) (by rw [hd]; norm_num), hd]
      simp [List.range_succ]
    · rw [Limiter.runAllows_same_instant _ _ t 2 (hnone _) (by rw [ho]; norm_num), ho]
      simp [List.range_succ]

/-- Witness for C6: the first call of `superuser` on the limiter of the scenario. -/
theorem limiter_creates_bucket_from_config_witness :
    ((NewLimiter 2 1 ((GoMap.empty.set "superuser" { Capacity := 10, Rate := 1 }).set
        "ddoser" { Capacity := 1, Rate := 1 })).getBucket "superuser" 5 6).1
      = { Capacity := 10, Tokens := 10, RefillRate := 1, LastRefilled := 5 } ∧
    ((NewLimiter 2 1 ((GoMap.empty.set "superuser" { Capacity := 10, Rate := 1 }).set
          "ddoser" { Capacity := 1, Rate := 1 })).runAllows "test-user"
        (List.replicate 3 { create := 0, seen := 0, allow := 0 })).1
      = [true, true, false] :=
  ⟨(limiter_creates_bucket_from_config.1
      (NewLimiter 2 1 ((GoMap.empty.set "superuser" { Capacity := 10, Rate := 1 }).set
          "ddoser" { Capacity := 1, Rate := 1 }))
      "superuser" { create := 5, seen := 6, allow := 7 } rfl).1
      { Capacity := 10, Rate := 1 } (by decide),
   (limiter_creates_bucket_from_config.2 0 "test-user" (by decide) (by decide)).2.2⟩

/-- C7, as stated, fails. A full bucket of capacity `2^63 − 1` and rate 1 called
10 s after its last refill: the sum `Tokens + 10` wraps around and the call
leaves `Tokens` negative. And a bucket of rate 1 called `2^24` s and 999999999 ns
after its last refill: `Seconds()` rounds the elapsed time up to 16777217, and
the refill adds 16777217 tokens, one more than
`floor((now − LastRefilled) · RefillRate) = 16777216`; with the rate
3000000000 the call leaves more tokens than that floor allows. -/
theorem bucket_tokens_counterexample :
    (0 ≤ ({ Capacity := 9223372036854775807, Tokens := 9223372036854775807, RefillRate := 1,
            LastRefilled := 0 } : Bucket).Tokens ∧
      (({ Capacity := 9223372036854775807, Tokens := 9223372036854775807, RefillRate := 1,
          LastRefilled := 0 } : Bucket).allow 10000000000).2.Tokens < 0) ∧
    (({ Capacity := 100000000, Tokens := 0, RefillRate := 1, LastRefilled := 0 }
        : Bucket).addedTokens 16777216999999999 = 16777217 ∧
      ⌊exactSeconds (16777216999999999 - 0) * ((1 : Int) : ℚ)⌋ = 16777216) ∧
    (⌊exactSeconds (16777216999999999 - 0) * ((3000000000 : Int) : ℚ)⌋ = 50331650999999997 ∧
      ¬ (({ Capacity := 100000000000000000, Tokens := 0, RefillRate := 3000000000,
            LastRefilled := 0 } : Bucket).allow 16777216999999999).2.Tokens
          ≤ 0 + max 0 ⌊exactSeconds (16777216999999999 - 0) * ((3000000000 : Int) : ℚ)⌋) := by
  have f1 : ⌊exactSeconds (16777216999999999 - 0) * ((1 : Int) : ℚ)⌋ = 16777216 := by
    rw [floor_exactSeconds_mul]
    decide
  have f2 : ⌊exactSeconds (16777216999999999 - 0) * ((3000000000 : Int) : ℚ)⌋
      = 50331650999999997 := by
    rw [floor_exactSeconds_mul]
    decide
  refine ⟨⟨by decide, by decide⟩, ⟨by decide, f1⟩, f2, ?_⟩
  rw [f2]
  decide

/-- C7, amended. A bucket that starts with `Tokens ≤ Capacity` satisfies
`Tokens ≤ Capacity` after every call of any sequence of `allow` calls at
arbitrary instants, and, if it starts with `0 ≤ Tokens` and no refill of the
sequence has a sum `Tokens + newTokens` above the largest `int`, also
`0 ≤ Tokens`; a bucket made by `getBucket` starts with `Tokens = Capacity`; one
`allow` leaves at most `Tokens + max(0, newTokens)` tokens, where
`newTokens = int(elapsed.Seconds() · float64(RefillRate))` is the amount computed
in float64, so that `Tokens` grows only when that amount is positive and by no
more than it; and that amount is at most
`floor((now − LastRefilled) · RefillRate)` when this product is below `10^6`. -/
theorem bucket_tokens_stay_below_capacity :
    (∀ (b : Bucket) (ts : List Time), b.Tokens ≤ b.Capacity →
      ∀ r ∈ b.allowTrace ts, r.2.Tokens ≤ r.2.Capacity) ∧
    (∀ (b : Bucket) (ts : List Time), 0 ≤ b.Tokens → b.Tokens ≤ b.Capacity →
      b.neverOverflows ts → ∀ r ∈ b.allowTrace ts, 0 ≤ r.2.Tokens) ∧
    (∀ (l : Limiter) (k : String) (tCreate tSeen : Time), l.buckets.get k = none →
      (l.getBucket k tCreate tSeen).1.Tokens = (l.getBucket k tCreate tSeen).1.Capacity) ∧
    (∀ (b : Bucket) (now : Time), -9223372036854775808 ≤ b.Tokens →
      (b.allow now).2.Tokens ≤ b.Tokens + max 0 (b.newTokens now)) ∧
    (∀ (b : Bucket) (now : Time), -9223372036854775808 ≤ b.Tokens →
      b.Tokens < (b.allow now).2.Tokens →
      0 < b.newTokens now ∧ (b.allow now).2.Tokens - b.Tokens ≤ b.newTokens now) ∧
    (∀ (b : Bucket) (now : Time),
      (now - b.LastRefilled) * b.RefillRate < 1000000000000000 →
      max 0 (b.newTokens now)
        ≤ max 0 ⌊exactSeconds (now - b.LastRefilled) * (b.RefillRate : ℚ)⌋) := by
  refine ⟨fun b ts h1 => (Bucket.allowTrace_tokens_bounds ts b h1).1,
    fun b ts h0 h1 hov => (Bucket.allowTrace_tokens_bounds ts b h1).2 h0 hov, ?_,
    Bucket.allow_tokens_le, ?_, Bucket.newTokens_le_floor⟩
  · intro l k tCreate tSeen h
    rw [Limiter.getBucket_of_none l k tCreate tSeen h]
    unfold Limiter.freshBucket
    cases l.overrideClients.get k <;> rfl
  · intro b now h0 hlt
    have hle := Bucket.allow_tokens_le b now h0
    rcases le_or_lt (b.newTokens now) 0 with h | h
    · rw [max_eq_left h] at hle
      omega
    · rw [max_eq_right (le_of_lt h)] at hle
      exact ⟨h, by omega⟩

/-- Witness for C7 amended: a bucket of capacity 3 holding 1 token, called at
0.5 s, at 2 s and at 2 s again after its last refill at instant 0. -/
theorem bucket_tokens_stay_below_capacity_witness :
    (∀ r ∈ ({ Capacity := 3, Tokens := 1, RefillRate := 1, LastRefilled := 0 } : Bucket).allowTrace
        [500000000, 2000000000, 2000000000],
      0 ≤ r.2.Tokens) ∧
    ((NewLimiter 2 1 GoMap.empty).getBucket "id1" 0 0).1.Tokens
      = ((NewLimiter 2 1 GoMap.empty).getBucket "id1" 0 0).1.Capacity ∧
    (0 < ({ Capacity := 3, Tokens := 0, RefillRate := 1, LastRefilled := 0 } : Bucket).newTokens
        2000000000 ∧
     (({ Capacity := 3, Tokens := 0, RefillRate := 1, LastRefilled := 0 } : Bucket).allow
          2000000000).2.Tokens
        - ({ Capacity := 3, Tokens := 0, RefillRate := 1, LastRefilled := 0 } : Bucket).Tokens
      ≤ ({ Capacity := 3, Tokens := 0, RefillRate := 1, LastRefilled := 0 } : Bucket).newTokens
        2000000000) :=
  ⟨bucket_tokens_stay_below_capacity.2.1
      { Capacity := 3, Tokens := 1, RefillRate := 1, LastRefilled := 0 }
      [500000000, 2000000000, 2000000000] (by decide) (by decide)
      (by
        simp only [Bucket.neverOverflows, and_true]
        refine ⟨?_, ?_, ?_⟩ <;> intro _ <;> decide),
   bucket_tokens_stay_below_capacity.2.2.1 (NewLimiter 2 1 GoMap.empty) "id1" 0 0 rfl,
   bucket_tokens_stay_below_capacity.2.2.2.2.1
      { Capacity := 3, Tokens := 0, RefillRate := 1, LastRefilled := 0 } 2000000000
      (by decide) (by decide)⟩

/-- C8, as stated, fails. A bucket of capacity 5 and rate 1 created at instant
0 is emptied by five calls at 0.5 s, none of which refills, so `LastRefilled`
stays 0; after 1.5 s without a call, ten calls at 2 s are admitted twice, while
`min(Capacity, floor(1.5 · 1))` is 1. -/
theorem idle_burst_counterexample :
    (({ Capacity := 5, Tokens := 5, RefillRate := 1, LastRefilled := 0 } : Bucket).allowTrace
        [500000000, 500000000, 500000000, 500000000, 500000000]).getLast?
      = some (true, { Capacity := 5, Tokens := 0, RefillRate := 1, LastRefilled := 0 }) ∧
    ((({ Capacity := 5, Tokens := 0, RefillRate := 1, LastRefilled := 0 } : Bucket).allowFlags
        (List.replicate 10 (500000000 + 1500000000))).count true : Nat) = 2 ∧
    min (5 : Int) ⌊exactSeconds 1500000000 * ((1 : Int) : ℚ)⌋ = 1 ∧
    ¬ (((({ Capacity := 5, Tokens := 0, RefillRate := 1, LastRefilled := 0 } : Bucket).allowFlags
          (List.replicate 10 (500000000 + 1500000000))).count true : Nat) : Int)
        = min (5 : Int) ⌊exactSeconds 1500000000 * ((1 : Int) : ℚ)⌋ := by
  have h1 : (({ Capacity := 5, Tokens := 0, RefillRate := 1, LastRefilled := 0 } : Bucket).allowFlags
        (List.replicate 10 (500000000 + 1500000000))).count true = 2 := by
    decide
  have h2 : min (5 : Int) ⌊exactSeconds 1500000000 * ((1 : Int) : ℚ)⌋ = 1 := by
    rw [floor_exactSeconds_mul]
    decide
  refine ⟨by decide, h1, h2, ?_⟩
  rw [h1, h2]
  decide

/-- C8, amended. A bucket with `0 ≤ Tokens ≤ Capacity`, rate `r ≥ 0` and
`LastRefilled` not after `t0` whose `allow` at `t0` succeeds and leaves
`Tokens = 0`, called again only after `t ≥ 0`, admits of `n` calls at the one
instant `t0 + t` exactly `min(n, min(Capacity, added))`, where
`added = max(0, int(elapsed.Seconds() · float64(r)))` is computed in float64 from
the time elapsed since the `LastRefilled` the bucket has after the emptying
call. With `x` the exact product of that elapsed time in seconds and `r`: for
`x < 10^6`, `added` is `floor(x)`, or possibly `floor(x) − 1` when `x` is a whole
number; `added = floor(x)` when `x < 10^6` is not a whole number and when the
elapsed time is a whole number of seconds (at most 9000000000, with `r` and `x`
below `2^53`), and the burst then admits exactly
`min(n, min(Capacity, floor(x)))` calls; `x` is `t · r` when the emptying call
itself refilled the bucket (`LastRefilled = t0`). -/
theorem idle_burst_counts_from_last_refill (b0 : Bucket) (t0 : Time) (t : Duration) (n : Nat)
    (h0 : 0 ≤ b0.Tokens) (h1 : b0.Tokens ≤ b0.Capacity) (hr : 0 ≤ b0.RefillRate)
    (hlast : b0.LastRefilled ≤ t0) (ht : 0 ≤ t)
    (_htaken : (b0.allow t0).1 = true) (hempty : (b0.allow t0).2.Tokens = 0) :
    ((((b0.allow t0).2.allowFlags (List.replicate n (t0 + t))).count true : Nat) : Int)
        = min (n : Int) (min b0.Capacity (max 0 ((b0.allow t0).2.newTokens (t0 + t)))) ∧
    ((t0 + t - (b0.allow t0).2.LastRefilled) * b0.RefillRate < 1000000000000000 →
      (b0.allow t0).2.newTokens (t0 + t)
          = ⌊exactSeconds (t0 + t - (b0.allow t0).2.LastRefilled) * (b0.RefillRate : ℚ)⌋ ∨
      ((t0 + t - (b0.allow t0).2.LastRefilled) * b0.RefillRate % 1000000000 = 0 ∧
        (b0.allow t0).2.newTokens (t0 + t)
          = ⌊exactSeconds (t0 + t - (b0.allow t0).2.LastRefilled) * (b0.RefillRate : ℚ)⌋ - 1)) ∧
    ((((t0 + t - (b0.allow t0).2.LastRefilled) * b0.RefillRate < 1000000000000000 ∧
        (t0 + t - (b0.allow t0).2.LastRefilled) * b0.RefillRate % 1000000000 ≠ 0) ∨
      (∃ sec : Int, t0 + t - (b0.allow t0).2.LastRefilled = sec * 1000000000 ∧
        sec.natAbs ≤ 9000000000 ∧ b0.RefillRate.natAbs < 2 ^ 53 ∧
        (sec * b0.RefillRate).natAbs < 2 ^ 53)) →
      ((((b0.allow t0).2.allowFlags (List.replicate n (t0 + t))).count true : Nat) : Int)
        = min (n : Int) (min b0.Capacity
            ⌊exactSeconds (t0 + t - (b0.allow t0).2.LastRefilled) * (b0.RefillRate : ℚ)⌋)) ∧
    ((b0.allow t0).2.LastRefilled = t0 →
      ((t * b0.RefillRate < 1000000000000000 ∧ t * b0.RefillRate % 1000000000 ≠ 0) ∨
        (∃ sec : Int, t = sec * 1000000000 ∧ sec.natAbs ≤ 9000000000 ∧
          b0.RefillRate.natAbs < 2 ^ 53 ∧ (sec * b0.RefillRate).natAbs < 2 ^ 53)) →
      ((((b0.allow t0).2.allowFlags (List.replicate n (t0 + t))).count true : Nat) : Int)
        = min (n : Int) (min b0.Capacity ⌊exactSeconds t * (b0.RefillRate : ℚ)⌋)) := by
  obtain ⟨hc, hrate, hl⟩ := Bucket.allow_frame b0 t0
  have hle : (b0.allow t0).2.LastRefilled ≤ t0 := by
    rcases hl with hl | hl
    · rw [hl]
      exact hlast
    · exact le_of_eq hl
  have hX0 : 0 ≤ (t0 + t - (b0.allow t0).2.LastRefilled) * (b0.allow t0).2.RefillRate := by
    rw [hrate]
    apply Int.mul_nonneg _ hr
    have h3 : (0 : Int) ≤ t0 - (b0.allow t0).2.LastRefilled := sub_nonneg.2 hle
    have h4 : t0 + t - (b0.allow t0).2.LastRefilled
        = (t0 - (b0.allow t0).2.LastRefilled) + t := by ring
    rw [h4]
    exact add_nonneg h3 ht
  have hA : 0 ≤ ⌊exactSeconds (t0 + t - (b0.allow t0).2.LastRefilled)
      * ((b0.allow t0).2.RefillRate : ℚ)⌋ := by
    rw [floor_exactSeconds_mul]
    exact Int.ediv_nonneg hX0 (by norm_num)
  have hmain := Bucket.burst_count_of_empty (b0.allow t0).2 (t0 + t) n hempty
    (by rw [hc]; omega)
  rw [hc] at hmain
  have hthird : (((t0 + t - (b0.allow t0).2.LastRefilled) * b0.RefillRate < 1000000000000000 ∧
        (t0 + t - (b0.allow t0).2.LastRefilled) * b0.RefillRate % 1000000000 ≠ 0) ∨
      (∃ sec : Int, t0 + t - (b0.allow t0).2.LastRefilled = sec * 1000000000 ∧
        sec.natAbs ≤ 9000000000 ∧ b0.RefillRate.natAbs < 2 ^ 53 ∧
        (sec * b0.RefillRate).natAbs < 2 ^ 53)) →
      ((((b0.allow t0).2.allowFlags (List.replicate n (t0 + t))).count true : Nat) : Int)
        = min (n : Int) (min b0.Capacity
            ⌊exactSeconds (t0 + t - (b0.allow t0).2.LastRefilled) * (b0.RefillRate : ℚ)⌋) := by
    intro hcase
    have he : (b0.allow t0).2.newTokens (t0 + t)
        = ⌊exactSeconds (t0 + t - (b0.allow t0).2.LastRefilled) * (b0.RefillRate : ℚ)⌋ := by
      rcases hcase with ⟨hlt, hm⟩ | ⟨sec, hsec, s1, s2, s3⟩
      · have n4 := (Bucket.newTokens_near_floor (b0.allow t0).2 (t0 + t) hX0
          (by rw [hrate]; exact hlt)).2.2.2
        rw [hrate] at n4
        exact n4 hm
      · obtain ⟨w1, w2⟩ := Bucket.newTokens_whole_seconds (b0.allow t0).2 (t0 + t) sec hsec s1
          (by rw [hrate]; exact s2) (by rw [hrate]; exact s3)
        rw [hrate] at w1 w2
        rw [w1, w2]
    rw [hrate] at hA
    rw [hmain, he, max_eq_right hA]
  refine ⟨hmain, ?_, hthird, ?_⟩
  · intro hlt
    obtain ⟨n1, n2, _, n4⟩ := Bucket.newTokens_near_floor (b0.allow t0).2 (t0 + t) hX0
      (by rw [hrate]; exact hlt)
    rw [hrate] at n1 n2 n4
    by_cases hm : (t0 + t - (b0.allow t0).2.LastRefilled) * b0.RefillRate % 1000000000 = 0
    · by_cases he : (b0.allow t0).2.newTokens (t0 + t)
          = ⌊exactSeconds (t0 + t - (b0.allow t0).2.LastRefilled) * (b0.RefillRate : ℚ)⌋
      · exact Or.inl he
      · exact Or.inr ⟨hm, by omega⟩
    · exact Or.inl (n4 hm)
  · intro heq hcase
    have e : t0 + t - (b0.allow t0).2.LastRefilled = t := by
      rw [heq]
      ring
    rw [e] at hthird
    exact hthird hcase

/-- Witness for C8 amended: the bucket of the counter-example before its fifth
call at 0.5 s, the idle span 1.5 s and a burst of ten calls; the elapsed time
since `LastRefilled` is 2 s and the burst admits `min(10, min(5, 2))` calls. -/
theorem idle_burst_counts_from_last_refill_witness :
    (((((({ Capacity := 5, Tokens := 1, RefillRate := 1, LastRefilled := 0 } : Bucket).allow
          500000000).2.allowFlags (List.replicate 10 (500000000 + 1500000000))).count true
        : Nat) : Int)
      = min ((10 : Nat) : Int) (min (5 : Int)
          ⌊exactSeconds (500000000 + 1500000000
              - (({ Capacity := 5, Tokens := 1, RefillRate := 1, LastRefilled := 0 } : Bucket).allow
                  500000000).2.LastRefilled) * ((1 : Int) : ℚ)⌋)) :=
  (idle_burst_counts_from_last_refill
    { Capacity := 5, Tokens := 1, RefillRate := 1, LastRefilled := 0 } 500000000 1500000000 10
    (by decide) (by decide) (by decide) (by decide) (by decide)
    (by decide) (by decide)).2.2.1
    (Or.inr ⟨2, by decide, by decide, by decide, by decide⟩)

/-- C9. One cleanup tick at `now` with time-to-live `ttl`: a client with a bucket
`b` and a last-seen instant `seen` has lost both entries after the tick if and
only if `now.Sub(seen) > ttl` and `b.Tokens = b.Capacity`, and otherwise still has
exactly these two entries; a client without a bucket, or without a last-seen
entry, keeps what it has; the defaults and the override map are unchanged. -/
theorem cleanup_tick_evicts_idle_full (l : Limiter) (now : Time) (ttl : Duration) :
    (∀ (k : String) (b : Bucket) (seen : Time),
      l.buckets.get k = some b → l.lastSeen.get k = some seen →
      ((((l.cleanupTick now ttl).buckets.get k = none ∧
          (l.cleanupTick now ttl).lastSeen.get k = none)
        ↔ (Time.Sub now seen > ttl ∧ b.Tokens = b.Capacity)) ∧
       (¬ (Time.Sub now seen > ttl ∧ b.Tokens = b.Capacity) →
          (l.cleanupTick now ttl).buckets.get k = some b ∧
          (l.cleanupTick now ttl).lastSeen.get k = some seen))) ∧
    (∀ k : String, l.buckets.get k = none →
      (l.cleanupTick now ttl).buckets.get k = none ∧
      (l.cleanupTick now ttl).lastSeen.get k = l.lastSeen.get k) ∧
    (∀ k : String, l.lastSeen.get k = none →
      (l.cleanupTick now ttl).buckets.get k = l.buckets.get k ∧
      (l.cleanupTick now ttl).lastSeen.get k = none) ∧
    (l.cleanupTick now ttl).defaultCapacity = l.defaultCapacity ∧
    (l.cleanupTick now ttl).defaultRate = l.defaultRate ∧
    (l.cleanupTick now ttl).overrideClients = l.overrideClients := by
  refine ⟨?_, ?_, ?_, Limiter.foldl_cleanupVisit_config now ttl l.buckets.keys l⟩
  · intro k b seen hb hs
    have hiff := Limiter.evictable_iff now ttl l k b seen hb hs
    have hkeep : ¬ (Time.Sub now seen > ttl ∧ b.Tokens = b.Capacity) →
        (l.cleanupTick now ttl).buckets.get k = some b ∧
        (l.cleanupTick now ttl).lastSeen.get k = some seen := by
      intro hc
      have he : l.evictable now ttl k = false := by
        cases h : l.evictable now ttl k with
        | false => rfl
        | true => exact absurd (hiff.1 h) hc
      obtain ⟨i1, i2⟩ := Limiter.foldl_cleanupVisit_keep now ttl l.buckets.keys l k he
      exact ⟨i1.trans hb, i2.trans hs⟩
    refine ⟨⟨?_, ?_⟩, hkeep⟩
    · intro hgone
      by_contra hc
      have := (hkeep hc).1
      rw [hgone.1] at this
      exact Option.noConfusion this
    · intro hc
      exact Limiter.foldl_cleanupVisit_evict now ttl l.buckets.keys l k (hiff.2 hc)
        (GoMap.mem_keys_of_get l.buckets k b hb)
  · intro k hb
    have he : l.evictable now ttl k = false := by
      unfold Limiter.evictable
      rw [hb]
    obtain ⟨i1, i2⟩ := Limiter.foldl_cleanupVisit_keep now ttl l.buckets.keys l k he
    exact ⟨i1.trans hb, i2⟩
  · intro k hs
    have he : l.evictable now ttl k = false := by
      unfold Limiter.evictable
      rw [hs]
      cases l.buckets.get k <;> rfl
    obtain ⟨i1, i2⟩ := Limiter.foldl_cleanupVisit_keep now ttl l.buckets.keys l k he
    exact ⟨i1, i2.trans hs⟩

/-- Witness for C9: the limiter that `NewLimiter 0 1` becomes by one `Allow` of
`id1` at instant 0, ticked at instant 10 with a time-to-live of 5. -/
theorem cleanup_tick_evicts_idle_full_witness :
    ((exampleIdleLimiter.cleanupTick 10 5).buckets.get "id1" = none ∧
      (exampleIdleLimiter.cleanupTick 10 5).lastSeen.get "id1" = none)
      ↔ ((10 : Int) - 0 > 5 ∧ (0 : Int) = 0) :=
  ((cleanup_tick_evicts_idle_full
      exampleIdleLimiter 10 5).1
    "id1" { Capacity := 0, Tokens := 0, RefillRate := 1, LastRefilled := 0 } 0 rfl rfl).1

/-- C10. When a cleanup tick has removed the bucket of a client, the next
`Allow` of the client builds its bucket from the configuration the limiter has
then: the entry of the client in the override map if there is one, the defaults
otherwise; when an `UpdateConfig` came between the creation of the old bucket
and the tick, these are the values that `UpdateConfig` installed. -/
theorem allow_after_eviction_uses_current_config :
    (∀ (l : Limiter) (now : Time) (ttl : Duration) (k : String) (b : Bucket) (c : AllowClock),
      l.buckets.get k = some b → (l.cleanupTick now ttl).buckets.get k = none →
      (∀ cfg : ClientConfig, l.overrideClients.get k = some cfg →
        ((l.cleanupTick now ttl).getBucket k c.create c.seen).1
          = { Capacity := cfg.Capacity, Tokens := cfg.Capacity, RefillRate := cfg.Rate,
              LastRefilled := c.create } ∧
        ((l.cleanupTick now ttl).Allow k c).1
          = (({ Capacity := cfg.Capacity, Tokens := cfg.Capacity, RefillRate := cfg.Rate,
                LastRefilled := c.create } : Bucket).allow c.allow).1 ∧
        ((l.cleanupTick now ttl).Allow k c).2.buckets.get k
          = some (({ Capacity := cfg.Capacity, Tokens := cfg.Capacity, RefillRate := cfg.Rate,
                     LastRefilled := c.create } : Bucket).allow c.allow).2) ∧
      (l.overrideClients.get k = none →
        ((l.cleanupTick now ttl).getBucket k c.create c.seen).1
          = { Capacity := l.defaultCapacity, Tokens := l.defaultCapacity,
              RefillRate := l.defaultRate, LastRefilled := c.create } ∧
        ((l.cleanupTick now ttl).Allow k c).1
          = (({ Capacity := l.defaultCapacity, Tokens := l.defaultCapacity,
                RefillRate := l.defaultRate, LastRefilled := c.create } : Bucket).allow
              c.allow).1 ∧
        ((l.cleanupTick now ttl).Allow k c).2.buckets.get k
          = some (({ Capacity := l.defaultCapacity, Tokens := l.defaultCapacity,
                     RefillRate := l.defaultRate, LastRefilled := c.create } : Bucket).allow
                   c.allow).2)) ∧
    (∀ (l0 : Limiter) (cap rate : Int) (ovr : GoMap ClientConfig) (now : Time)
        (ttl : Duration) (k : String) (b : Bucket) (c : AllowClock),
      l0.buckets.get k = some b →
      ((l0.UpdateConfig cap rate ovr).cleanupTick now ttl).buckets.get k = none →
      (∀ cfg : ClientConfig, ovr.get k = some cfg →
        (((l0.UpdateConfig cap rate ovr).cleanupTick now ttl).getBucket k c.create c.seen).1
          = { Capacity := cfg.Capacity, Tokens := cfg.Capacity, RefillRate := cfg.Rate,
              LastRefilled := c.create }) ∧
      (ovr.get k = none →
        (((l0.UpdateConfig cap rate ovr).cleanupTick now ttl).getBucket k c.create c.seen).1
          = { Capacity := cap, Tokens := cap, RefillRate := rate,
              LastRefilled := c.create })) := by
  have hcfg : ∀ (l : Limiter) (now : Time) (ttl : Duration),
      (l.cleanupTick now ttl).defaultCapacity = l.defaultCapacity ∧
      (l.cleanupTick now ttl).defaultRate = l.defaultRate ∧
      (l.cleanupTick now ttl).overrideClients = l.overrideClients :=
    fun l now ttl => Limiter.foldl_cleanupVisit_config now ttl l.buckets.keys l
  refine ⟨?_, ?_⟩
  · intro l now ttl k b c _ hgone
    obtain ⟨h1, h2, h3⟩ := hcfg l now ttl
    have hcr := Limiter.Allow_creates (l.cleanupTick now ttl) k c hgone
    rw [h1, h2, h3] at hcr
    exact hcr
  · intro l0 cap rate ovr now ttl k b c _ hgone
    obtain ⟨h1, h2, h3⟩ := hcfg (l0.UpdateConfig cap rate ovr) now ttl
    have hcr := Limiter.Allow_creates ((l0.UpdateConfig cap rate ovr).cleanupTick now ttl) k c
      hgone
    rw [h1, h2, h3] at hcr
    exact ⟨fun cfg ho => (hcr.1 cfg ho).1, fun ho => (hcr.2 ho).1⟩

/-- Witness for C10: the bucket of `id1` (capacity 0) in the example state is
removed by the tick at instant 10, also after `UpdateConfig 5 2` with no
overrides, and the following `Allow` builds a bucket of capacity 5 and rate 2. -/
theorem allow_after_eviction_uses_current_config_witness :
    ((exampleIdleLimiter.cleanupTick 10 5).getBucket "id1" 20 21).1
      = { Capacity := 0, Tokens := 0, RefillRate := 1, LastRefilled := 20 } ∧
    (((exampleIdleLimiter.UpdateConfig 5 2 GoMap.empty).cleanupTick 10 5).getBucket
        "id1" 20 21).1
      = { Capacity := 5, Tokens := 5, RefillRate := 2, LastRefilled := 20 } :=
  ⟨((allow_after_eviction_uses_current_config.1 exampleIdleLimiter 10 5 "id1"
      { Capacity := 0, Tokens := 0, RefillRate := 1, LastRefilled := 0 }
      { create := 20, seen := 21, allow := 22 } rfl (by decide)).2 rfl).1,
   (allow_after_eviction_uses_current_config.2 exampleIdleLimiter 5 2 GoMap.empty 10 5 "id1"
      { Capacity := 0, Tokens := 0, RefillRate := 1, LastRefilled := 0 }
      { create := 20, seen := 21, allow := 22 } rfl (by decide)).2 rfl⟩

/-- C11. `UpdateConfig c r o` sets the defaults to `(c, r)` and the override map
to `o`; the bucket map and the last-seen map are the same afterwards, so every
bucket keeps its four fields; and an `Allow` of a client that has a bucket `b` is
answered by `b.allow` and leaves the same bucket map as it would have without
the `UpdateConfig`, whatever `o` holds for that client. -/
theorem limiter_updateConfig_keeps_buckets :
    (∀ (l : Limiter) (c r : Int) (o : GoMap ClientConfig),
      (l.UpdateConfig c r o).defaultCapacity = c ∧
      (l.UpdateConfig c r o).defaultRate = r ∧
      (l.UpdateConfig c r o).overrideClients = o ∧
      (l.UpdateConfig c r o).buckets = l.buckets ∧
      (l.UpdateConfig c r o).lastSeen = l.lastSeen) ∧
    (∀ (l : Limiter) (c r : Int) (o : GoMap ClientConfig) (k : String) (b : Bucket)
        (clk : AllowClock),
      l.buckets.get k = some b →
      (l.UpdateConfig c r o).buckets.get k = some b ∧
      ((l.UpdateConfig c r o).Allow k clk).1 = (b.allow clk.allow).1 ∧
      ((l.UpdateConfig c r o).Allow k clk).1 = (l.Allow k clk).1 ∧
      ((l.UpdateConfig c r o).Allow k clk).2.buckets.get k = some (b.allow clk.allow).2 ∧
      ((l.UpdateConfig c r o).Allow k clk).2.buckets = (l.Allow k clk).2.buckets ∧
      ((l.UpdateConfig c r o).Allow k clk).2.lastSeen = (l.Allow k clk).2.lastSeen) := by
  refine ⟨fun l c r o => ⟨rfl, rfl, rfl, rfl, rfl⟩, ?_⟩
  intro l c r o k b clk hb
  have hb2 : (l.UpdateConfig c r o).buckets.get k = some b := hb
  have h1 := Limiter.Allow_of_some (l.UpdateConfig c r o) k clk b hb2
  have h2 := Limiter.Allow_of_some l k clk b hb
  refine ⟨hb2, ?_, ?_, ?_, ?_, ?_⟩
  · rw [h1]
  · rw [h1, h2]
  · rw [h1]
    exact GoMap.get_set_self _ _ _
  · rw [h1, h2]
    rfl
  · rw [h1, h2]
    rfl

/-- Witness for C11: the example state, whose client `id1` has a bucket, given
new defaults and an override for `id1`. -/
theorem limiter_updateConfig_keeps_buckets_witness :
    ((exampleIdleLimiter.UpdateConfig 5 2
        (GoMap.empty.set "id1" { Capacity := 9, Rate := 3 })).Allow "id1"
        { create := 20, seen := 21, allow := 22 }).1
      = (exampleIdleLimiter.Allow "id1" { create := 20, seen := 21, allow := 22 }).1 :=
  (limiter_updateConfig_keeps_buckets.2 exampleIdleLimiter 5 2
    (GoMap.empty.set "id1" { Capacity := 9, Rate := 3 }) "id1"
    { Capacity := 0, Tokens := 0, RefillRate := 1, LastRefilled := 0 }
    { create := 20, seen := 21, allow := 22 } rfl).2.2.1

/-! ## Lemmas on the health checker -/

theorem foldl_probeAppend (finished : List (String × ProbeOutcome)) (acc : List String) :
    finished.foldl probeAppend acc
      = acc ++ (finished.filter
          (fun p => decide (p.2 = ProbeOutcome.status 200))).map Prod.fst := by
  induction finished generalizing acc with
  | nil => simp
  | cons p ps ih =>
      obtain ⟨a, o⟩ := p
      rw [List.foldl_cons, ih]
      cases o with
      | requestError => simp [probeAppend]
      | doError => simp [probeAppend]
      | status code =>
          by_cases hc : code = 200
          · simp [probeAppend, StatusOK, hc]
          · simp [probeAppend, StatusOK, hc]

theorem sortStrings_sorted (l : List String) :
    (sortStrings l).Sorted (fun a b => a ≤ b) :=
  List.sorted_insertionSort (fun a b : String => a ≤ b) l

theorem sortStrings_perm (l : List String) : (sortStrings l).Perm l :=
  List.perm_insertionSort (fun a b : String => a ≤ b) l

theorem performChecks_live (B : List String) (outcomes : List ProbeOutcome)
    (finished : List (String × ProbeOutcome)) (hlen : outcomes.length = B.length)
    (hperm : finished.Perm (B.zip outcomes)) :
    ∃ L : List String, performChecks B finished true = some L ∧
      L.Sorted (fun a b => a ≤ b) ∧
      L.Perm (((B.zip outcomes).filter
        (fun p => decide (p.2 = ProbeOutcome.status 200))).map Prod.fst) := by
  cases B with
  | nil => exact ⟨[], by simp [performChecks], by simp, by simp⟩
  | cons b bs =>
      refine ⟨sortStrings (finished.foldl probeAppend []), by simp [performChecks],
        sortStrings_sorted _, ?_⟩
      refine (sortStrings_perm _).trans ?_
      rw [foldl_probeAppend, List.nil_append]
      exact (hperm.filter _).map _

theorem Checker.Stop_of_idle (c : Checker) (h : c.activeCancel = none) : c.Stop = some c := by
  simp [Checker.Stop, h]

theorem Checker.Start_of_active (c : Checker) (n : Nat) (h : c.activeCancel = some n) :
    c.Start = c := by
  simp [Checker.Start, h]

theorem Checker.Stop_clears (c c1 : Checker) (h : c.Stop = some c1) :
    c1.activeCancel = none := by
  unfold Checker.Stop at h
  cases hc : c.activeCancel with
  | none =>
      rw [hc] at h
      simp only [Option.some.injEq] at h
      rw [← h]
      exact hc
  | some n =>
      rw [hc] at h
      simp only at h
      split at h
      · simp only [Option.some.injEq] at h
        rw [← h]
      · exact Option.noConfusion h

theorem Checker.UpdateConfig_of_idle (c : Checker) (b : List String) (i t : Duration)
    (p : String) (h : c.activeCancel = none) : c.UpdateConfig b i t p = none := by
  simp [Checker.UpdateConfig, h]

/-- The state of a checker that only `Start` and `Stop` have touched: no handle
and no goroutine, or a handle and the one goroutine that watches its context. -/
theorem Checker.run_invariant (calls : List CheckerCall) (c : Checker)
    (h : (c.activeCancel = none ∧ c.loops = []) ∨
      (∃ (n : Nat) (l : ProbeLoop), c.activeCancel = some n ∧ c.loops = [l] ∧ l.ctx = n)) :
    ∃ c1 : Checker, c.run calls = some c1 ∧
      ((c1.activeCancel = none ∧ c1.loops = []) ∨
        (∃ (n : Nat) (l : ProbeLoop),
          c1.activeCancel = some n ∧ c1.loops = [l] ∧ l.ctx = n)) := by
  induction calls generalizing c with
  | nil => exact ⟨c, rfl, h⟩
  | cons call rest ih =>
      cases call with
      | start =>
          simp only [Checker.run]
          apply ih
          rcases h with ⟨h1, h2⟩ | ⟨n, l, h1, h2, h3⟩
          · right
            exact ⟨c.nextCtx,
              { ctx := c.nextCtx, cancelled := false, backends := [] ++ c.backends,
                interval := c.interval, timeout := c.timeout, path := c.path },
              by simp [Checker.Start, h1], by simp [Checker.Start, h1, h2], rfl⟩
          · right
            rw [Checker.Start_of_active c n h1]
            exact ⟨n, l, h1, h2, h3⟩
      | stop =>
          rcases h with ⟨h1, h2⟩ | ⟨n, l, h1, h2, h3⟩
          · simp only [Checker.run, Checker.Stop_of_idle c h1]
            exact ih c (Or.inl ⟨h1, h2⟩)
          · have hs : c.Stop = some { c with activeCancel := none, loops := [] } := by
              simp [Checker.Stop, h1, h2, cancelCtx, h3]
            simp only [Checker.run, hs]
            exact ih _ (Or.inl ⟨rfl, rfl⟩)

/-! ## Theorems on the health checker -/

/-- C12. In a round over the backend list `B`, whatever the outcomes of the
probes and the order in which they end, the list handed to the callback is
sorted in non-decreasing order and is a permutation of the backends of `B`
whose probe ended with status 200; for an empty `B` the callback receives the
empty list; with outcomes 200, 503 and an error for `A`, `B`, `C` it receives
`[A]`. -/
theorem health_round_hands_sorted_live_set :
    (∀ (B : List String) (outcomes : List ProbeOutcome)
        (finished : List (String × ProbeOutcome)),
      outcomes.length = B.length → finished.Perm (B.zip outcomes) →
      ∃ L : List String, performChecks B finished true = some L ∧
        L.Sorted (fun a b => a ≤ b) ∧
        L.Perm (((B.zip outcomes).filter
          (fun p => decide (p.2 = ProbeOutcome.status 200))).map Prod.fst)) ∧
    (∀ finished : List (String × ProbeOutcome), performChecks [] finished true = some []) ∧
    (∀ (A B C : String) (finished : List (String × ProbeOutcome)),
      finished.Perm [(A, ProbeOutcome.status 200), (B, ProbeOutcome.status 503),
        (C, ProbeOutcome.doError)] →
      performChecks [A, B, C] finished true = some [A]) := by
  refine ⟨performChecks_live, ?_, ?_⟩
  · intro finished
    simp [performChecks]
  · intro A B C finished hperm
    obtain ⟨L, hL, _, hp⟩ := performChecks_live [A, B, C]
      [ProbeOutcome.status 200, ProbeOutcome.status 503, ProbeOutcome.doError] finished rfl
      hperm
    have hf : (([A, B, C].zip [ProbeOutcome.status 200, ProbeOutcome.status 503,
        ProbeOutcome.doError]).filter
          (fun p => decide (p.2 = ProbeOutcome.status 200))).map Prod.fst = [A] := by
      simp
    rw [hf] at hp
    rw [hL, List.perm_singleton.1 hp]

/-- Witness for C12: two backends, the second one answering 200 first. -/
theorem health_round_hands_sorted_live_set_witness :
    (∃ L : List String,
      performChecks ["b:80", "a:80"]
        [("a:80", ProbeOutcome.status 200), ("b:80", ProbeOutcome.status 200)] true = some L ∧
      L.Sorted (fun a b => a ≤ b) ∧
      L.Perm (((["b:80", "a:80"].zip
          [ProbeOutcome.status 200, ProbeOutcome.status 200]).filter
        (fun p => decide (p.2 = ProbeOutcome.status 200))).map Prod.fst)) ∧
    performChecks ["a:80", "b:80", "c:80"]
        [("a:80", ProbeOutcome.status 200), ("b:80", ProbeOutcome.status 503),
          ("c:80", ProbeOutcome.doError)] true = some ["a:80"] :=
  ⟨health_round_hands_sorted_live_set.1 ["b:80", "a:80"]
      [ProbeOutcome.status 200, ProbeOutcome.status 200]
      [("a:80", ProbeOutcome.status 200), ("b:80", ProbeOutcome.status 200)] rfl
      (List.Perm.swap _ _ _),
   health_round_hands_sorted_live_set.2.2 "a:80" "b:80" "c:80"
      [("a:80", ProbeOutcome.status 200), ("b:80", ProbeOutcome.status 503),
        ("c:80", ProbeOutcome.doError)] (List.Perm.refl _)⟩

/-- C13: the code fails the claim. `UpdateConfig` calls `c.activeCancel()` also
when the handle is nil, which panics: so it does on a checker that was never
started, on a checker that was started and stopped, and in the subscriber of
`main.go`, whose `Stop` always leaves the handle nil before `UpdateConfig`. On a
started checker `UpdateConfig` returns and stores the four parameters, but it
keeps the handle, so the following `Start` changes nothing and the only
goroutine is the cancelled one with the old parameters. -/
theorem healthChecker_updateConfig_panics_without_loop :
    (∀ (b0 : List String) (i0 t0 : Duration) (p0 : String) (b : List String)
        (i t : Duration) (p : String),
      (NewChecker b0 i0 t0 p0).UpdateConfig b i t p = none ∧
      (∃ c : Checker, (NewChecker b0 i0 t0 p0).Start.Stop = some c ∧
        c.activeCancel = none ∧ c.loops = [] ∧ c.UpdateConfig b i t p = none)) ∧
    (∀ (hc : Checker) (b : List String) (i t : Duration) (p : String),
      healthCheckerSubscriber hc b i t p = none) ∧
    (∀ (b0 : List String) (i0 t0 : Duration) (p0 : String) (b : List String)
        (i t : Duration) (p : String),
      ∃ c : Checker, (NewChecker b0 i0 t0 p0).Start.UpdateConfig b i t p = some c ∧
        c.backends = b ∧ c.interval = i ∧ c.timeout = t ∧ c.path = p ∧
        c.Start = c ∧
        c.loops = [{ ctx := 0, cancelled := true, backends := b0, interval := i0,
                     timeout := t0, path := p0 }]) := by
  refine ⟨?_, ?_, ?_⟩
  · intro b0 i0 t0 p0 b i t p
    refine ⟨rfl, ?_⟩
    refine ⟨{ (NewChecker b0 i0 t0 p0).Start with activeCancel := none, loops := [] }, ?_,
      rfl, rfl, rfl⟩
    simp [Checker.Stop, Checker.Start, NewChecker, cancelCtx]
  · intro hc b i t p
    unfold healthCheckerSubscriber
    cases hs : hc.Stop with
    | none => rfl
    | some hc1 =>
        simp only
        rw [Checker.UpdateConfig_of_idle hc1 b i t p (Checker.Stop_clears hc hc1 hs)]
  · intro b0 i0 t0 p0 b i t p
    refine ⟨_, rfl, ?_⟩
    simp [Checker.Start, NewChecker, cancelCtx]

/-- C14. `Stop` on a checker without handle changes nothing; `Start` on a checker
with a handle changes nothing, so it launches no goroutine; and after any
sequence of `Start` and `Stop` calls on a new checker at most one probing
goroutine exists, exactly one if the handle is set and none if it is not, and a
further `Stop` returns and leaves none. -/
theorem healthChecker_at_most_one_loop :
    (∀ c : Checker, c.activeCancel = none → c.Stop = some c) ∧
    (∀ (c : Checker) (n : Nat), c.activeCancel = some n → c.Start = c) ∧
    (∀ (b : List String) (i t : Duration) (p : String) (calls : List CheckerCall),
      ∃ c : Checker, (NewChecker b i t p).run calls = some c ∧
        c.loops.length ≤ 1 ∧
        (c.activeCancel = none → c.loops = []) ∧
        (c.activeCancel ≠ none → c.loops.length = 1) ∧
        (∃ c1 : Checker, c.Stop = some c1 ∧ c1.loops = [] ∧ c1.activeCancel = none)) := by
  refine ⟨Checker.Stop_of_idle, Checker.Start_of_active, ?_⟩
  intro b i t p calls
  obtain ⟨c, hrun, hinv⟩ := Checker.run_invariant calls (NewChecker b i t p)
    (Or.inl ⟨rfl, rfl⟩)
  refine ⟨c, hrun, ?_⟩
  rcases hinv with ⟨h1, h2⟩ | ⟨n, l, h1, h2, h3⟩
  · refine ⟨by simp [h2], fun _ => h2, fun hne => absurd h1 hne, c,
      Checker.Stop_of_idle c h1, h2, h1⟩
  · refine ⟨by simp [h2], ?_, fun _ => by simp [h2], ?_⟩
    · intro hnone
      rw [h1] at hnone
      exact Option.noConfusion hnone
    · exact ⟨{ c with activeCancel := none, loops := [] },
        by simp [Checker.Stop, h1, h2, cancelCtx, h3], rfl, rfl⟩

/-- Witness for C14: a new checker is idle, a started one has a handle, and the
calls start, start, stop, start leave one goroutine. -/
theorem healthChecker_at_most_one_loop_witness :
    (NewChecker ["a:80"] 10 5 "/health").Stop = some (NewChecker ["a:80"] 10 5 "/health") ∧
    (NewChecker ["a:80"] 10 5 "/health").Start.Start
      = (NewChecker ["a:80"] 10 5 "/health").Start :=
  ⟨healthChecker_at_most_one_loop.1 (NewChecker ["a:80"] 10 5 "/health") rfl,
   healthChecker_at_most_one_loop.2.1 (NewChecker ["a:80"] 10 5 "/health").Start 0 rfl⟩

/-! ## More lemmas on the strategies -/

theorem RoundRobin.Next_some (r r1 : RoundRobin) (res : NextResult)
    (h : r.Next = some (res, r1)) :
    r1.backends = r.backends ∧ ∀ x : String, res = (x, none) → x ∈ r.backends := by
  unfold RoundRobin.Next at h
  by_cases h0 : r.backends.length = 0
  · simp only [h0, if_true, Option.some.injEq, Prod.mk.injEq] at h
    refine ⟨by rw [← h.2], ?_⟩
    intro x hx
    rw [← h.1] at hx
    simp at hx
  · simp only [h0, if_false] at h
    by_cases h1 : 0 ≤ r.index
    · simp only [h1, if_true] at h
      cases hg : r.backends[r.index.toNat]? with
      | none =>
          rw [hg] at h
          exact Option.noConfusion h
      | some b =>
          rw [hg] at h
          simp only [Option.some.injEq, Prod.mk.injEq] at h
          refine ⟨by rw [← h.2], ?_⟩
          intro x hx
          rw [← h.1] at hx
          simp only [Prod.mk.injEq, and_true] at hx
          rw [← hx]
          exact List.getElem?_mem hg
    · simp only [h1, if_false] at h
      exact Option.noConfusion h

theorem RoundRobin.afterNexts_backends (k : Nat) (r s : RoundRobin)
    (h : RoundRobin.afterNexts k r = some s) : s.backends = r.backends := by
  induction k generalizing r with
  | zero =>
      simp only [RoundRobin.afterNexts, Option.some.injEq] at h
      rw [h]
  | succ k ih =>
      simp only [RoundRobin.afterNexts] at h
      cases hn : r.Next with
      | none =>
          rw [hn] at h
          exact Option.noConfusion h
      | some p =>
          obtain ⟨res, r1⟩ := p
          rw [hn] at h
          rw [ih r1 h, (RoundRobin.Next_some r r1 res hn).1]

theorem RoundRobin.Update_backends (r : RoundRobin) (L : List String) :
    (r.Update L).backends = L := by
  simp [RoundRobin.Update]

/-! ## More theorems on the balancing strategies -/

/-- C15. After `Update L` the stored list is `L`, for the round-robin and for the
random strategy; any later `Next` that returns without error, after any number
of `Next` calls and no `Update`, returns an element of `L` and keeps the list;
the random strategy returns `L[d]` for whichever `d < len L` is drawn. -/
theorem next_draws_from_updated_list :
    (∀ (r : RoundRobin) (L : List String), (r.Update L).backends = L) ∧
    (∀ (r : RoundRobin) (L : List String) (k : Nat) (s s1 : RoundRobin) (x : String),
      RoundRobin.afterNexts k (r.Update L) = some s → s.Next = some ((x, none), s1) →
      x ∈ L ∧ s.backends = L ∧ s1.backends = L) ∧
    (∀ (r : Random) (L : List String), (r.Update L).backends = L) ∧
    (∀ (r : Random) (L : List String) (draw : Nat) (x : String) (r1 : Random),
      (r.Update L).Next draw = some ((x, none), r1) → x ∈ L ∧ r1 = r.Update L) ∧
    (∀ (r : Random) (L : List String) (draw : Nat), draw < L.length →
      ∃ x : String, L[draw]? = some x ∧
        (r.Update L).Next draw = some ((x, none), r.Update L)) := by
  refine ⟨RoundRobin.Update_backends, ?_, ?_, ?_, ?_⟩
  · intro r L k s s1 x hk hn
    have hs : s.backends = L := by
      rw [RoundRobin.afterNexts_backends k _ s hk, RoundRobin.Update_backends]
    obtain ⟨h1, h2⟩ := RoundRobin.Next_some s s1 (x, none) hn
    exact ⟨hs ▸ h2 x rfl, hs, h1.trans hs⟩
  · intro r L
    simp [Random.Update]
  · intro r L draw x r1 h
    have hb : (r.Update L).backends = L := by simp [Random.Update]
    unfold Random.Next at h
    rw [hb] at h
    by_cases h0 : L.length = 0
    · simp [h0] at h
    · simp only [h0, if_false] at h
      cases hg : L[draw]? with
      | none =>
          rw [hg] at h
          exact Option.noConfusion h
      | some b =>
          rw [hg] at h
          simp only [Option.some.injEq, Prod.mk.injEq, and_true] at h
          exact ⟨h.1 ▸ List.getElem?_mem hg, h.2.symm⟩
  · intro r L draw hd
    have hb : (r.Update L).backends = L := by simp [Random.Update]
    have h0 : L.length ≠ 0 := by omega
    refine ⟨L[draw], List.getElem?_eq_getElem hd, ?_⟩
    unfold Random.Next
    rw [hb]
    simp [h0, List.getElem?_eq_getElem hd]

/-- Witness for C15: the second `Next` after `Update [a, b]`, and the draw 1 on a
random strategy updated to `[a, b]`. -/
theorem next_draws_from_updated_list_witness :
    ("b" ∈ ["a", "b"] ∧
      ({ backends := ["a", "b"], index := 1 } : RoundRobin).backends = ["a", "b"] ∧
      ({ backends := ["a", "b"], index := 0 } : RoundRobin).backends = ["a", "b"]) ∧
    ("b" ∈ ["a", "b"] ∧
      ({ backends := ["a", "b"] } : Random) = (NewRandom ["x"]).Update ["a", "b"]) ∧
    (∃ x : String, (["a", "b"] : List String)[1]? = some x ∧
      ((NewRandom ["x"]).Update ["a", "b"]).Next 1
        = some ((x, none), (NewRandom ["x"]).Update ["a", "b"])) :=
  ⟨next_draws_from_updated_list.2.1 (NewRoundRobin ["x"]) ["a", "b"] 1
      { backends := ["a", "b"], index := 1 } { backends := ["a", "b"], index := 0 } "b"
      (by decide) (by decide),
   next_draws_from_updated_list.2.2.2.1 (NewRandom ["x"]) ["a", "b"] 1 "b"
      { backends := ["a", "b"] } (by decide),
   next_draws_from_updated_list.2.2.2.2 (NewRandom ["x"]) ["a", "b"] 1 (by decide)⟩

/-! ## Lemmas on the fairness of the rotation -/

theorem ceil_div_nat (k n : Nat) (hn : 0 < n) :
    ⌈(k : ℚ) / (n : ℚ)⌉₊ = (k + n - 1) / n := by
  have hnq : (0 : ℚ) < (n : ℚ) := by exact_mod_cast hn
  apply le_antisymm
  · rw [Nat.ceil_le, div_le_iff₀ hnq]
    have h1 : k ≤ (k + n - 1) / n * n := by
      have e1 := Nat.div_add_mod (k + n - 1) n
      have e2 := Nat.mod_lt (k + n - 1) hn
      rw [Nat.mul_comm] at e1
      omega
    exact_mod_cast h1
  · have h2 : (k : ℚ) / n ≤ (⌈(k : ℚ) / (n : ℚ)⌉₊ : ℚ) := Nat.le_ceil _
    rw [div_le_iff₀ hnq] at h2
    have h3 : k ≤ ⌈(k : ℚ) / (n : ℚ)⌉₊ * n := by exact_mod_cast h2
    have h4 : (k + n - 1) / n < ⌈(k : ℚ) / (n : ℚ)⌉₊ + 1 := by
      rw [Nat.div_lt_iff_lt_mul hn, Nat.add_mul, Nat.one_mul]
      omega
    omega

theorem visit_count_bounds (k n d : Nat) (hn : 0 < n) (hd : d ≤ n - 1) :
    k / n ≤ (k + n - 1 - d) / n ∧ (k + n - 1 - d) / n ≤ (k + n - 1) / n ∧
    (k + n - 1) / n ≤ k / n + 1 := by
  refine ⟨Nat.div_le_div_right (by omega), Nat.div_le_div_right (by omega), ?_⟩
  rw [← Nat.add_div_right k hn]
  exact Nat.div_le_div_right (by omega)

theorem RoundRobin.Next_of_nat_cursor (L : List String) (c : Nat) (hc : c < L.length) :
    ({ backends := L, index := (c : Int) } : RoundRobin).Next
      = some ((L[c], none),
          { backends := L, index := ((if c + 1 = L.length then 0 else c + 1 : Nat) : Int) }) := by
  obtain ⟨x, hx, hn⟩ := RoundRobin.Next_of_valid { backends := L, index := (c : Int) }
    (Int.natCast_nonneg _) (by simpa using hc)
  simp only [Int.toNat_natCast, List.getElem?_eq_getElem hc, Option.some.injEq] at hx
  rw [hn, ← hx]
  have e : ((c : Int) + 1) % (L.length : Int)
      = ((if c + 1 = L.length then 0 else c + 1 : Nat) : Int) := by
    have e1 : ((c : Int) + 1) = ((c + 1 : Nat) : Int) := by push_cast; rfl
    rw [e1, ← Int.natCast_mod]
    congr 1
    by_cases h : c + 1 = L.length
    · rw [if_pos h, h, Nat.mod_self]
    · rw [if_neg h, Nat.mod_eq_of_lt (by omega)]
  simp only [e]

/-- The number of times `k` calls select the entry at position `j` of a
duplicate-free list, from the cursor `c`: position `j` is `d` steps ahead of the
cursor and is then selected every `n` calls. -/
theorem RoundRobin.nextResults_count (L : List String) (hnd : L.Nodup) (j : Nat)
    (hj : j < L.length) (k c : Nat) (hc : c < L.length) :
    ∃ res : List NextResult,
      RoundRobin.nextResults k { backends := L, index := (c : Int) } = some res ∧
      res.count ((L[j], none) : NextResult)
        = (k + L.length - 1 - (if c ≤ j then j - c else j + L.length - c)) / L.length := by
  induction k generalizing c with
  | zero =>
      refine ⟨[], rfl, ?_⟩
      rw [List.count_nil, Nat.div_eq_of_lt]
      split_ifs <;> omega
  | succ k ih =>
      have hn := RoundRobin.Next_of_nat_cursor L c hc
      have hc1 : (if c + 1 = L.length then 0 else c + 1 : Nat) < L.length := by
        split_ifs <;> omega
      obtain ⟨res, hres, hcount⟩ := ih (if c + 1 = L.length then 0 else c + 1) hc1
      refine ⟨(L[c], none) :: res, by simp only [RoundRobin.nextResults, hn, hres], ?_⟩
      by_cases hcj : c = j
      · subst hcj
        rw [List.count_cons_self, hcount]
        have e1 : k + L.length - 1
            - (if (if c + 1 = L.length then 0 else c + 1 : Nat) ≤ c
                then c - (if c + 1 = L.length then 0 else c + 1 : Nat)
                else c + L.length - (if c + 1 = L.length then 0 else c + 1 : Nat)) = k := by
          split_ifs <;> omega
        have e2 : k + 1 + L.length - 1 - (if c ≤ c then c - c else c + L.length - c)
            = k + L.length := by
          split_ifs <;> omega
        rw [e1, e2, Nat.add_div_right k (by omega)]
      · have hne : ((L[c], none) : NextResult) ≠ (L[j], none) := by
          intro heq
          have h1 : L[c] = L[j] := (Prod.mk.injEq _ _ _ _ ▸ heq).1
          exact hcj ((List.Nodup.getElem_inj_iff hnd).1 h1)
        rw [List.count_cons_of_ne hne.symm, hcount]
        congr 1
        split_ifs <;> omega

/-! ## Theorems on the fairness of the rotation -/

/-- C16, as stated, fails on a list that names a backend twice: three `Next`
calls on `NewRoundRobin [a, a, b]` return `a, a, b`, so `a` is selected twice,
while `floor(3/3)` and `ceil(3/3)` are both 1. -/
theorem roundRobin_fairness_counterexample :
    RoundRobin.nextResults 3 (NewRoundRobin ["a", "a", "b"])
      = some [("a", none), ("a", none), ("b", none)] ∧
    ([("a", none), ("a", none), ("b", none)] : List NextResult).count ("a", none) = 2 ∧
    ⌊((3 : Nat) : ℚ) / (((["a", "a", "b"] : List String).length : Nat) : ℚ)⌋₊ = 1 ∧
    ⌈((3 : Nat) : ℚ) / (((["a", "a", "b"] : List String).length : Nat) : ℚ)⌉₊ = 1 ∧
    ¬ (([("a", none), ("a", none), ("b", none)] : List NextResult).count ("a", none)
          = ⌊((3 : Nat) : ℚ) / (((["a", "a", "b"] : List String).length : Nat) : ℚ)⌋₊ ∨
       ([("a", none), ("a", none), ("b", none)] : List NextResult).count ("a", none)
          = ⌈((3 : Nat) : ℚ) / (((["a", "a", "b"] : List String).length : Nat) : ℚ)⌉₊) := by
  have hc : ([("a", none), ("a", none), ("b", none)] : List NextResult).count ("a", none) = 2 := by
    decide
  have hf : ⌊((3 : Nat) : ℚ) / (((["a", "a", "b"] : List String).length : Nat) : ℚ)⌋₊ = 1 := by
    rw [Nat.floor_div_eq_div]
    rfl
  have hce : ⌈((3 : Nat) : ℚ) / (((["a", "a", "b"] : List String).length : Nat) : ℚ)⌉₊ = 1 := by
    rw [ceil_div_nat 3 _ (by decide)]
    rfl
  refine ⟨?_, hc, hf, hce, ?_⟩
  · simp [RoundRobin.nextResults, RoundRobin.Next, NewRoundRobin, Int.tmod]
  · rw [hc, hf, hce]
    decide

/-- C16, amended. On a round-robin strategy whose list `L`, of length `n`, names
no backend twice (cursor in range), `k` consecutive `Next` calls all succeed and
select each backend of `L` exactly `floor(k/n)` or `ceil(k/n)` times. -/
theorem roundRobin_fairness_of_nodup (r : RoundRobin) (h0 : 0 ≤ r.index)
    (h1 : r.index < (r.backends.length : Int)) (hnd : r.backends.Nodup) (k : Nat) :
    ∃ res : List NextResult,
      RoundRobin.nextResults k r = some res ∧
      ∀ x ∈ r.backends,
        res.count ((x, none) : NextResult)
            = ⌊(k : ℚ) / ((r.backends.length : Nat) : ℚ)⌋₊ ∨
        res.count ((x, none) : NextResult)
            = ⌈(k : ℚ) / ((r.backends.length : Nat) : ℚ)⌉₊ := by
  have hlt : r.index.toNat < r.backends.length := by omega
  have hn : 0 < r.backends.length := by omega
  have hr : r = { backends := r.backends, index := ((r.index.toNat : Nat) : Int) } := by
    rw [Int.toNat_of_nonneg h0]
  obtain ⟨x0, hx0⟩ : ∃ x0 : String, x0 ∈ r.backends :=
    ⟨r.backends[0], List.getElem_mem _⟩
  obtain ⟨j0, hj0, _⟩ := List.mem_iff_getElem.1 hx0
  obtain ⟨res, hres, _⟩ :=
    RoundRobin.nextResults_count r.backends hnd j0 hj0 k r.index.toNat hlt
  refine ⟨res, by rw [hr]; exact hres, ?_⟩
  intro x hx
  obtain ⟨j, hj, hxj⟩ := List.mem_iff_getElem.1 hx
  obtain ⟨res2, hres2, hcount⟩ :=
    RoundRobin.nextResults_count r.backends hnd j hj k r.index.toNat hlt
  have hsame : res2 = res := by
    rw [hres] at hres2
    exact (Option.some.inj hres2).symm
  rw [hsame, hxj] at hcount
  rw [Nat.floor_div_eq_div, ceil_div_nat k _ hn, hcount]
  obtain ⟨b1, b2, b3⟩ := visit_count_bounds k r.backends.length
    (if r.index.toNat ≤ j then j - r.index.toNat else j + r.backends.length - r.index.toNat)
    hn (by split_ifs <;> omega)
  omega

/-- Witness for C16 amended: `[a, b, c]` with the cursor at 1, four calls. -/
theorem roundRobin_fairness_of_nodup_witness :
    ∃ res : List NextResult,
      RoundRobin.nextResults 4 { backends := ["a", "b", "c"], index := 1 } = some res ∧
      ∀ x ∈ ["a", "b", "c"],
        res.count ((x, none) : NextResult)
            = ⌊((4 : Nat) : ℚ) / (((["a", "b", "c"] : List String).length : Nat) : ℚ)⌋₊ ∨
        res.count ((x, none) : NextResult)
            = ⌈((4 : Nat) : ℚ) / (((["a", "b", "c"] : List String).length : Nat) : ℚ)⌉₊ :=
  roundRobin_fairness_of_nodup { backends := ["a", "b", "c"], index := 1 }
    (by decide) (by decide) (by decide) 4

/-! ## Lemmas on the atomic cell and the defaults -/

theorem AtomicBalancer.step_value (ab : AtomicBalancer) (call : BalancerCall)
    (h : ab.value ≠ none) : (ab.step call).value ≠ none := by
  cases call with
  | next draw =>
      simp only [AtomicBalancer.step]
      cases hn : ab.Next draw with
      | none => exact h
      | some p =>
          obtain ⟨res, ab1⟩ := p
          simp only
          unfold AtomicBalancer.Next AtomicBalancer.Load at hn
          cases hv : ab.value with
          | none => exact absurd hv h
          | some s =>
              rw [hv] at hn
              simp only at hn
              cases hs : s.Next draw with
              | none =>
                  rw [hs] at hn
                  exact Option.noConfusion hn
              | some q =>
                  rw [hs] at hn
                  simp only [Option.some.injEq, Prod.mk.injEq] at hn
                  rw [← hn.2]
                  simp
  | update backends =>
      simp only [AtomicBalancer.step, AtomicBalancer.Update, AtomicBalancer.Load]
      cases hv : ab.value with
      | none => exact absurd hv h
      | some s => simp
  | setStrategy newBalancer =>
      simp only [AtomicBalancer.step, AtomicBalancer.SetStrategy, AtomicBalancer.Store]
      cases newBalancer with
      | none => exact h
      | some s =>
          cases hv : ab.value with
          | none => exact absurd hv h
          | some old =>
              by_cases ht : old.sameType s = true
              · simp [ht, Run.state]
              · simp [ht, Run.state, hv]

theorem AtomicBalancer.foldl_step_value (calls : List BalancerCall) (ab : AtomicBalancer)
    (h : ab.value ≠ none) : (calls.foldl AtomicBalancer.step ab).value ≠ none := by
  induction calls generalizing ab with
  | nil => exact h
  | cons call rest ih => exact ih _ (AtomicBalancer.step_value ab call h)

theorem withDefaultServer_eq (cfg : Config) :
    withDefaultServer cfg
      = { cfg with
          Server :=
            { Port := if cfg.Server.Port = "" then "8080" else cfg.Server.Port
              ReadTimeout :=
                if cfg.Server.ReadTimeout = 0 then 5 * Second else cfg.Server.ReadTimeout
              WriteTimeout :=
                if cfg.Server.WriteTimeout = 0 then 10 * Second
                else cfg.Server.WriteTimeout } } := by
  unfold withDefaultServer
  by_cases h1 : cfg.Server.Port = "" <;> by_cases h2 : cfg.Server.ReadTimeout = 0 <;>
    by_cases h3 : cfg.Server.WriteTimeout = 0 <;> simp [h1, h2, h3]

theorem withDefaultHealthCheck_eq (cfg : Config) :
    withDefaultHealthCheck cfg
      = { cfg with
          HealthCheck :=
            { IntervalSeconds :=
                if cfg.HealthCheck.IntervalSeconds = 0 then 10 * Second
                else cfg.HealthCheck.IntervalSeconds
              TimeoutSeconds :=
                if cfg.HealthCheck.TimeoutSeconds = 0 then 5 * Second
                else cfg.HealthCheck.TimeoutSeconds
              Path := if cfg.HealthCheck.Path = "" then "/health" else cfg.HealthCheck.Path } } := by
  unfold withDefaultHealthCheck
  by_cases h1 : cfg.HealthCheck.IntervalSeconds = 0 <;>
    by_cases h2 : cfg.HealthCheck.TimeoutSeconds = 0 <;>
    by_cases h3 : cfg.HealthCheck.Path = "" <;> simp [h1, h2, h3]

theorem withDefaultStrategy_eq (cfg : Config) :
    withDefaultStrategy cfg
      = { cfg with Strategy := if cfg.Strategy = "" then "round-robin" else cfg.Strategy } := by
  unfold withDefaultStrategy
  by_cases h1 : cfg.Strategy = "" <;> simp [h1]

theorem withDefaultRateLimiter_eq (cfg : Config) :
    withDefaultRateLimiter cfg
      = { cfg with
          RateLimiter :=
            { Enabled := cfg.RateLimiter.Enabled
              DefaultCapacity :=
                if cfg.RateLimiter.DefaultCapacity = 0 then 100
                else cfg.RateLimiter.DefaultCapacity
              DefaultRate :=
                if cfg.RateLimiter.DefaultRate = 0 then 10 else cfg.RateLimiter.DefaultRate
              ClientOverrides := cfg.RateLimiter.ClientOverrides } } := by
  unfold withDefaultRateLimiter
  by_cases h1 : cfg.RateLimiter.DefaultRate = 0 <;>
    by_cases h2 : cfg.RateLimiter.DefaultCapacity = 0 <;> simp [h1, h2]

/-! ## Theorems on the atomic cell, the factory and the defaults -/

/-- The cell that holds `s` answers a sequence of `Next` and `Update` calls as `s`
itself does, and holds at the end the strategy that `s` has become. -/
theorem AtomicBalancer.runCalls_of_value (calls : List DelegatedCall) (s : Strategy) :
    ({ value := some s } : AtomicBalancer).runCalls calls
      = (s.runCalls calls).map (fun p => (p.1, ({ value := some p.2 } : AtomicBalancer))) := by
  induction calls generalizing s with
  | nil => rfl
  | cons call rest ih =>
      cases call with
      | next draw =>
          simp only [AtomicBalancer.runCalls, Strategy.runCalls, AtomicBalancer.Next,
            AtomicBalancer.Load]
          cases hn : s.Next draw with
          | none => rfl
          | some q =>
              obtain ⟨res, s1⟩ := q
              simp only
              rw [ih s1]
              cases hr : s1.runCalls rest with
              | none => rfl
              | some q2 => rfl
      | update backends =>
          simp only [AtomicBalancer.runCalls, Strategy.runCalls, AtomicBalancer.Update,
            AtomicBalancer.Load]
          exact ih (s.Update backends)

theorem AtomicBalancer.SetStrategy_returned (ab ab1 : AtomicBalancer) (s : Strategy)
    (h : ab.SetStrategy (some s) = Run.returned ab1) : ab1 = { value := some s } := by
  unfold AtomicBalancer.SetStrategy AtomicBalancer.Store at h
  cases hv : ab.value with
  | none =>
      rw [hv] at h
      simp only [Run.returned.injEq] at h
      exact h.symm
  | some old =>
      rw [hv] at h
      simp only at h
      split at h
      · simp only [Run.returned.injEq] at h
        exact h.symm
      · exact Run.noConfusion h

/-- C17. `NewAtomicBalancer(nil)` and `SetStrategy(nil)` panic, while
`NewAtomicBalancer(s)` makes the cell that holds `s`; `SetStrategy(s)` returns,
with `s` in the cell, exactly when the cell is empty or holds a strategy of the
concrete type of `s`, and panics otherwise; a `SetStrategy` that panics leaves
the cell as it was; when `SetStrategy(s)` returns, every sequence of `Next` and
`Update` calls that follows is answered as `s` itself answers it and leaves in
the cell what `s` has become, so the strategy held before serves none of them;
and from the cell that `NewAtomicBalancer(s)` makes, after any calls of `Next`,
`Update` and `SetStrategy`, returned or panicked, the cell holds a strategy. -/
theorem atomicBalancer_cell_never_empty :
    NewAtomicBalancer none = none ∧
    (∀ s : Strategy, NewAtomicBalancer (some s) = some { value := some s }) ∧
    (∀ ab : AtomicBalancer, ab.SetStrategy none = Run.panicked ab) ∧
    (∀ (ab : AtomicBalancer) (s : Strategy),
      (ab.value = none ∨ ∃ old, ab.value = some old ∧ old.sameType s = true) →
      ab.SetStrategy (some s) = Run.returned { value := some s }) ∧
    (∀ (ab : AtomicBalancer) (s old : Strategy),
      ab.value = some old → old.sameType s = false →
      ab.SetStrategy (some s) = Run.panicked ab) ∧
    (∀ (ab ab1 : AtomicBalancer) (b : Balancer),
      ab.SetStrategy b = Run.panicked ab1 → ab1 = ab) ∧
    (∀ (ab ab1 : AtomicBalancer) (s : Strategy),
      ab.SetStrategy (some s) = Run.returned ab1 →
      ab1.value = some s ∧
      ∀ calls : List DelegatedCall,
        ab1.runCalls calls
          = (s.runCalls calls).map
              (fun p => (p.1, ({ value := some p.2 } : AtomicBalancer)))) ∧
    (∀ (s : Strategy) (calls : List BalancerCall),
      ∃ ab0 : AtomicBalancer, NewAtomicBalancer (some s) = some ab0 ∧
        (calls.foldl AtomicBalancer.step ab0).value ≠ none) := by
  refine ⟨rfl, fun s => rfl, fun ab => rfl, ?_, ?_, ?_, ?_, ?_⟩
  · intro ab s h
    unfold AtomicBalancer.SetStrategy AtomicBalancer.Store
    rcases h with h | ⟨old, h, hs⟩
    · rw [h]
    · rw [h]
      simp [hs]
  · intro ab s old h hs
    unfold AtomicBalancer.SetStrategy AtomicBalancer.Store
    rw [h]
    simp [hs]
  · intro ab ab1 b h
    unfold AtomicBalancer.SetStrategy AtomicBalancer.Store at h
    cases b with
    | none =>
        simp only [Run.panicked.injEq] at h
        exact h.symm
    | some s =>
        cases hv : ab.value with
        | none =>
            rw [hv] at h
            exact Run.noConfusion h
        | some old =>
            rw [hv] at h
            simp only at h
            split at h
            · exact Run.noConfusion h
            · simp only [Run.panicked.injEq] at h
              exact h.symm
  · intro ab ab1 s h
    have hv := AtomicBalancer.SetStrategy_returned ab ab1 s h
    subst hv
    exact ⟨rfl, fun calls => AtomicBalancer.runCalls_of_value calls s⟩
  · intro s calls
    refine ⟨{ value := some s }, rfl, ?_⟩
    apply AtomicBalancer.foldl_step_value
    simp

/-- Witness for C17: a cell made with a round-robin strategy over `[a, b]` is
given a round-robin strategy over `[c]`, which then answers `Next`, `Update` to
`[x, y]`, `Next`, `Next` with `c`, `x`, `y`; a random strategy is refused and the
cell is left as it was. -/
theorem atomicBalancer_cell_never_empty_witness :
    (({ value := some (Strategy.roundRobin (NewRoundRobin ["a", "b"])) } :
          AtomicBalancer).SetStrategy (some (Strategy.roundRobin (NewRoundRobin ["c"])))
        = Run.returned { value := some (Strategy.roundRobin (NewRoundRobin ["c"])) }) ∧
    ((({ value := some (Strategy.roundRobin (NewRoundRobin ["c"])) } :
          AtomicBalancer).runCalls
          [DelegatedCall.next 0, DelegatedCall.update ["x", "y"], DelegatedCall.next 0,
            DelegatedCall.next 0]).map Prod.fst
        = some [("c", none), ("x", none), ("y", none)]) ∧
    (({ value := some (Strategy.roundRobin (NewRoundRobin ["a", "b"])) } : AtomicBalancer)
        = { value := some (Strategy.roundRobin (NewRoundRobin ["a", "b"])) }) :=
  ⟨atomicBalancer_cell_never_empty.2.2.2.1
      { value := some (Strategy.roundRobin (NewRoundRobin ["a", "b"])) }
      (Strategy.roundRobin (NewRoundRobin ["c"]))
      (Or.inr ⟨Strategy.roundRobin (NewRoundRobin ["a", "b"]), rfl, rfl⟩),
   by
    rw [(atomicBalancer_cell_never_empty.2.2.2.2.2.2.1
      { value := some (Strategy.roundRobin (NewRoundRobin ["a", "b"])) }
      { value := some (Strategy.roundRobin (NewRoundRobin ["c"])) }
      (Strategy.roundRobin (NewRoundRobin ["c"])) rfl).2]
    decide,
   atomicBalancer_cell_never_empty.2.2.2.2.2.1
      { value := some (Strategy.roundRobin (NewRoundRobin ["a", "b"])) }
      { value := some (Strategy.roundRobin (NewRoundRobin ["a", "b"])) }
      (some (Strategy.random (NewRandom ["a", "b"]))) rfl⟩

/-- C18: the code fails the claim. With the initial strategy `round-robin`, a
reload that names `random` makes the subscriber store a `Random` into the cell
that holds a `RoundRobin`, which panics and leaves the round-robin strategy in
place; and a reload that names `round-robin` is compared with the initial
configuration, so it never touches the cell, whatever the cell holds. -/
theorem balancerSubscriber_does_not_follow_config :
    (∀ (cfg newCfg : Config) (bs bs2 : List String),
      setupBalancer { cfg with Strategy := "round-robin", Backends := bs }
        = some { value := some (Strategy.roundRobin (NewRoundRobin bs)) } ∧
      balancerSubscriber { cfg with Strategy := "round-robin", Backends := bs }
          { value := some (Strategy.roundRobin (NewRoundRobin bs)) }
          { newCfg with Strategy := "random", Backends := bs2 }
        = Run.panicked { value := some (Strategy.roundRobin (NewRoundRobin bs)) }) ∧
    (∀ (cfg newCfg : Config) (ab : AtomicBalancer),
      balancerSubscriber { cfg with Strategy := "round-robin" } ab
          { newCfg with Strategy := "round-robin" }
        = Run.returned ab) := by
  refine ⟨?_, ?_⟩
  · intro cfg newCfg bs bs2
    refine ⟨?_, ?_⟩
    · simp [setupBalancer, NewAtomicBalancer, AtomicBalancer.Store,
        defaultStrategyFactory.Create]
    · simp [balancerSubscriber, AtomicBalancer.SetStrategy, AtomicBalancer.Store,
        defaultStrategyFactory.Create, Strategy.sameType]
  · intro cfg newCfg ab
    simp [balancerSubscriber]

/-- C19. `loadDefaultValues` replaces exactly the zero or empty ones among
`Server.Port`, `Server.ReadTimeout`, `Server.WriteTimeout`,
`HealthCheck.IntervalSeconds`, `HealthCheck.TimeoutSeconds`, `HealthCheck.Path`,
`Strategy`, `RateLimiter.DefaultRate` and `RateLimiter.DefaultCapacity` by
`8080`, 5 s, 10 s, 10 s, 5 s, `/health`, `round-robin`, 10 and 100, and leaves
every other field as it is; a second is 1000000000 nanoseconds. -/
theorem loadDefaultValues_fills_zero_fields (cfg : Config) :
    loadDefaultValues cfg
      = { Server :=
            { Port := if cfg.Server.Port = "" then "8080" else cfg.Server.Port
              ReadTimeout :=
                if cfg.Server.ReadTimeout = 0 then 5 * Second else cfg.Server.ReadTimeout
              WriteTimeout :=
                if cfg.Server.WriteTimeout = 0 then 10 * Second
                else cfg.Server.WriteTimeout }
          Strategy := if cfg.Strategy = "" then "round-robin" else cfg.Strategy
          Backends := cfg.Backends
          HealthCheck :=
            { IntervalSeconds :=
                if cfg.HealthCheck.IntervalSeconds = 0 then 10 * Second
                else cfg.HealthCheck.IntervalSeconds
              TimeoutSeconds :=
                if cfg.HealthCheck.TimeoutSeconds = 0 then 5 * Second
                else cfg.HealthCheck.TimeoutSeconds
              Path := if cfg.HealthCheck.Path = "" then "/health" else cfg.HealthCheck.Path }
          RateLimiter :=
            { Enabled := cfg.RateLimiter.Enabled
              DefaultCapacity :=
                if cfg.RateLimiter.DefaultCapacity = 0 then 100
                else cfg.RateLimiter.DefaultCapacity
              DefaultRate :=
                if cfg.RateLimiter.DefaultRate = 0 then 10 else cfg.RateLimiter.DefaultRate
              ClientOverrides := cfg.RateLimiter.ClientOverrides }
          LogFile := cfg.LogFile
          LogLevel := cfg.LogLevel } ∧
    Second = 1000000000 := by
  refine ⟨?_, rfl⟩
  simp only [loadDefaultValues, useDefault, List.foldl_cons, List.foldl_nil,
    withDefaultServer_eq, withDefaultHealthCheck_eq, withDefaultStrategy_eq,
    withDefaultRateLimiter_eq]

/-- C20. `Create` returns a round-robin strategy over `backends` for the name
`round-robin`, a random strategy over `backends` for the name `random`, and a
round-robin strategy over `backends` for every other name, the empty one
included. -/
theorem factory_create_by_name :
    (∀ backends : List String,
      defaultStrategyFactory.Create "round-robin" backends
        = Strategy.roundRobin { backends := backends, index := 0 }) ∧
    (∀ backends : List String,
      defaultStrategyFactory.Create "random" backends
        = Strategy.random { backends := backends }) ∧
    (∀ (name : String) (backends : List String), name ≠ "round-robin" → name ≠ "random" →
      defaultStrategyFactory.Create name backends
        = Strategy.roundRobin { backends := backends, index := 0 }) ∧
    (∀ backends : List String,
      defaultStrategyFactory.Create "" backends
        = Strategy.roundRobin { backends := backends, index := 0 }) := by
  refine ⟨?_, ?_, ?_, ?_⟩
  · intro backends
    simp [defaultStrategyFactory.Create, NewRoundRobin]
  · intro backends
    simp [defaultStrategyFactory.Create, NewRandom]
  · intro name backends h1 h2
    simp [defaultStrategyFactory.Create, NewRoundRobin, h1, h2]
  · intro backends
    simp [defaultStrategyFactory.Create, NewRoundRobin]

/-- Witness for C20: the unknown name `least-conn`. -/
theorem factory_create_by_name_witness :
    defaultStrategyFactory.Create "least-conn" ["a:80", "b:80"]
      = Strategy.roundRobin { backends := ["a:80", "b:80"], index := 0 } :=
  factory_create_by_name.2.2.1 "least-conn" ["a:80", "b:80"] (by decide) (by decide)

/-! ## Lemmas on the reachable states of the limiter -/

theorem GoMap.count_delete_le {V : Type} (m : GoMap V) (k k2 : String) :
    (m.delete k).entries.countP (fun e => decide (e.1 = k2))
      ≤ m.entries.countP (fun e => decide (e.1 = k2)) :=
  List.Sublist.countP_le _ (List.filter_sublist _)

theorem GoMap.count_set_le {V : Type} (m : GoMap V) (k k2 : String) (v : V)
    (h : m.entries.countP (fun e => decide (e.1 = k2)) ≤ 1) :
    (m.set k v).entries.countP (fun e => decide (e.1 = k2)) ≤ 1 := by
  by_cases hk : k2 = k
  · subst hk
    exact le_of_eq (GoMap.count_set m k2 v)
  · have h1 : ¬ k = k2 := fun e => hk e.symm
    have h2 := GoMap.count_delete_le m k k2
    simp only [GoMap.set, List.countP_cons, h1, decide_False]
    simp only [Bool.false_eq_true, if_false, Nat.add_zero]
    omega

/-- The two facts that every step keeps: a key has a bucket exactly when it has a
last-seen entry, and no key occurs twice in the bucket map. -/
theorem Limiter.step_paired (l : Limiter) (call : LimiterCall)
    (h1 : ∀ k : String, (l.buckets.get k).isSome = (l.lastSeen.get k).isSome)
    (h2 : ∀ k : String, l.buckets.entries.countP (fun e => decide (e.1 = k)) ≤ 1) :
    (∀ k : String, ((l.step call).buckets.get k).isSome = ((l.step call).lastSeen.get k).isSome) ∧
    (∀ k : String, (l.step call).buckets.entries.countP (fun e => decide (e.1 = k)) ≤ 1) := by
  cases call with
  | allow clientID c =>
      simp only [Limiter.step]
      cases hb : l.buckets.get clientID with
      | some b =>
          rw [Limiter.Allow_of_some l clientID c b hb]
          refine ⟨?_, fun k => GoMap.count_set_le _ _ _ _ (h2 k)⟩
          intro k
          by_cases hk : k = clientID
          · subst hk
            simp only [GoMap.get_set_self, Option.isSome_some]
          · simp only [GoMap.get_set_ne _ _ _ _ hk]
            exact h1 k
      | none =>
          rw [Limiter.Allow_of_none l clientID c hb]
          refine ⟨?_, fun k => GoMap.count_set_le _ _ _ _ (GoMap.count_set_le _ _ _ _ (h2 k))⟩
          intro k
          by_cases hk : k = clientID
          · subst hk
            simp only [GoMap.get_set_self, Option.isSome_some]
          · simp only [GoMap.get_set_ne _ _ _ _ hk]
            exact h1 k
  | updateConfig cap rate overrides => exact ⟨h1, h2⟩
  | cleanupTick now ttl =>
      simp only [Limiter.step, Limiter.cleanupTick]
      generalize l.buckets.keys = ks
      induction ks generalizing l with
      | nil => exact ⟨h1, h2⟩
      | cons cid ks ih =>
          simp only [List.foldl_cons]
          apply ih
          · intro k
            rw [Limiter.cleanupVisit_eq]
            by_cases he : l.evictable now ttl cid = true
            · simp only [he, if_true]
              by_cases hk : k = cid
              · subst hk
                rw [GoMap.get_delete_self, GoMap.get_delete_self]
                rfl
              · simp only [GoMap.get_delete_ne _ _ _ hk]
                exact h1 k
            · simp only [he]
              exact h1 k
          · intro k
            rw [Limiter.cleanupVisit_eq]
            by_cases he : l.evictable now ttl cid = true
            · simp only [he, if_true]
              exact le_trans (GoMap.count_delete_le _ _ _) (h2 k)
            · simp only [he]
              exact h2 k

theorem Limiter.runCalls_paired (calls : List LimiterCall) (l : Limiter)
    (h1 : ∀ k : String, (l.buckets.get k).isSome = (l.lastSeen.get k).isSome)
    (h2 : ∀ k : String, l.buckets.entries.countP (fun e => decide (e.1 = k)) ≤ 1) :
    (∀ k : String,
      ((l.runCalls calls).buckets.get k).isSome = ((l.runCalls calls).lastSeen.get k).isSome) ∧
    (∀ k : String,
      (l.runCalls calls).buckets.entries.countP (fun e => decide (e.1 = k)) ≤ 1) := by
  induction calls generalizing l with
  | nil => exact ⟨h1, h2⟩
  | cons call rest ih =>
      obtain ⟨g1, g2⟩ := Limiter.step_paired l call h1 h2
      exact ih (l.step call) g1 g2

theorem Bucket.allow_below_capacity (b : Bucket) (now : Time)
    (h : 1 ≤ b.Capacity → b.Tokens ≤ b.Capacity) :
    1 ≤ (b.allow now).2.Capacity → (b.allow now).2.Tokens ≤ (b.allow now).2.Capacity - 1 := by
  rw [Bucket.allow_eq]
  by_cases h1 : 0 < b.newTokens now
  · have hm := min_le_left b.Capacity (wrapInt (b.Tokens + b.newTokens now))
    by_cases h2 : 0 < min b.Capacity (wrapInt (b.Tokens + b.newTokens now))
    · simp only [h1, h2, if_true]
      intro _
      omega
    · simp only [h1, h2, if_true, if_false]
      intro hc
      omega
  · by_cases h2 : 0 < b.Tokens
    · simp only [h1, h2, if_true, if_false]
      intro hc
      have := h hc
      omega
    · simp only [h1, h2, if_false]
      intro hc
      omega

theorem Limiter.freshBucket_full (l : Limiter) (k : String) (t : Time) :
    (l.freshBucket k t).Tokens = (l.freshBucket k t).Capacity := by
  unfold Limiter.freshBucket
  cases l.overrideClients.get k <;> rfl

theorem Limiter.cleanupTick_get (l : Limiter) (now : Time) (ttl : Duration) (k : String) :
    (l.cleanupTick now ttl).buckets.get k = none ∨
      (l.cleanupTick now ttl).buckets.get k = l.buckets.get k := by
  cases he : l.evictable now ttl k with
  | false => exact Or.inr (Limiter.foldl_cleanupVisit_keep now ttl l.buckets.keys l k he).1
  | true =>
      left
      cases hb : l.buckets.get k with
      | none =>
          unfold Limiter.evictable at he
          rw [hb] at he
          exact Bool.noConfusion he
      | some b =>
          exact (Limiter.foldl_cleanupVisit_evict now ttl l.buckets.keys l k he
            (GoMap.mem_keys_of_get l.buckets k b hb)).1

/-- Every step keeps: a stored bucket of capacity at least 1 is not full. -/
theorem Limiter.step_not_full (l : Limiter) (call : LimiterCall)
    (h : ∀ (k : String) (b : Bucket), l.buckets.get k = some b →
      1 ≤ b.Capacity → b.Tokens ≤ b.Capacity - 1) :
    ∀ (k : String) (b : Bucket), (l.step call).buckets.get k = some b →
      1 ≤ b.Capacity → b.Tokens ≤ b.Capacity - 1 := by
  cases call with
  | allow clientID c =>
      intro k b hk
      simp only [Limiter.step] at hk
      cases hb : l.buckets.get clientID with
      | some b0 =>
          rw [Limiter.Allow_of_some l clientID c b0 hb] at hk
          by_cases hkc : k = clientID
          · subst hkc
            simp only [GoMap.get_set_self, Option.some.injEq] at hk
            rw [← hk]
            apply Bucket.allow_below_capacity
            intro hc
            have := h k b0 hb hc
            omega
          · simp only [GoMap.get_set_ne _ _ _ _ hkc] at hk
            exact h k b hk
      | none =>
          rw [Limiter.Allow_of_none l clientID c hb] at hk
          by_cases hkc : k = clientID
          · subst hkc
            simp only [GoMap.get_set_self, Option.some.injEq] at hk
            rw [← hk]
            apply Bucket.allow_below_capacity
            intro _
            exact le_of_eq (Limiter.freshBucket_full l k c.create)
          · simp only [GoMap.get_set_ne _ _ _ _ hkc] at hk
            exact h k b hk
  | updateConfig cap rate overrides => exact h
  | cleanupTick now ttl =>
      intro k b hk
      simp only [Limiter.step] at hk
      rcases Limiter.cleanupTick_get l now ttl k with h1 | h1
      · rw [h1] at hk
        exact Option.noConfusion hk
      · rw [h1] at hk
        exact h k b hk

theorem Limiter.runCalls_not_full (calls : List LimiterCall) (l : Limiter)
    (h : ∀ (k : String) (b : Bucket), l.buckets.get k = some b →
      1 ≤ b.Capacity → b.Tokens ≤ b.Capacity - 1) :
    ∀ (k : String) (b : Bucket), (l.runCalls calls).buckets.get k = some b →
      1 ≤ b.Capacity → b.Tokens ≤ b.Capacity - 1 := by
  induction calls generalizing l with
  | nil => exact h
  | cons call rest ih => exact ih (l.step call) (Limiter.step_not_full l call h)

/-! ## Theorems on the reachable states of the limiter -/

/-- C21. In the limiter that `NewLimiter` becomes by any sequence of `Allow`
calls, `UpdateConfig` calls and cleanup ticks, a client has a bucket exactly when
it has a last-seen entry and the bucket map holds at most one entry per client;
an `Allow` of a client that has a bucket `b` gets `b` from `getBucket`, is
answered by `b.allow`, and leaves one entry for the client. -/
theorem limiter_bucket_iff_last_seen :
    (∀ (c r : Int) (o : GoMap ClientConfig) (calls : List LimiterCall) (k : String),
      ((((NewLimiter c r o).runCalls calls).buckets.get k).isSome
        ↔ (((NewLimiter c r o).runCalls calls).lastSeen.get k).isSome) ∧
      ((NewLimiter c r o).runCalls calls).buckets.entries.countP
        (fun e => decide (e.1 = k)) ≤ 1) ∧
    (∀ (l : Limiter) (k : String) (b : Bucket) (clk : AllowClock),
      l.buckets.get k = some b →
      (l.getBucket k clk.create clk.seen).1 = b ∧
      (l.getBucket k clk.create clk.seen).2.buckets = l.buckets ∧
      (l.Allow k clk).1 = (b.allow clk.allow).1 ∧
      (l.Allow k clk).2.buckets.get k = some (b.allow clk.allow).2 ∧
      (l.Allow k clk).2.buckets.entries.countP (fun e => decide (e.1 = k)) = 1) := by
  refine ⟨?_, ?_⟩
  · intro c r o calls k
    obtain ⟨g1, g2⟩ := Limiter.runCalls_paired calls (NewLimiter c r o)
      (fun _ => rfl) (fun _ => by simp [NewLimiter, GoMap.empty])
    refine ⟨?_, g2 k⟩
    rw [g1 k]
  · intro l k b clk hb
    have hg := Limiter.getBucket_of_some l k clk.create clk.seen b hb
    have hA := Limiter.Allow_of_some l k clk b hb
    refine ⟨by rw [hg], by rw [hg], by rw [hA], ?_, ?_⟩
    · rw [hA]
      exact GoMap.get_set_self _ _ _
    · rw [hA]
      exact GoMap.count_set _ _ _

/-- Witness for C21: the example state, whose client `id1` has a bucket. -/
theorem limiter_bucket_iff_last_seen_witness :
    (exampleIdleLimiter.Allow "id1" { create := 20, seen := 21, allow := 22 }).1
      = (({ Capacity := 0, Tokens := 0, RefillRate := 1, LastRefilled := 0 } : Bucket).allow
          ({ create := 20, seen := 21, allow := 22 } : AllowClock).allow).1 :=
  (limiter_bucket_iff_last_seen.2 exampleIdleLimiter "id1"
    { Capacity := 0, Tokens := 0, RefillRate := 1, LastRefilled := 0 }
    { create := 20, seen := 21, allow := 22 } rfl).2.2.1

/-- C26. In the limiter that `NewLimiter` becomes by any sequence of `Allow`
calls, `UpdateConfig` calls and cleanup ticks, every stored bucket with
`Capacity ≥ 1` has `Tokens ≤ Capacity − 1`; so a cleanup tick, at whatever
instant and with whatever time-to-live, leaves every such bucket in the map. -/
theorem limiter_positive_bucket_never_evicted :
    ∀ (c r : Int) (o : GoMap ClientConfig) (calls : List LimiterCall) (k : String)
      (b : Bucket),
      ((NewLimiter c r o).runCalls calls).buckets.get k = some b → 1 ≤ b.Capacity →
      b.Tokens ≤ b.Capacity - 1 ∧
      ∀ (now : Time) (ttl : Duration),
        (((NewLimiter c r o).runCalls calls).cleanupTick now ttl).buckets.get k = some b := by
  intro c r o calls k b hb hc
  have hlt := Limiter.runCalls_not_full calls (NewLimiter c r o)
    (fun k b h => by simp [NewLimiter, GoMap.empty, GoMap.get, GoMap.lookup] at h) k b hb hc
  refine ⟨hlt, ?_⟩
  intro now ttl
  have he : ((NewLimiter c r o).runCalls calls).evictable now ttl k = false := by
    unfold Limiter.evictable
    rw [hb]
    cases ((NewLimiter c r o).runCalls calls).lastSeen.get k with
    | none => rfl
    | some seen =>
        have hne : ¬ b.Tokens = b.Capacity := by omega
        simp [hne]
  rw [← hb]
  exact (Limiter.foldl_cleanupVisit_keep now ttl _ _ k he).1

/-- Witness for C26: capacity 2 and rate 1, after one `Allow` of `id1` at
instant 0 the bucket holds one token of two. -/
theorem limiter_positive_bucket_never_evicted_witness :
    ({ Capacity := 2, Tokens := 1, RefillRate := 1, LastRefilled := 0 } : Bucket).Tokens
      ≤ ({ Capacity := 2, Tokens := 1, RefillRate := 1, LastRefilled := 0 } : Bucket).Capacity - 1 ∧
    ∀ (now : Time) (ttl : Duration),
      (((NewLimiter 2 1 GoMap.empty).runCalls
          [LimiterCall.allow "id1" { create := 0, seen := 0, allow := 0 }]).cleanupTick
            now ttl).buckets.get "id1"
        = some { Capacity := 2, Tokens := 1, RefillRate := 1, LastRefilled := 0 } :=
  limiter_positive_bucket_never_evicted 2 1 GoMap.empty
    [LimiterCall.allow "id1" { create := 0, seen := 0, allow := 0 }] "id1"
    { Capacity := 2, Tokens := 1, RefillRate := 1, LastRefilled := 0 }
    (by decide)
    (by decide)

/-! ## Lemmas on the reachable states of the round-robin strategy -/

theorem RoundRobin.Update_valid (r : RoundRobin) (L2 : List String)
    (h1 : r.backends = [] → r.index = 0)
    (h2 : r.backends ≠ [] → 0 ≤ r.index ∧ r.index < (r.backends.length : Int)) :
    ((r.Update L2).backends = [] → (r.Update L2).index = 0) ∧
    ((r.Update L2).backends ≠ [] →
      0 ≤ (r.Update L2).index ∧ (r.Update L2).index < ((r.Update L2).backends.length : Int)) := by
  by_cases hd : L2 = r.backends
  · have hs : slicesEqual r.backends L2 = true := (slicesEqual_iff _ _).2 hd.symm
    by_cases hne : r.backends = []
    · have hl : L2 = [] := hd.trans hne
      subst hl
      simp [RoundRobin.Update, hs, h1 hne]
    · obtain ⟨g1, g2⟩ := h2 hne
      have hlen : ¬ ((L2.length : Int) ≤ r.index) := by
        rw [hd]
        omega
      have hL2 : L2 ≠ [] := by rw [hd]; exact hne
      simp only [RoundRobin.Update, hs, List.nil_append, Bool.not_true, Bool.false_eq_true,
        if_false, ge_iff_le, hlen, and_false]
      refine ⟨fun h => absurd h hL2, fun _ => ⟨g1, by rw [hd]; exact g2⟩⟩
  · by_cases hL2 : L2 = []
    · subst hL2
      have hs : slicesEqual r.backends [] = false := by
        cases h : slicesEqual r.backends [] with
        | false => rfl
        | true => exact absurd ((slicesEqual_iff _ _).1 h).symm hd
      simp [RoundRobin.Update, hs]
    · rw [RoundRobin.Update_of_ne r L2 hL2 hd]
      have : 0 < L2.length := List.length_pos.2 hL2
      refine ⟨fun _ => rfl, fun _ => ⟨le_refl _, by simpa using this⟩⟩

theorem RoundRobin.Next_valid (r : RoundRobin)
    (h1 : r.backends = [] → r.index = 0)
    (h2 : r.backends ≠ [] → 0 ≤ r.index ∧ r.index < (r.backends.length : Int)) :
    ∃ (res : NextResult) (r1 : RoundRobin), r.Next = some (res, r1) ∧
      (r1.backends = [] → r1.index = 0) ∧
      (r1.backends ≠ [] → 0 ≤ r1.index ∧ r1.index < (r1.backends.length : Int)) ∧
      (r.backends = [] → res = ("", some BalancerError.ErrNoHealthyBackends) ∧ r1 = r) ∧
      (r.backends ≠ [] → ∃ x : String, res = (x, none) ∧
        r.backends[r.index.toNat]? = some x) := by
  by_cases hne : r.backends = []
  · refine ⟨("", some BalancerError.ErrNoHealthyBackends), r, by simp [RoundRobin.Next, hne],
      h1, h2, fun _ => ⟨rfl, rfl⟩, fun h => absurd hne h⟩
  · obtain ⟨g1, g2⟩ := h2 hne
    obtain ⟨x, hx, hn⟩ := RoundRobin.Next_of_valid r g1 g2
    have hpos : (0 : Int) < (r.backends.length : Int) := by omega
    refine ⟨(x, none), _, hn, fun h => absurd h hne, fun _ => ?_, fun h => absurd h hne,
      fun _ => ⟨x, rfl, hx⟩⟩
    exact ⟨Int.emod_nonneg _ (by omega), Int.emod_lt_of_pos _ hpos⟩

theorem RoundRobin.runCalls_valid (calls : List RoundRobinCall) (r : RoundRobin)
    (h1 : r.backends = [] → r.index = 0)
    (h2 : r.backends ≠ [] → 0 ≤ r.index ∧ r.index < (r.backends.length : Int)) :
    ∃ s : RoundRobin, r.runCalls calls = some s ∧
      (s.backends = [] → s.index = 0) ∧
      (s.backends ≠ [] → 0 ≤ s.index ∧ s.index < (s.backends.length : Int)) := by
  induction calls generalizing r with
  | nil => exact ⟨r, rfl, h1, h2⟩
  | cons call rest ih =>
      cases call with
      | next =>
          obtain ⟨res, r1, hn, g1, g2, _, _⟩ := RoundRobin.Next_valid r h1 h2
          simp only [RoundRobin.runCalls, hn]
          exact ih r1 g1 g2
      | update backends =>
          obtain ⟨g1, g2⟩ := RoundRobin.Update_valid r backends h1 h2
          simp only [RoundRobin.runCalls]
          exact ih _ g1 g2

theorem RoundRobin.Update_same (r : RoundRobin)
    (h : r.backends = [] ∨ r.index < (r.backends.length : Int)) :
    r.Update r.backends = r := by
  have hs : slicesEqual r.backends r.backends = true := (slicesEqual_iff _ _).2 rfl
  have hc : ¬ (0 < r.backends.length ∧ (r.backends.length : Int) ≤ r.index) := by
    rintro ⟨c1, c2⟩
    rcases h with h | h
    · rw [h] at c1
      simp at c1
    · omega
  simp only [RoundRobin.Update, hs, List.nil_append, Bool.not_true, Bool.false_eq_true,
    if_false, ge_iff_le, gt_iff_lt, hc]

/-! ## Theorems on the reachable states of the round-robin strategy -/

/-- C27. After any sequence of `Next` and `Update` calls on `NewRoundRobin L` no
call has panicked, the cursor is 0 if the list is empty and otherwise satisfies
`0 ≤ cursor < len(list)`, and a further `Next` returns: with
`ErrNoHealthyBackends` on the empty list, otherwise with the entry under the
cursor and no error. -/
theorem roundRobin_cursor_always_in_range (L : List String) (calls : List RoundRobinCall) :
    ∃ s : RoundRobin, (NewRoundRobin L).runCalls calls = some s ∧
      (s.backends = [] → s.index = 0) ∧
      (s.backends ≠ [] → 0 ≤ s.index ∧ s.index < (s.backends.length : Int)) ∧
      (s.backends = [] →
        s.Next = some (("", some BalancerError.ErrNoHealthyBackends), s)) ∧
      (s.backends ≠ [] → ∃ (x : String) (s1 : RoundRobin),
        s.Next = some ((x, none), s1) ∧ s.backends[s.index.toNat]? = some x) := by
  have hv1 : (NewRoundRobin L).backends = [] → (NewRoundRobin L).index = 0 := fun _ => rfl
  have hv2 : (NewRoundRobin L).backends ≠ [] →
      0 ≤ (NewRoundRobin L).index ∧
        (NewRoundRobin L).index < ((NewRoundRobin L).backends.length : Int) := by
    intro hne
    have : 0 < L.length := List.length_pos.2 hne
    exact ⟨le_refl _, by simpa [NewRoundRobin] using this⟩
  obtain ⟨s, hs, g1, g2⟩ := RoundRobin.runCalls_valid calls (NewRoundRobin L) hv1 hv2
  obtain ⟨res, s1, hn, _, _, k1, k2⟩ := RoundRobin.Next_valid s g1 g2
  refine ⟨s, hs, g1, g2, ?_, ?_⟩
  · intro he
    obtain ⟨e1, e2⟩ := k1 he
    rw [hn, e1, e2]
  · intro hne
    obtain ⟨x, e1, e2⟩ := k2 hne
    exact ⟨x, s1, by rw [hn, e1], e2⟩

/-- Witness for C27: `[a, b]`, then `Next`, `Update [a]`, `Next`, `Update []`. -/
theorem roundRobin_cursor_always_in_range_witness :
    ∃ s : RoundRobin,
      (NewRoundRobin ["a", "b"]).runCalls
        [RoundRobinCall.next, RoundRobinCall.update ["a"], RoundRobinCall.next,
          RoundRobinCall.update []] = some s ∧
      (s.backends = [] → s.index = 0) ∧
      (s.backends ≠ [] → 0 ≤ s.index ∧ s.index < (s.backends.length : Int)) ∧
      (s.backends = [] →
        s.Next = some (("", some BalancerError.ErrNoHealthyBackends), s)) ∧
      (s.backends ≠ [] → ∃ (x : String) (s1 : RoundRobin),
        s.Next = some ((x, none), s1) ∧ s.backends[s.index.toNat]? = some x) :=
  roundRobin_cursor_always_in_range ["a", "b"]
    [RoundRobinCall.next, RoundRobinCall.update ["a"], RoundRobinCall.next,
      RoundRobinCall.update []]

/-- C24. `Update L2` stores `L2`; the lists differ exactly when their lengths
differ or some position holds different entries; if `L2` differs from the held
list the cursor is 0 afterwards; if `L2` equals the held list and the cursor is
in range, `Update` changes nothing, so the cursor stays and the rotation goes
on where it was; hence for a cursor in range other than 0 the cursor is 0
afterwards if and only if the lists differ. -/
theorem roundRobin_update_resets_iff_differs (r : RoundRobin) (L2 : List String) :
    (r.Update L2).backends = L2 ∧
    (L2 ≠ r.backends ↔
      (L2.length ≠ r.backends.length ∨ ∃ i : Nat, i < L2.length ∧ L2[i]? ≠ r.backends[i]?)) ∧
    (L2 ≠ r.backends → (r.Update L2).index = 0) ∧
    (L2 = r.backends → (r.backends = [] ∨ r.index < (r.backends.length : Int)) →
      r.Update L2 = r ∧ (r.Update L2).index = r.index) ∧
    ((r.backends = [] ∨ r.index < (r.backends.length : Int)) → r.index ≠ 0 →
      ((r.Update L2).index = 0 ↔ L2 ≠ r.backends)) := by
  have hdiff : L2 ≠ r.backends → (r.Update L2).index = 0 := by
    intro hd
    by_cases hL2 : L2 = []
    · subst hL2
      have hs : slicesEqual r.backends [] = false := by
        cases h : slicesEqual r.backends [] with
        | false => rfl
        | true => exact absurd ((slicesEqual_iff _ _).1 h).symm hd
      simp [RoundRobin.Update, hs]
    · rw [RoundRobin.Update_of_ne r L2 hL2 hd]
  have hsame : L2 = r.backends → (r.backends = [] ∨ r.index < (r.backends.length : Int)) →
      r.Update L2 = r ∧ (r.Update L2).index = r.index := by
    intro he hv
    subst he
    rw [RoundRobin.Update_same r hv]
    exact ⟨rfl, rfl⟩
  refine ⟨RoundRobin.Update_backends r L2, ?_, hdiff, hsame, ?_⟩
  · constructor
    · intro hne
      by_contra hc
      push_neg at hc
      apply hne
      apply List.ext_getElem? 
      intro i
      by_cases hi : i < L2.length
      · exact hc.2 i hi
      · have h1 : L2.length ≤ i := by omega
        have h2 : r.backends.length ≤ i := by rw [← hc.1]; exact h1
        rw [List.getElem?_eq_none h1, List.getElem?_eq_none h2]
    · rintro (h | ⟨i, _, h⟩) he
      · exact h (by rw [he])
      · exact h (by rw [he])
  · intro hv h0
    constructor
    · intro hz hc
      have := (hsame hc hv).2
      rw [hz] at this
      exact h0 this.symm
    · exact hdiff

/-- Witness for C24: `[a, b, c]` with the cursor at 2, updated to itself and to
`[a, c]`. -/
theorem roundRobin_update_resets_iff_differs_witness :
    (({ backends := ["a", "b", "c"], index := 2 } : RoundRobin).Update ["a", "b", "c"]
        = { backends := ["a", "b", "c"], index := 2 } ∧
      (({ backends := ["a", "b", "c"], index := 2 } : RoundRobin).Update ["a", "b", "c"]).index
        = ({ backends := ["a", "b", "c"], index := 2 } : RoundRobin).index) ∧
    (({ backends := ["a", "b", "c"], index := 2 } : RoundRobin).Update ["a", "c"]).index = 0 :=
  ⟨(roundRobin_update_resets_iff_differs { backends := ["a", "b", "c"], index := 2 }
      ["a", "b", "c"]).2.2.2.1 rfl (Or.inr (by decide)),
   (roundRobin_update_resets_iff_differs { backends := ["a", "b", "c"], index := 2 }
      ["a", "c"]).2.2.1 (by decide)⟩

/-! ## Lemmas on the tokens granted over time -/

theorem Bucket.allow_eq_refill (b : Bucket) (now : Time) :
    b.allow now
      = if (b.refill now).Tokens > 0 then
          (true, { b.refill now with Tokens := (b.refill now).Tokens - 1 })
        else (false, b.refill now) := rfl

theorem TrimSuffix_slash_of_not_slash (l : List Char) (h : l.getLast? ≠ some '/') :
    TrimSuffix (String.mk l) "/" = String.mk l := by
  have hs : ['/'].isSuffixOf l = false := by
    rw [Bool.eq_false_iff]
    intro hs
    rw [List.isSuffixOf_iff_suffix] at hs
    obtain ⟨t, ht⟩ := hs
    apply h
    rw [← ht]
    simp
  have e : ("/" : String).toList = ['/'] := rfl
  simp only [TrimSuffix, e, String.toList, hs]
  simp

theorem TrimSuffix_slash_append (l : List Char) :
    TrimSuffix (String.mk (l ++ ['/'])) "/" = String.mk l := by
  have hs : ['/'].isSuffixOf (l ++ ['/']) = true := by simp
  have e : ("/" : String).toList = ['/'] := rfl
  simp only [TrimSuffix, e, String.toList, hs]
  simp

theorem TrimPrefix_slash_cons (l : List Char) :
    TrimPrefix (String.mk ('/' :: l)) "/" = String.mk l := by
  have e : ("/" : String).toList = ['/'] := rfl
  simp [TrimPrefix, HasPrefix, e, String.toList]

theorem TrimPrefix_slash_of_not_slash (l : List Char) (h : l.head? ≠ some '/') :
    TrimPrefix (String.mk l) "/" = String.mk l := by
  have e : ("/" : String).toList = ['/'] := rfl
  have hp : ['/'].isPrefixOf l = false := by
    cases l with
    | nil => rfl
    | cons c cs =>
        have hc : c ≠ '/' := fun hc => h (by simp [hc])
        simp [List.isPrefixOf, hc.symm]
  simp [TrimPrefix, HasPrefix, e, String.toList, hp]

theorem hasDoubleSlash_append_slash (X Y : List Char) (hX : hasDoubleSlash X = false)
    (hl : X.getLast? ≠ some '/') (hh : Y.head? ≠ some '/') (hY : hasDoubleSlash Y = false) :
    hasDoubleSlash (X ++ '/' :: Y) = false := by
  induction X with
  | nil =>
      simp only [List.nil_append, hasDoubleSlash, hY, Bool.or_false]
      cases Y with
      | nil => simp
      | cons c cs =>
          have hc : c ≠ '/' := fun hc => hh (by simp [hc])
          simp [hc]
  | cons a X ih =>
      simp only [hasDoubleSlash, Bool.or_eq_false_iff] at hX
      have hl2 : X.getLast? ≠ some '/' := by
        cases X with
        | nil => simp
        | cons b bs =>
            rw [List.getLast?_cons_cons] at hl
            exact hl
      have hrest := ih hX.2 hl2
      rw [List.cons_append, hasDoubleSlash, hrest, Bool.or_false]
      cases X with
      | nil =>
          have ha : a ≠ '/' := fun ha => hl (by simp [ha])
          simp [ha]
      | cons b bs =>
          simpa using hX.1

theorem mk_append_mk (l r : List Char) : String.mk l ++ String.mk r = String.mk (l ++ r) := by
  apply String.ext
  simp [String.data_append]

theorem mk_ne_empty (l : List Char) (h : l ≠ []) : String.mk l ≠ "" := by
  intro he
  apply h
  have := congrArg String.data he
  simpa using this

theorem probeURL_eq (host rest : List Char) (a p : String)
    (ha : TrimSuffix a "/" = String.mk host) (hp : TrimPrefix p "/" = String.mk rest) :
    probeURL a p
      = String.mk ((if HasPrefix (String.mk host) "http://" = true
              ∨ HasPrefix (String.mk host) "https://" = true then [] else "http://".toList)
          ++ host ++ (if rest = [] then [] else '/' :: rest)) := by
  have hd1 : ("http://" : String).data = "http://".toList := rfl
  have hd2 : ("/" : String).data = ['/'] := rfl
  have e3 : ("" : String) = String.mk [] := rfl
  unfold probeURL
  simp only [ha, hp]
  apply String.ext
  by_cases hr : rest = []
  · subst hr
    rw [if_neg (by rw [e3]; exact fun h => h rfl)]
    by_cases h1 : HasPrefix (String.mk host) "http://" = true
    · simp [h1]
    · by_cases h2 : HasPrefix (String.mk host) "https://" = true
      · simp [h1, h2]
      · simp only [h1, h2, Bool.not_false, Bool.and_self, if_true, or_self, if_false,
          List.append_nil, String.data_append, hd1]
        rfl
  · rw [if_pos (mk_ne_empty rest hr), if_neg hr]
    by_cases h1 : HasPrefix (String.mk host) "http://" = true
    · simp [h1, String.data_append, hd2]
    · by_cases h2 : HasPrefix (String.mk host) "https://" = true
      · simp [h1, h2, String.data_append, hd2]
      · simp only [h1, h2, Bool.not_false, Bool.and_self, if_true, or_self, if_false,
          String.data_append, hd1, hd2]
        simp

/-! ## Theorems on the URL of a probe -/

/-- C22, as stated, fails: only one trailing `/` of the address and one leading
`/` of the path are removed. For the address `host//` and the path `health`,
and for the address `host` and the path `//health`, the URL is
`http://host//health`, which holds `//` after the scheme separator. -/
theorem probe_url_counterexample :
    probeURL "host//" "health" = "http://host//health" ∧
    probeURL "host" "//health" = "http://host//health" ∧
    hasDoubleSlash ("http://host//health".toList.drop "http://".toList.length) = true := by
  decide

/-- C22, amended. Let the address be `host` or `host/` with `host` not ending in
`/`, and the path be `rest` or `/rest` with `rest` not starting with `/`. If
`host` starts with neither `http://` nor `https://` the URL is `http://`, `host`
and, unless `rest` is empty, `/` and `rest`; if `host` is a scheme `http://` or
`https://` followed by `h`, the URL is `host` and, unless `rest` is empty, `/` and
`rest`. So one `/` separates the two parts, and what follows the scheme holds no
`//` if neither the address after its scheme nor `rest` holds one. -/
theorem probe_url_single_slash_join (host rest : List Char) (a p : String)
    (hhost : host.getLast? ≠ some '/')
    (ha : a = String.mk host ∨ a = String.mk (host ++ ['/']))
    (hrest : rest.head? ≠ some '/')
    (hp : p = String.mk rest ∨ p = String.mk ('/' :: rest)) :
    (HasPrefix (String.mk host) "http://" = false →
      HasPrefix (String.mk host) "https://" = false →
      probeURL a p
        = String.mk ("http://".toList ++ host ++ (if rest = [] then [] else '/' :: rest)) ∧
      (hasDoubleSlash host = false → hasDoubleSlash rest = false →
        hasDoubleSlash (host ++ '/' :: rest) = false)) ∧
    (∀ (sch h : List Char), (sch = "http://".toList ∨ sch = "https://".toList) →
      host = sch ++ h →
      probeURL a p = String.mk (sch ++ h ++ (if rest = [] then [] else '/' :: rest)) ∧
      (hasDoubleSlash h = false → hasDoubleSlash rest = false →
        hasDoubleSlash (h ++ '/' :: rest) = false)) := by
  have hta : TrimSuffix a "/" = String.mk host := by
    rcases ha with ha | ha
    · rw [ha]
      exact TrimSuffix_slash_of_not_slash host hhost
    · rw [ha]
      exact TrimSuffix_slash_append host
  have htp : TrimPrefix p "/" = String.mk rest := by
    rcases hp with hp | hp
    · rw [hp]
      exact TrimPrefix_slash_of_not_slash rest hrest
    · rw [hp]
      exact TrimPrefix_slash_cons rest
  have hurl := probeURL_eq host rest a p hta htp
  refine ⟨?_, ?_⟩
  · intro h1 h2
    refine ⟨?_, fun d1 d2 => hasDoubleSlash_append_slash host rest d1 hhost hrest d2⟩
    rw [hurl]
    simp [h1, h2]
  · intro sch h hsch hhost2
    have hpre : HasPrefix (String.mk host) "http://" = true
        ∨ HasPrefix (String.mk host) "https://" = true := by
      rcases hsch with e | e
      · left
        rw [hhost2, e]
        simp [HasPrefix]
      · right
        rw [hhost2, e]
        simp [HasPrefix]
    refine ⟨?_, ?_⟩
    · rw [hurl, if_pos hpre, hhost2]
      simp
    · intro d1 d2
      have hl : h.getLast? ≠ some '/' := by
        intro hl
        apply hhost
        rw [hhost2, List.getLast?_append, hl]
        rfl
      exact hasDoubleSlash_append_slash h rest d1 hl hrest d2

/-- Witness for C22 amended: the address `host:80/` and the path `/health`. -/
theorem probe_url_single_slash_join_witness :
    probeURL "host:80/" "/health"
      = String.mk ("http://".toList ++ "host:80".toList
          ++ (if "health".toList = [] then [] else '/' :: "health".toList)) ∧
    (hasDoubleSlash "host:80".toList = false → hasDoubleSlash "health".toList = false →
      hasDoubleSlash ("host:80".toList ++ '/' :: "health".toList) = false) :=
  (probe_url_single_slash_join "host:80".toList "health".toList "host:80/" "/health"
    (by decide) (Or.inr (by decide)) (by decide) (Or.inr (by decide))).1
    (by decide) (by decide)

/-! ## The rate-limiting middleware -/

theorem firstField_of_no_comma :
    ∀ cs : List Char, ',' ∉ cs → firstField cs = cs
  | [], _ => rfl
  | c :: rest, h => by
      have hc : c ≠ ',' := fun e => h (by simp [e])
      have hr : ',' ∉ rest := fun e => h (List.mem_cons_of_mem _ e)
      simp [firstField, hc, firstField_of_no_comma rest hr]

/-- The bucket of capacity 1 and rate 1, created full at `t0`: a first call at or
after `t0` is granted, and a second call less than a second after `t0` is
refused. -/
theorem Bucket.allow_one_then_refused (t0 t1 t2 : Time) (h1 : t0 ≤ t1)
    (h2 : t2 < t0 + 1000000000) :
    let b : Bucket := { Capacity := 1, Tokens := 1, RefillRate := 1, LastRefilled := t0 }
    (b.allow t1).1 = true ∧ ((b.allow t1).2.allow t2).1 = false := by
  intro b
  have hsub0 : 0 ≤ Time.Sub t1 t0 := by
    rcases Time.Sub_cases t1 t0 with e | ⟨_, hlt⟩ | ⟨e, _⟩
    · rw [e]
      linarith
    · linarith
    · rw [e]
      norm_num
  have hsub1 : Time.Sub t1 t0 ≤ 9223372036854775807 := (Time.Sub_range t1 t0).2
  have hA : b.newTokens t1 < 9223372036854775807 := by
    have h := refillAmount_le_twice (Time.Sub t1 t0) 1 (by linarith)
    have e : b.newTokens t1 = refillAmount (Time.Sub t1 t0) 1 := rfl
    rw [e]
    linarith
  have e1 : (b.allow t1).1 = true ∧
      (b.allow t1).2.Tokens = 0 ∧ (b.allow t1).2.RefillRate = 1 ∧
      (b.allow t1).2.Capacity = 1 ∧
      t0 ≤ (b.allow t1).2.LastRefilled := by
    rw [Bucket.allow_eq]
    by_cases hq : 0 < b.newTokens t1
    · have hw : wrapInt (b.Tokens + b.newTokens t1) = 1 + b.newTokens t1 :=
        wrapInt_of_range _ (by show -9223372036854775808 ≤ 1 + b.newTokens t1; linarith)
          (by show 1 + b.newTokens t1 < 9223372036854775808; linarith)
      have hm : min b.Capacity (1 + b.newTokens t1) = 1 := by
        apply min_eq_left
        show (1 : Int) ≤ 1 + b.newTokens t1
        linarith
      rw [if_pos hq, hw, hm]
      simp [h1]
    · rw [if_neg hq]
      simp [b]
  obtain ⟨g1, gT, gR, gC, gL⟩ := e1
  refine ⟨g1, ?_⟩
  have hfl : ⌊exactSeconds (t2 - (b.allow t1).2.LastRefilled)
      * ((b.allow t1).2.RefillRate : ℚ)⌋ ≤ 0 := by
    rw [floor_exactSeconds_mul, gR, mul_one]
    have hlt : t2 - (b.allow t1).2.LastRefilled < 1000000000 := by linarith
    have key : ∀ X : Int, X < 1000000000 → X / 1000000000 ≤ 0 := fun X hX => by omega
    exact key _ hlt
  rw [Bucket.allow_of_no_refill _ t2 hfl, gT]
  simp

/-- C23. For every request whose client identifier `ReqToIP` resolves without
error, the handler that `Middleware` returns invokes the wrapped handler if and
only if `Limiter.Allow` of the identifier returns true (the answer is then the
status of the wrapped handler), and otherwise answers 429 without invoking it;
when `ReqToIP` returns an error it answers 401, does not invoke the wrapped
handler and leaves the limiter as it was. With a limiter of capacity 1 and rate
1, the first request of the client `test-client` receives the 200 of the
handler, and a second request less than a second after the bucket was created
receives 429. -/
theorem middleware_follows_allow :
    (∀ (rl : Limiter) (next : Request → Int) (r : Request) (clk : AllowClock),
      (ReqToIP r).2 = false →
        ((Middleware rl next r clk).1.handlerInvoked = true
            ↔ (rl.Allow (ReqToIP r).1.v clk).1 = true) ∧
        ((rl.Allow (ReqToIP r).1.v clk).1 = true →
          Middleware rl next r clk
            = ({ status := next r, handlerInvoked := true },
                (rl.Allow (ReqToIP r).1.v clk).2)) ∧
        ((rl.Allow (ReqToIP r).1.v clk).1 = false →
          Middleware rl next r clk
            = ({ status := 429, handlerInvoked := false },
                (rl.Allow (ReqToIP r).1.v clk).2))) ∧
    (∀ (rl : Limiter) (next : Request → Int) (r : Request) (clk : AllowClock),
      (ReqToIP r).2 = true →
        Middleware rl next r clk = ({ status := 401, handlerInvoked := false }, rl)) ∧
    (∀ (c1 c2 : AllowClock), c1.create ≤ c1.allow → c2.allow < c1.create + Second →
      let req : Request :=
        { forwardedFor := "test-client", RemoteAddr := "192.0.2.1:1234",
          splitHostPort := some "192.0.2.1" }
      let first := Middleware (NewLimiter 1 1 GoMap.empty) (fun _ => 200) req c1
      first.1 = { status := 200, handlerInvoked := true } ∧
      (Middleware first.2 (fun _ => 200) req c2).1
        = { status := 429, handlerInvoked := false }) := by
  refine ⟨?_, ?_, ?_⟩
  · intro rl next r clk herr
    cases hA : (rl.Allow (ReqToIP r).1.v clk).1 <;>
      simp [Middleware, herr, hA, ErrTooManyRequests]
  · intro rl next r clk herr
    simp [Middleware, herr, ErrUnauthorized]
  · intro c1 c2 h1 h2 req first
    have hreq : ReqToIP req = ({ v := "test-client", t := "IP" }, false) := by decide
    have hnone : (NewLimiter 1 1 GoMap.empty).buckets.get "test-client" = none := rfl
    have hfresh : (NewLimiter 1 1 GoMap.empty).freshBucket "test-client" c1.create
        = { Capacity := 1, Tokens := 1, RefillRate := 1, LastRefilled := c1.create } := rfl
    have hb := Bucket.allow_one_then_refused c1.create c1.allow c2.allow h1 h2
    simp only at hb
    rw [← hfresh] at hb
    have hA1 := Limiter.Allow_of_none (NewLimiter 1 1 GoMap.empty) "test-client" c1 hnone
    have hfirst : first
        = ({ status := 200, handlerInvoked := true },
            ((NewLimiter 1 1 GoMap.empty).Allow "test-client" c1).2) := by
      simp [first, Middleware, hreq, hA1, hb.1]
    refine ⟨by rw [hfirst], ?_⟩
    rw [hfirst]
    simp only
    have hget : ((NewLimiter 1 1 GoMap.empty).Allow "test-client" c1).2.buckets.get
        "test-client"
        = some ((((NewLimiter 1 1 GoMap.empty).freshBucket "test-client" c1.create).allow
            c1.allow).2) := by
      rw [hA1]
      exact GoMap.get_set_self _ _ _
    have hA2 := Limiter.Allow_of_some _ "test-client" c2 _ hget
    simp [Middleware, hreq, hA2, hb.2, ErrTooManyRequests]

theorem middleware_follows_allow_witness :
    (ReqToIP ⟨"", "10.0.0.7:5000", some "10.0.0.7"⟩).2 = false ∧
    (Middleware (NewLimiter 1 1 GoMap.empty) (fun _ => 200)
        ⟨"", "10.0.0.7:5000", some "10.0.0.7"⟩ ⟨0, 0, 0⟩).1
      = { status := 200, handlerInvoked := true } :=
  ⟨by decide,
    congrArg Prod.fst
      ((middleware_follows_allow.1 (NewLimiter 1 1 GoMap.empty) (fun _ => 200)
        ⟨"", "10.0.0.7:5000", some "10.0.0.7"⟩ ⟨0, 0, 0⟩ (by decide)).2.1
        (by decide))⟩

/-! ## The configuration supervisor -/

/-- C29. A watcher reload stores the parsed configuration itself as current and
hands the same value to every subscriber, without the defaults that `Init`
applies: for a file that gives only the port and the backends, `Init` stores
`loadDefaultValues` of the parsed configuration, while the reload stores and
dispatches a configuration with `health_check.interval = 0`, an empty strategy
and `rate_limiter.default_capacity = 0`, which differs from
`loadDefaultValues` of it. -/
theorem watchReload_skips_defaults :
    (∀ (store : ConfigStore) (cfg : Config),
      (watchReload store cfg).1.current = some cfg ∧
      ∀ c ∈ (watchReload store cfg).2, c = cfg) ∧
    (let parsed : Config :=
      { Server := { Port := "8080", ReadTimeout := 0, WriteTimeout := 0 }
        Strategy := ""
        Backends := ["http://backend1:8081"]
        HealthCheck := { IntervalSeconds := 0, TimeoutSeconds := 0, Path := "" }
        RateLimiter :=
          { Enabled := false, DefaultCapacity := 0, DefaultRate := 0, ClientOverrides := [] }
        LogFile := ""
        LogLevel := "" }
     let started := Init { current := none, subscribers := 2 } parsed
     started.current = some (loadDefaultValues parsed) ∧
     (watchReload started parsed).1.current = some parsed ∧
     (watchReload started parsed).2 = [parsed, parsed] ∧
     parsed ≠ loadDefaultValues parsed ∧
     parsed.HealthCheck.IntervalSeconds = 0 ∧
     parsed.Strategy = "" ∧
     parsed.RateLimiter.DefaultCapacity = 0 ∧
     (loadDefaultValues parsed).HealthCheck.IntervalSeconds = 10 * Second ∧
     (loadDefaultValues parsed).Strategy = "round-robin" ∧
     (loadDefaultValues parsed).RateLimiter.DefaultCapacity = 100) := by
  refine ⟨?_, ?_⟩
  · intro store cfg
    refine ⟨rfl, ?_⟩
    intro c hc
    exact List.eq_of_mem_replicate hc
  · decide

end LoadBalancer
